import Mathlib

/-!
# The mutable write path of a column (`server/jamovi/core/columnw.{h,cpp}`)

A shallow embedding of `ColumnW`: the row block store, the level dictionary,
the cell accessors that keep the two in step, and the metadata setters with
the change counter.

Conventions of the embedding.

* A C `int` that is stored (cell values, level values, counters) is an `Int`;
  `++` and `--` on a stored counter or level value wrap at 32 bits (`wrapInt`).
  Row indices, row counts, block counts and capacities are `Nat`: the model
  covers the runs in which they are representable.
* A failed `assert` is `none`; `removeLevelTraced` also returns the column the
  failed assertion leaves behind.
* The arena (`memorymapw.h`), the read-only base class (`column.h`) and the
  owning dataset (`datasetw.h`) are not among the sources; what the write path
  uses of them is modelled from the specification and marked as such.
-/

namespace Jamovi

/-! ## Machine integers -/

/-- The missing sentinel of an integer cell, `INT_MIN` of `<climits>`. -/
def INT_MIN : Int := -2147483648

/-- The largest `int`. -/
def INT_MAX : Int := 2147483647

/-- Two's-complement reduction of an `int` result to 32 bits. -/
def wrapInt (x : Int) : Int := (x + 2147483648) % 4294967296 - 2147483648

/-! ## Data model -/

/-- Modelled from the spec: the `DataType::Type` enumeration of `column.h`
(integer / decimal / text). -/
inductive DataType where
  | INTEGER
  | DECIMAL
  | TEXT
deriving DecidableEq, Repr

/-- Modelled from the spec: the `MeasureType::Type` enumeration of `column.h`
(nominal / ordinal / continuous / id). -/
inductive MeasureType where
  | NOMINAL
  | ORDINAL
  | CONTINUOUS
  | ID
deriving DecidableEq, Repr

/-- Modelled from the spec: the `Level` record of `column.h`, with the seven
fields `appendLevel` writes. `label` and `importValue` stand for the owned text
the stored offsets refer to. -/
structure Level where
  value : Int := 0
  capacity : Nat := 0
  label : String := ""
  importCapacity : Nat := 0
  importValue : String := ""
  count : Int := 0
  countExFiltered : Int := 0
deriving DecidableEq, Repr, Inhabited

/-- Modelled from the spec: the arena of `memorymapw.h`. `top` is the first free
offset; `granted n` is the capacity the provider really hands out for a request
of `n` bytes (its rounding is not specified); `chars o` is the terminated text
that starts at offset `o`, for the offsets at which a text was copied. -/
structure MemoryMapW where
  top : Nat := 0
  granted : Nat → Nat := fun n => n
  chars : Nat → String := fun _ => ""

/-- Modelled from the spec: `allocate` / `allocateSize`: the new region starts
at the current end of the arena. Returns the arena after the call, the stable
offset of the region and the capacity granted. -/
def MemoryMapW.allocate (mm : MemoryMapW) (n : Nat) : MemoryMapW × Nat × Nat :=
  ({ mm with top := mm.top + mm.granted n }, mm.top, mm.granted n)

/-- Modelled from the spec: `memcpy` of a terminated text into the region that
starts at `offset`. Regions handed out by the arena are taken not to overlap. -/
def MemoryMapW.store (mm : MemoryMapW) (offset : Nat) (text : String) : MemoryMapW :=
  { mm with chars := fun o => if o = offset then text else mm.chars o }

/-- Modelled from the spec: `ColumnType::Type` of `column.h`. -/
inductive ColumnType where
  | DATA
  | COMPUTED
  | RECODED
deriving DecidableEq, Repr

/-- Modelled from the spec: the owning dataset of `datasetw.h`, of which the
write path only consumes the predicate `isRowFiltered`. -/
structure DataSetW where
  isRowFiltered : Nat → Bool := fun _ => false

/-- Modelled from the spec: the `ColumnStruct` record of `column.h`, restricted
to the fields the write path touches. The three `values` fields are the
contents of the column's blocks, addressed by block index and byte offset
inside the block, one view per cell type (aliasing between views of different
cell types is memory layout and is not modelled). `levels` holds the
`levelsUsed` live entries of the array stored at `levelsOffset`. `name`,
`formula` and `formulaMessage` are offsets of texts in the arena. -/
structure ColumnStruct where
  changes : Int := 0
  dataType : DataType := DataType.INTEGER
  measureType : MeasureType := MeasureType.NOMINAL
  trimLevels : Bool := false
  rowCount : Nat := 0
  blocks : List Nat := []
  blocksUsed : Nat := 0
  ivalues : Nat → Nat → Int := fun _ _ => 0
  dvalues : Nat → Nat → Option Rat := fun _ _ => some 0
  svalues : Nat → Nat → Option String := fun _ _ => none
  levelsOffset : Nat := 0
  levels : List Level := []
  levelsCapacity : Nat := 0
  id : Int := 0
  name : Nat := 0
  columnType : ColumnType := ColumnType.DATA
  autoMeasure : Bool := false
  dps : Int := 0
  active : Bool := false
  formula : Nat := 0
  formulaCapacity : Nat := 0
  formulaMessage : Nat := 0
  formulaMessageCapacity : Nat := 0

/-- A writable column: `_parent`, `_mm` and the record `_rel` resolves to,
together with the two block constants of the missing headers, which are taken
as parameters. -/
structure ColumnW where
  parent : DataSetW := {}
  mm : MemoryMapW := {}
  s : ColumnStruct := {}
  BLOCK_SIZE : Nat := 0
  VALUES_SPACE : Nat := 0

namespace ColumnW

/-! ## Getters of the base class -/

/-- Modelled from the spec: `Column::rowCount`. -/
def rowCount (c : ColumnW) : Nat := c.s.rowCount

/-- Modelled from the spec: `Column::dataType`. -/
def dataType (c : ColumnW) : DataType := c.s.dataType

/-- Modelled from the spec: `Column::measureType`. -/
def measureType (c : ColumnW) : MeasureType := c.s.measureType

/-- Modelled from the spec: `Column::trimLevels`. -/
def trimLevels (c : ColumnW) : Bool := c.s.trimLevels

/-- The `levelsUsed` counter. -/
def levelsUsed (c : ColumnW) : Nat := c.s.levels.length

/-- `ColumnW::changes` (columnw.cpp:475). -/
def changes (c : ColumnW) : Int := c.s.changes

/-- Modelled from the spec: `Column::name`, the text the stored offset resolves to. -/
def name (c : ColumnW) : String := c.mm.chars c.s.name

/-- Modelled from the spec: `Column::formula`. -/
def formula (c : ColumnW) : String := c.mm.chars c.s.formula

/-- Modelled from the spec: `Column::formulaMessage`. -/
def formulaMessage (c : ColumnW) : String := c.mm.chars c.s.formulaMessage

/-! ## Row addressing -/

/-- Block owning cell `index` of element size `size`:
`index * sizeof(T) / VALUES_SPACE` (columnw.h:90). -/
def blockIndex (c : ColumnW) (size index : Nat) : Nat :=
  index * size / c.VALUES_SPACE

/-- Byte offset of cell `index` inside its block:
`(index % (VALUES_SPACE / sizeof(T))) * sizeof(T)` (columnw.h:94-96). -/
def byteOffset (c : ColumnW) (size index : Nat) : Nat :=
  index % (c.VALUES_SPACE / size) * size

/-- Store `v` at block `b`, byte offset `o` of a typed view of the blocks. -/
def put {α : Type} (f : Nat → Nat → α) (b o : Nat) (v : α) : Nat → Nat → α :=
  fun b' o' => if b' = b ∧ o' = o then v else f b' o'

/-- Modelled from the spec: read of `cellAt<int>(index)` (`column.h`), with the
addressing `append` spells out. -/
def cellAtInt (c : ColumnW) (index : Nat) : Int :=
  c.s.ivalues (c.blockIndex 4 index) (c.byteOffset 4 index)

/-- Modelled from the spec: `cellAt<int>(index) = v`. -/
def setCellInt (c : ColumnW) (index : Nat) (v : Int) : ColumnW :=
  { c with s := { c.s with
      ivalues := put c.s.ivalues (c.blockIndex 4 index) (c.byteOffset 4 index) v } }

/-- Modelled from the spec: read of `cellAt<double>(index)`; `none` is NaN. -/
def cellAtDouble (c : ColumnW) (index : Nat) : Option Rat :=
  c.s.dvalues (c.blockIndex 8 index) (c.byteOffset 8 index)

/-- Modelled from the spec: `cellAt<double>(index) = v`. -/
def setCellDouble (c : ColumnW) (index : Nat) (v : Option Rat) : ColumnW :=
  { c with s := { c.s with
      dvalues := put c.s.dvalues (c.blockIndex 8 index) (c.byteOffset 8 index) v } }

/-- Modelled from the spec: `cellAt<char*>(index) = v`; `none` is NULL. -/
def setCellText (c : ColumnW) (index : Nat) (v : Option String) : ColumnW :=
  { c with s := { c.s with
      svalues := put c.s.svalues (c.blockIndex 8 index) (c.byteOffset 8 index) v } }

/-- Modelled from the spec: `Column::ivalue`, the integer read of a row. -/
def ivalue (c : ColumnW) (rowIndex : Nat) : Int := c.cellAtInt rowIndex

/-- The integer cells of rows `0 .. rowCount - 1`, in row order. -/
def rows (c : ColumnW) : List Int := (List.range c.rowCount).map c.ivalue

/-! ## Row block store (columnw.h) -/

/-- The allocation loop of `setRowCount` (columnw.h:54-61), run `n` times:
allocate one block, record its offset in the directory, count it. -/
def growBlocks : Nat → ColumnW → ColumnW
  | 0, c => c
  | n + 1, c =>
    let r := c.mm.allocate c.BLOCK_SIZE
    growBlocks n { c with mm := r.1,
                          s := { c.s with blocks := c.s.blocks ++ [r.2.1],
                                          blocksUsed := c.s.blocksUsed + 1 } }

/-- `ColumnW::setRowCount<T>(count)` (columnw.h:49-81); `size` is `sizeof(T)`. -/
def setRowCount (c : ColumnW) (size count : Nat) : ColumnW :=
  let blocksRequired := count * size / c.VALUES_SPACE + 1
  let c1 := growBlocks (blocksRequired - c.s.blocksUsed) c
  let oldCount := c1.s.rowCount
  let c2 : ColumnW := { c1 with s := { c1.s with rowCount := count } }
  let fresh := List.range' oldCount (count - oldCount)
  if c2.measureType = MeasureType.ID then
    fresh.foldl (fun a i => a.setCellText i none) c2
  else if c2.dataType = DataType.DECIMAL then
    fresh.foldl (fun a i => a.setCellDouble i none) c2
  else
    fresh.foldl (fun a i => a.setCellInt i INT_MIN) c2

/-- `ColumnW::append<int>(value)` (columnw.h:83-98): the block and the slot
are computed from `cs->rowCount` as re-read after `setRowCount`. -/
def append (c : ColumnW) (value : Int) : ColumnW :=
  let c1 := c.setRowCount 4 (c.s.rowCount + 1)
  let blockIndex := c1.s.rowCount * 4 / c1.VALUES_SPACE
  let index := c1.s.rowCount % (c1.VALUES_SPACE / 4)
  { c1 with s := { c1.s with ivalues := put c1.s.ivalues blockIndex (index * 4) value } }

/-- `ColumnW::insertRows(insStart, insEnd)` (columnw.cpp:233-259), for
`insStart ≤ insEnd + 1`. -/
def insertRows (c : ColumnW) (insStart insEnd : Nat) : ColumnW :=
  let insCount := insEnd + 1 - insStart
  let startCount := c.rowCount
  let finalCount := startCount + insCount
  let moved := (List.range' (insEnd + 1) (finalCount - (insEnd + 1))).reverse
  let filled := List.range' insStart (insEnd + 1 - insStart)
  if c.dataType = DataType.DECIMAL then
    let c1 := c.setRowCount 8 finalCount
    let c2 := moved.foldl (fun a j => a.setCellDouble j (a.cellAtDouble (j - insCount))) c1
    filled.foldl (fun a j => a.setCellDouble j none) c2
  else
    let c1 := c.setRowCount 4 finalCount
    let c2 := moved.foldl (fun a j => a.setCellInt j (a.cellAtInt (j - insCount))) c1
    filled.foldl (fun a j => a.setCellInt j INT_MIN) c2

/-! ## Level dictionary (columnw.cpp) -/

/-- Size in bytes of a `Level` record. Modelled from the spec: two ints, two
owned texts with their capacities and two counters; no property depends on
the figure. -/
def sizeofLevel : Nat := 40

/-- The search loop `for (; i < levelsUsed; i++) if (levels[i].value == value)
break;` (columnw.cpp:436-440): the first position holding `value`, or the
number of entries when there is none. -/
def scanLevels : List Level → Int → Nat
  | [], _ => 0
  | l :: ls, value => if l.value = value then 0 else scanLevels ls value + 1

/-- Modelled from the spec: `Column::rawLevel`, the lookup of a level by coded
value; the result is the position of the entry found, `none` for NULL. -/
def rawLevel (c : ColumnW) (value : Int) : Option Nat :=
  let i := scanLevels c.s.levels value
  if i = c.levelsUsed then none else some i

/-- Replace the live entries of the dictionary. -/
def withLevels (c : ColumnW) (ls : List Level) : ColumnW :=
  { c with s := { c.s with levels := ls } }

/-- The statement `s->changes++`. -/
def bumpChanges (c : ColumnW) : ColumnW :=
  { c with s := { c.s with changes := wrapInt (c.s.changes + 1) } }

/-- `ColumnW::appendLevel(value, label, importValue)` (columnw.cpp:261-316).
`importValue = none` is the NULL default. When the old capacity is zero the
old entries are not copied into the new array, so whatever the dictionary
claimed to hold is replaced by unwritten records. -/
def appendLevel (c : ColumnW) (value : Int) (label : String)
    (importValue : Option String) : ColumnW :=
  let c1 : ColumnW :=
    if c.levelsUsed + 1 ≥ c.s.levelsCapacity then
      let oldCapacity := c.s.levelsCapacity
      let newCapacity := if oldCapacity = 0 then 50 else 2 * oldCapacity
      let r := c.mm.allocate (newCapacity * sizeofLevel)
      { c with mm := r.1,
               s := { c.s with
                 levels := if oldCapacity > 0 then c.s.levels
                           else c.s.levels.map (fun _ => default),
                 levelsOffset := r.2.1,
                 levelsCapacity := newCapacity } }
    else c
  let r1 := c1.mm.allocate (label.utf8ByteSize + 1)
  let importText := match importValue with
    | none => label
    | some t => t
  let r2 := r1.1.allocate (importText.utf8ByteSize + 1)
  let l : Level :=
    { value := value, capacity := r1.2.2, label := label,
      importCapacity := r2.2.2, importValue := importText,
      count := 0, countExFiltered := 0 }
  bumpChanges { c1 with mm := r2.1, s := { c1.s with levels := c1.s.levels ++ [l] } }

/-- The five assignments that write the new level into an existing slot
(columnw.cpp:377-382, 405-409, 417-422); the two capacity fields of the slot
are not assigned. -/
def writeNewLevel (value : Int) (baseLabel baseImportValue : String) (slot : Level) : Level :=
  { slot with value := value, label := baseLabel, importValue := baseImportValue,
              count := 0, countExFiltered := 0 }

/-- The detection loop of `insertLevel` (columnw.cpp:358-367): the flags
`(ascending, descending)` after `for (i = 0; i < lastIndex - 1; i++)`. -/
def detectOrder (levels : List Level) (lastIndex : Nat) : Bool × Bool :=
  (List.range (lastIndex - 1)).foldl
    (fun f i =>
      let level := levels.getD i default
      let nextLevel := levels.getD (i + 1) default
      (if f.1 && decide (level.value > nextLevel.value) then false else f.1,
       if f.2 && decide (level.value < nextLevel.value) then false else f.2))
    (true, true)

/-- The placement loop of `insertLevel` (columnw.cpp:388-423). The first
argument is `i + 1` for the loop variable `i`; at `0` the loop has run out
without inserting and the new level goes to slot `0`. -/
def placeLevel (ascending descending : Bool) (value : Int)
    (baseLabel baseImportValue : String) : Nat → List Level → Option (List Level)
  | 0, levels => some (levels.modify (writeNewLevel value baseLabel baseImportValue) 0)
  | i + 1, levels =>
    let level := levels.getD i default
    if level.value = value then none
    else if ascending && decide (level.value > value) then
      placeLevel ascending descending value baseLabel baseImportValue i (levels.set (i + 1) level)
    else if descending && decide (level.value < value) then
      placeLevel ascending descending value baseLabel baseImportValue i (levels.set (i + 1) level)
    else
      some (levels.modify (writeNewLevel value baseLabel baseImportValue) (i + 1))

/-- `ColumnW::insertLevel(value, label, importValue)` (columnw.cpp:348-427). -/
def insertLevel (c : ColumnW) (value : Int) (label : String)
    (importValue : Option String) : Option ColumnW :=
  let c1 := c.appendLevel value label importValue
  let levels := c1.s.levels
  let lastIndex := c1.levelsUsed - 1
  let baseLabel := (levels.getD lastIndex default).label
  let baseImportValue := (levels.getD lastIndex default).importValue
  let flags := detectOrder levels lastIndex
  let ascending := flags.1
  let descending := if flags.1 && flags.2 then false else flags.2
  let placed :=
    if ascending = false ∧ descending = false then
      some (levels.modify (writeNewLevel value baseLabel baseImportValue) lastIndex)
    else
      placeLevel ascending descending value baseLabel baseImportValue lastIndex levels
  placed.map (fun ls => bumpChanges (c1.withLevels ls))

/-- The row scan of the consolidation in `removeLevel` (columnw.cpp:458-462):
a cell above the removed code is decremented. -/
def consolidateRows (value : Int) : List Nat → ColumnW → ColumnW
  | [], c => c
  | i :: is, c =>
    let v := c.cellAtInt i
    consolidateRows value is (if v > value then c.setCellInt i (v - 1) else c)

/-- `ColumnW::removeLevel(value)` (columnw.cpp:429-466). -/
def removeLevel (c : ColumnW) (value : Int) : Option ColumnW :=
  let i := scanLevels c.s.levels value
  if i = c.levelsUsed then none
  else
    let index := i
    let c1 := c.withLevels (c.s.levels.eraseIdx index)
    let c2 :=
      if c1.dataType = DataType.TEXT then
        let c3 := c1.withLevels
          (c1.s.levels.take index ++
            (c1.s.levels.drop index).map (fun l => { l with value := wrapInt (l.value - 1) }))
        consolidateRows value (List.range c3.rowCount) c3
      else c1
    some (bumpChanges c2)

/-- `ColumnW::removeLevel(value)` (columnw.cpp:429-466) with the outcome of the
assertion made visible: `Except.error` carries the column as it stands when
`assert(i != s->levelsUsed)` fails, `Except.ok` the column after the call. -/
def removeLevelTraced (c : ColumnW) (value : Int) : Except ColumnW ColumnW :=
  let i := scanLevels c.s.levels value
  if i = c.levelsUsed then Except.error c
  else
    let index := i
    let c1 := c.withLevels (c.s.levels.eraseIdx index)
    let c2 :=
      if c1.dataType = DataType.TEXT then
        let c3 := c1.withLevels
          (c1.s.levels.take index ++
            (c1.s.levels.drop index).map (fun l => { l with value := wrapInt (l.value - 1) }))
        consolidateRows value (List.range c3.rowCount) c3
      else c1
    Except.ok (bumpChanges c2)

/-- The row scan of `updateLevelCounts` (columnw.cpp:334-344). -/
def countRows : List Nat → ColumnW → Option ColumnW
  | [], c => some c
  | i :: is, c =>
    let v := c.cellAtInt i
    if v = INT_MIN then countRows is c
    else
      match c.rawLevel v with
      | none => none
      | some k =>
        let c1 := c.withLevels
          (c.s.levels.modify (fun l => { l with count := wrapInt (l.count + 1) }) k)
        let c2 :=
          if ¬ c.parent.isRowFiltered i then
            c1.withLevels (c1.s.levels.modify
              (fun l => { l with countExFiltered := wrapInt (l.countExFiltered + 1) }) k)
          else c1
        countRows is c2

/-- `ColumnW::updateLevelCounts` (columnw.cpp:318-346). -/
def updateLevelCounts (c : ColumnW) : Option ColumnW :=
  if c.measureType ≠ MeasureType.CONTINUOUS ∧ c.measureType ≠ MeasureType.ID then
    let c1 := c.withLevels
      (c.s.levels.map (fun l => { l with count := 0, countExFiltered := 0 }))
    countRows (List.range c1.rowCount) c1
  else some c

/-- The sweep of `setTrimLevels` (columnw.cpp:172-180) with loop variable `i`.
Every round either advances `i` or removes an entry, so `levelsUsed` rounds
of fuel are enough; running out with entries left is reported as `none`. -/
def trimSweep : Nat → Nat → ColumnW → Option ColumnW
  | 0, i, c => if i < c.levelsUsed then none else some c
  | fuel + 1, i, c =>
    if i < c.levelsUsed then
      let level := c.s.levels.getD i default
      if level.count = 0 then
        (c.removeLevel level.value).bind (trimSweep fuel i)
      else trimSweep fuel (i + 1) c
    else some c

/-- `ColumnW::setTrimLevels(trim)` (columnw.cpp:163-185). -/
def setTrimLevels (c : ColumnW) (trim : Bool) : Option ColumnW :=
  if c.s.trimLevels = trim then some c
  else
    (if trim then trimSweep c.levelsUsed 0 c else some c).map
      (fun c1 => bumpChanges { c1 with s := { c1.s with trimLevels := trim } })

/-! ## Cell accessors (columnw.cpp) -/

/-- Step 2 of `setIValue` (columnw.cpp:108-118): retire the old value of the
row from its level. -/
def retireOld (c : ColumnW) (rowIndex : Nat) (oldValue : Int) : Option ColumnW :=
  if oldValue ≠ INT_MIN then
    match c.rawLevel oldValue with
    | none => none
    | some k =>
      let c1 := c.withLevels
        (c.s.levels.modify (fun l => { l with count := wrapInt (l.count - 1) }) k)
      if (c1.s.levels.getD k default).count = 0 ∧ c1.trimLevels = true then
        c1.removeLevel oldValue
      else if ¬ c1.parent.isRowFiltered rowIndex then
        some (c1.withLevels (c1.s.levels.modify
          (fun l => { l with countExFiltered := wrapInt (l.countExFiltered - 1) }) k))
      else some c1
  else some c

/-- Step 3 of `setIValue` (columnw.cpp:121-137): count the new value in its
level, creating the level when there is none. -/
def countNew (c : ColumnW) (rowIndex : Nat) (newValue : Int) : Option ColumnW :=
  if newValue ≠ INT_MIN then
    let inserted :=
      match c.rawLevel newValue with
      | none => c.insertLevel newValue (toString newValue) (some (toString newValue))
      | some _ => some c
    inserted.bind (fun c1 =>
      match c1.rawLevel newValue with
      | none => none
      | some k =>
        let c2 := c1.withLevels
          (c1.s.levels.modify (fun l => { l with count := wrapInt (l.count + 1) }) k)
        if ¬ c2.parent.isRowFiltered rowIndex then
          some (c2.withLevels (c2.s.levels.modify
            (fun l => { l with countExFiltered := wrapInt (l.countExFiltered + 1) }) k))
        else some c2)
  else some c

/-- `ColumnW::setIValue(rowIndex, value, initing)` (columnw.cpp:90-140). -/
def setIValue (c : ColumnW) (rowIndex : Nat) (value : Int) (initing : Bool) :
    Option ColumnW :=
  if c.dataType = DataType.DECIMAL then none
  else if c.measureType = MeasureType.CONTINUOUS then
    some (c.setCellInt rowIndex value)
  else
    let newValue := value
    if initing = false then
      let oldValue := c.ivalue rowIndex
      if oldValue = newValue then some c
      else
        (c.retireOld rowIndex oldValue).bind (fun c1 =>
          (c1.countNew rowIndex newValue).map (fun c2 => c2.setCellInt rowIndex value))
    else
      (c.countNew rowIndex newValue).map (fun c2 => c2.setCellInt rowIndex value)

/-- `ColumnW::setDataType(dataType)` (columnw.cpp:45-53). -/
def setDataType (c : ColumnW) (dataType : DataType) : ColumnW :=
  let c1 := bumpChanges { c with s := { c.s with dataType := dataType } }
  if dataType = DataType.DECIMAL then c1.setRowCount 8 c1.rowCount else c1

/-- `ColumnW::setMeasureType(measureType)` (columnw.cpp:55-63). -/
def setMeasureType (c : ColumnW) (measureType : MeasureType) : ColumnW :=
  let c1 := bumpChanges { c with s := { c.s with measureType := measureType } }
  if measureType = MeasureType.ID then c1.setRowCount 8 c1.rowCount else c1

/-- `ColumnW::setId(id)` (columnw.cpp:20-23). -/
def setId (c : ColumnW) (id : Int) : ColumnW :=
  { c with s := { c.s with id := id } }

/-- `ColumnW::setName(name)` (columnw.cpp:25-36). -/
def setName (c : ColumnW) (name : String) : ColumnW :=
  let length := name.utf8ByteSize + 1
  let r := c.mm.allocate length
  bumpChanges { c with mm := r.1.store r.2.1 name, s := { c.s with name := r.2.1 } }

/-- `ColumnW::setFormula(value)` (columnw.cpp:187-208). -/
def setFormula (c : ColumnW) (value : String) : ColumnW :=
  let capacity := c.s.formulaCapacity
  let needed := value.utf8ByteSize + 1
  let c1 : ColumnW :=
    if needed > capacity then
      let r := c.mm.allocate needed
      { c with mm := r.1.store r.2.1 value,
               s := { c.s with formula := r.2.1, formulaCapacity := r.2.2 } }
    else
      { c with mm := c.mm.store c.s.formula value }
  bumpChanges c1

/-- `ColumnW::setFormulaMessage(value)` (columnw.cpp:210-231). -/
def setFormulaMessage (c : ColumnW) (value : String) : ColumnW :=
  let capacity := c.s.formulaMessageCapacity
  let needed := value.utf8ByteSize + 1
  let c1 : ColumnW :=
    if needed > capacity then
      let r := c.mm.allocate needed
      { c with mm := r.1.store r.2.1 value,
               s := { c.s with formulaMessage := r.2.1, formulaMessageCapacity := r.2.2 } }
    else
      { c with mm := c.mm.store c.s.formulaMessage value }
  bumpChanges c1

/-! ## Building concrete columns -/

/-- An empty integer column with blocks of `vs` bytes of cell space. -/
def emptyColumn (vs : Nat) : ColumnW :=
  { BLOCK_SIZE := vs + 8, VALUES_SPACE := vs }

/-- Write the cells `vs` into rows `i, i + 1, ...` with plain overwrites. -/
def fillRows : List Int → Nat → ColumnW → ColumnW
  | [], _, c => c
  | v :: vs, i, c => fillRows vs (i + 1) (c.setCellInt i v)

/-- An integer column holding the rows `vs`, grown by `setRowCount<int>`. -/
def columnOfRows (space : Nat) (vs : List Int) : ColumnW :=
  fillRows vs 0 ((emptyColumn space).setRowCount 4 vs.length)

/-- A level with the given coded value, label and occurrence counts. -/
def mkLevel (value : Int) (label : String) (count countExFiltered : Int) : Level :=
  { value := value, label := label, importValue := label,
    count := count, countExFiltered := countExFiltered }

/-! ## Vocabulary of the properties -/

/-- The block constants are usable for integer cells: a block has room for
cells and an `int` never straddles two blocks. -/
def Layout (c : ColumnW) : Prop := 0 < c.VALUES_SPACE ∧ 4 ∣ c.VALUES_SPACE

/-- What a run of integer cell writes leaves untouched: everything but the
integer view of the blocks. -/
structure SameFrame (c c' : ColumnW) : Prop where
  parent : c'.parent = c.parent
  mm : c'.mm = c.mm
  space : c'.VALUES_SPACE = c.VALUES_SPACE
  block : c'.BLOCK_SIZE = c.BLOCK_SIZE
  rowCount : c'.s.rowCount = c.s.rowCount
  dataType : c'.s.dataType = c.s.dataType
  measureType : c'.s.measureType = c.s.measureType
  trimLevels : c'.s.trimLevels = c.s.trimLevels
  levels : c'.s.levels = c.s.levels
  levelsCapacity : c'.s.levelsCapacity = c.s.levelsCapacity
  levelsOffset : c'.s.levelsOffset = c.s.levelsOffset
  blocksUsed : c'.s.blocksUsed = c.s.blocksUsed
  changes : c'.s.changes = c.s.changes

/-- `appendLevel` called once for every coded value of a list, in order, with
the decimal form of the value as label. -/
def appendLevels (c : ColumnW) (values : List Int) : ColumnW :=
  values.foldl (fun a v => a.appendLevel v (toString v) none) c

/-- The capacities reachable from the empty dictionary: `50 · 2 ^ j`, more
than the entries in use, and no more than twice their number once doubled. -/
def CapacityShape (c : ColumnW) : Prop :=
  ∃ j, c.s.levelsCapacity = 50 * 2 ^ j ∧ c.levelsUsed < c.s.levelsCapacity ∧
    (j = 0 ∨ c.s.levelsCapacity ≤ 2 * c.levelsUsed)

/-- What the dictionary operations on a column without consolidation leave
untouched: the rows and everything that decides how they are read. -/
structure SameRows (c c' : ColumnW) : Prop where
  parent : c'.parent = c.parent
  space : c'.VALUES_SPACE = c.VALUES_SPACE
  rowCount : c'.s.rowCount = c.s.rowCount
  ivalues : c'.s.ivalues = c.s.ivalues
  dataType : c'.s.dataType = c.s.dataType
  measureType : c'.s.measureType = c.s.measureType
  trimLevels : c'.s.trimLevels = c.s.trimLevels

/-- The record `appendLevel` writes at the end of the array. -/
def appendedLevel (c : ColumnW) (value : Int) (label : String)
    (importValue : Option String) : Level :=
  { value := value,
    capacity := c.mm.granted (label.utf8ByteSize + 1),
    label := label,
    importCapacity := c.mm.granted ((importValue.getD label).utf8ByteSize + 1),
    importValue := importValue.getD label,
    count := 0, countExFiltered := 0 }

/-- The flag `ascending` of `insertLevel` for the pre-existing entries `pre`. -/
def AscendingRun (pre : List Level) : Prop :=
  ∀ i, i + 1 < pre.length → (pre.getD i default).value ≤ (pre.getD (i + 1) default).value

/-- The flag `descending` of `insertLevel` as the detection loop leaves it. -/
def DescendingRun (pre : List Level) : Prop :=
  ∀ i, i + 1 < pre.length → (pre.getD (i + 1) default).value ≤ (pre.getD i default).value

/-- The test that makes the placement loop shift an entry towards the tail. -/
def shifts (ascending descending : Bool) (value : Int) (l : Level) : Prop :=
  (ascending = true ∧ l.value > value) ∨ (descending = true ∧ l.value < value)

/-- A level with both counters reset, as the first loop of `updateLevelCounts` leaves it. -/
def zeroCounts (l : Level) : Level := { l with count := 0, countExFiltered := 0 }

/-- Among the rows `is`, the number of those whose cell is not missing and equals `v`. -/
def occurrencesIn (c : ColumnW) (is : List Nat) (v : Int) : Nat :=
  is.countP (fun i => decide (c.ivalue i = v ∧ c.ivalue i ≠ INT_MIN))

/-- The same count restricted to the rows that are not filtered. -/
def occurrencesExFilteredIn (c : ColumnW) (is : List Nat) (v : Int) : Nat :=
  is.countP (fun i =>
    decide (c.ivalue i = v ∧ c.ivalue i ≠ INT_MIN ∧ c.parent.isRowFiltered i = false))

/-- Number of rows of the column whose cell is not missing and equals `v`. -/
def occurrences (c : ColumnW) (v : Int) : Nat := occurrencesIn c (List.range c.rowCount) v

/-- Number of unfiltered rows of the column whose cell is not missing and equals `v`. -/
def occurrencesExFiltered (c : ColumnW) (v : Int) : Nat :=
  occurrencesExFilteredIn c (List.range c.rowCount) v

/-- The counters of a level after one more row holding `v` was counted. -/
def countedOnce (filtered : Bool) (v : Int) (l : Level) : Level :=
  if l.value = v then
    { l with count := wrapInt (l.count + 1),
             countExFiltered := if filtered then l.countExFiltered
                                else wrapInt (l.countExFiltered + 1) }
  else l

/-- A level with the occurrences of its value among the rows `is` added to its counters. -/
def tallied (c : ColumnW) (is : List Nat) (l : Level) : Level :=
  { l with count := l.count + occurrencesIn c is l.value,
           countExFiltered := l.countExFiltered + occurrencesExFilteredIn c is l.value }

/-- Level values are unique within the column. -/
def UniqueLevels (c : ColumnW) : Prop := (c.s.levels.map (·.value)).Nodup

/-- Every cell that is not missing holds the coded value of some level. -/
def EveryCellHasLevel (c : ColumnW) : Prop :=
  ∀ i, i < c.rowCount → c.ivalue i ≠ INT_MIN → ∃ l ∈ c.s.levels, l.value = c.ivalue i

/-- The occurrence count of every level is the number of rows holding its
value, missing cells being counted in no level. -/
def CountsExact (c : ColumnW) : Prop :=
  ∀ l ∈ c.s.levels, l.count = occurrences c l.value

/-- The filtered-exclusive count of every level is the number of unfiltered
rows holding its value, missing cells being counted in no level. -/
def FilteredCountsExact (c : ColumnW) : Prop :=
  ∀ l ∈ c.s.levels, l.countExFiltered = occurrencesExFiltered c l.value

/-- Number of rows whose cell equals `v`, the missing sentinel included. -/
def rowsHolding (c : ColumnW) (v : Int) : Nat :=
  (List.range c.rowCount).countP (fun i => decide (c.ivalue i = v))

/-- Sum of the occurrence counts of all levels. -/
def sumCounts (c : ColumnW) : Int := (c.s.levels.map (·.count)).sum

/-- Among the rows `is`, the number of those whose cell is not missing. -/
def nonMissingIn (c : ColumnW) (is : List Nat) : Nat :=
  is.countP (fun i => decide (c.ivalue i ≠ INT_MIN))

/-- Number of rows of the column whose cell is not the missing sentinel. -/
def nonMissing (c : ColumnW) : Nat := nonMissingIn c (List.range c.rowCount)

/-- The row cells are C `int`s. -/
def IntCells (c : ColumnW) : Prop :=
  ∀ i, i < c.rowCount → INT_MIN ≤ c.ivalue i ∧ c.ivalue i ≤ INT_MAX

/-- The rows of the column other than row `r`. -/
def otherRows (c : ColumnW) (r : Nat) : List Nat := (List.range c.rowCount).erase r

/-- The counters of a level after one row holding `v` was retired without
removing the level. -/
def retiredOnce (filtered : Bool) (v : Int) (l : Level) : Level :=
  if l.value = v then
    { l with count := wrapInt (l.count - 1),
             countExFiltered := if filtered then l.countExFiltered
                                else wrapInt (l.countExFiltered - 1) }
  else l

/-- The counters, apart from row `r`, are exact: every level counts the other
rows holding its value. -/
def HoleExact (c : ColumnW) (r : Nat) : Prop :=
  ∀ l ∈ c.s.levels, l.count = c.occurrencesIn (c.otherRows r) l.value ∧
    l.countExFiltered = c.occurrencesExFilteredIn (c.otherRows r) l.value

/-- Every cell of a row other than `r` that is not missing has a level. -/
def HoleCovered (c : ColumnW) (r : Nat) : Prop :=
  ∀ i ∈ c.otherRows r, c.ivalue i ≠ INT_MIN → ∃ l ∈ c.s.levels, l.value = c.ivalue i

/-- The per-level count invariant of the data model: every count is the
number of rows whose cell equals the level's value, every filtered-exclusive
count is that number among the unfiltered rows, and missing cells are counted
in no level. -/
def CountInvariant (c : ColumnW) : Prop := c.CountsExact ∧ c.FilteredCountsExact

/-- Number of blocks of `VALUES_SPACE` bytes needed to hold `count` cells of
`size` bytes: the ceiling of `count * size / VALUES_SPACE`. -/
def blocksToHold (c : ColumnW) (size count : Nat) : Nat :=
  (count * size + c.VALUES_SPACE - 1) / c.VALUES_SPACE

/-- Size in bytes of the cell type a column uses, as `setRowCount` picks it
(columnw.h:66-80): a text reference for an id column, a double for a decimal
one, an int otherwise. -/
def elementSize (c : ColumnW) : Nat :=
  if c.measureType = MeasureType.ID then 8
  else if c.dataType = DataType.DECIMAL then 8
  else 4

/-- Every row of the column lies in a block the directory holds. -/
def RowsAddressable (c : ColumnW) : Prop :=
  ∀ i, i < c.rowCount → c.blockIndex c.elementSize i < c.s.blocksUsed

/-- Label and import value of the level `rawLevel` finds for the coded value `v`. -/
def levelTextOf (c : ColumnW) (v : Int) : Option (String × String) :=
  (c.rawLevel v).map (fun k =>
    ((c.s.levels.getD k default).label, (c.s.levels.getD k default).importValue))

/-- Label and import value of the level the cell of row `i` refers to. -/
def rowLevelText (c : ColumnW) (i : Nat) : Option (String × String) :=
  c.levelTextOf (c.ivalue i)

/-- The coded values of the dictionary are stored in strictly ascending order. -/
def LevelsAscending (c : ColumnW) : Prop :=
  (c.s.levels.map (·.value)).Pairwise (· < ·)

/-- Every coded value of the dictionary is a value of a C `int`. -/
def LevelsInRange (c : ColumnW) : Prop :=
  ∀ l ∈ c.s.levels, INT_MIN ≤ l.value ∧ l.value ≤ INT_MAX

/-! ## Concrete columns used as instances -/

/-- A column of 16-byte blocks with the given data type, dictionary (in an
array of capacity 50) and integer rows. -/
def dictionaryColumn (dataType : DataType) (levels : List Level) (cells : List Int) :
    ColumnW :=
  let c := columnOfRows 16 cells
  { c with s := { c.s with dataType := dataType, levels := levels, levelsCapacity := 50 } }

/-- A dictionary of 49 levels in an array of capacity 50. -/
def dictionary49 : ColumnW :=
  dictionaryColumn DataType.INTEGER ((List.range 49).map (fun i => mkLevel i "" 0 0)) []

/-- The textual column of the specification: codes `0, 1, 2` in order, rows
`[0, 1, 2, 1]`. -/
def textOrdered : ColumnW :=
  dictionaryColumn DataType.TEXT
    [mkLevel 0 "a" 1 1, mkLevel 1 "b" 2 2, mkLevel 2 "c" 1 1] [0, 1, 2, 1]

/-- The same rows and codes with the dictionary in the order `2, 0, 1`. -/
def textUnordered : ColumnW :=
  dictionaryColumn DataType.TEXT
    [mkLevel 2 "c" 1 1, mkLevel 0 "a" 1 1, mkLevel 1 "b" 2 2] [0, 1, 2, 1]

/-- An integer column whose level `2` has no occurrence. -/
def trimInteger : ColumnW :=
  dictionaryColumn DataType.INTEGER
    [mkLevel 1 "a" 2 2, mkLevel 2 "b" 0 0, mkLevel 3 "c" 1 1] [1, 3, 1]

/-- A textual column whose level `0` has no occurrence. -/
def trimText : ColumnW :=
  dictionaryColumn DataType.TEXT [mkLevel 0 "a" 0 0, mkLevel 1 "b" 1 1] [1]

/-- An integer column with two entries of coded value `1`, the second one
without occurrence. -/
def trimDuplicate : ColumnW :=
  dictionaryColumn DataType.INTEGER [mkLevel 1 "a" 2 2, mkLevel 1 "b" 0 0] [1, 1]

/-- A dictionary with the coded values `vs`, in an array of capacity 50. -/
def dictionaryOf (vs : List Int) : ColumnW :=
  dictionaryColumn DataType.INTEGER (vs.map (fun v => mkLevel v (toString v) 0 0)) []

/-- A column with a level whose coded value is the missing sentinel. -/
def sentinelLevel : ColumnW :=
  dictionaryColumn DataType.INTEGER [mkLevel INT_MIN "none" 0 0, mkLevel 7 "7" 0 0] [INT_MIN, 7]

/-- The textual column of the specification with `trimLevels` enabled. -/
def textTrimmed : ColumnW :=
  { textOrdered with s := { textOrdered.s with trimLevels := true } }

/-- An integer column with two entries of coded value 5, each counting the
one row that holds 5. -/
def duplicateCounted : ColumnW :=
  dictionaryColumn DataType.INTEGER [mkLevel 5 "a" 1 1, mkLevel 5 "b" 1 1] [5]

/-- An integer column with an empty dictionary and a row holding 7. -/
def uncovered : ColumnW :=
  dictionaryColumn DataType.INTEGER [] [7, INT_MIN]

/-- The column of the specification with counters that are out of date. -/
def staleCounts : ColumnW :=
  dictionaryColumn DataType.TEXT
    [mkLevel 0 "a" 9 9, mkLevel 1 "b" 0 0, mkLevel 2 "c" 5 1] [0, 1, 2, 1]

/-- An empty column named `"abcdef"` by `setName`. -/
def namedColumn : ColumnW := (emptyColumn 16).setName "abcdef"

/-- An empty column whose formula `"a + b"` was written by `setFormula`. -/
def formulaColumn : ColumnW := (emptyColumn 16).setFormula "a + b"

/-- A textual column whose dictionary holds the codes `2, 9, 3` in that order. -/
def textSparse : ColumnW :=
  dictionaryColumn DataType.TEXT
    [mkLevel 2 "a" 1 1, mkLevel 9 "b" 1 1, mkLevel 3 "c" 1 1] [2, 9, 3]

/-- A new column made an id column, then given five rows by `insertRows`. -/
def idColumn : ColumnW :=
  ((emptyColumn 16).setMeasureType MeasureType.ID).insertRows 0 4

/-- A textual column with `trimLevels` enabled, codes `0, 1, 2, 3` in order and
one row for each. -/
def textFour : ColumnW :=
  let c := dictionaryColumn DataType.TEXT
    [mkLevel 0 "a" 1 1, mkLevel 1 "b" 1 1, mkLevel 2 "c" 1 1, mkLevel 3 "d" 1 1] [0, 1, 2, 3]
  { c with s := { c.s with trimLevels := true } }

/-- A dictionary built by `appendLevel`: the level `10` with a short label and
the level `30` with a long one. -/
def labelledColumn : ColumnW :=
  ((emptyColumn 16).appendLevel 10 "ten" none).appendLevel 30 "thirty, as imported" none

/-- A textual column whose ascending codes `2, 3, 9` are not positional; the
level `3` has no occurrence. -/
def textAscending : ColumnW :=
  dictionaryColumn DataType.TEXT
    [mkLevel 2 "a" 1 1, mkLevel 3 "b" 0 0, mkLevel 9 "c" 1 1] [2, 9]

end ColumnW

/-! # Properties -/

namespace ColumnW

/-! ## Machine integers and row addressing -/

theorem wrapInt_of_range {x : Int} (h1 : -2147483648 ≤ x) (h2 : x ≤ 2147483647) :
    wrapInt x = x := by
  unfold wrapInt
  omega

/-- Two rows of a laid-out column share a slot only when they are the same row. -/
theorem address_injective {c : ColumnW} (h : c.Layout) {i j : Nat}
    (hb : c.blockIndex 4 i = c.blockIndex 4 j) (ho : c.byteOffset 4 i = c.byteOffset 4 j) :
    i = j := by
  obtain ⟨hpos, k, hk⟩ := h
  unfold blockIndex at hb
  unfold byteOffset at ho
  rw [hk] at hb ho
  have hkpos : 0 < k := by omega
  rw [Nat.mul_div_cancel_left k (by norm_num : 0 < 4)] at ho
  have e1 : i * 4 / (4 * k) = i / k := by
    rw [Nat.mul_comm i 4]; exact Nat.mul_div_mul_left i k (by norm_num)
  have e2 : j * 4 / (4 * k) = j / k := by
    rw [Nat.mul_comm j 4]; exact Nat.mul_div_mul_left j k (by norm_num)
  rw [e1, e2] at hb
  have ho' : i % k = j % k := by omega
  have h1 := Nat.div_add_mod i k
  have h2 := Nat.div_add_mod j k
  rw [hb, ho'] at h1
  omega

theorem cellAtInt_setCellInt {c : ColumnW} (h : c.Layout) (i j : Nat) (v : Int) :
    (c.setCellInt i v).cellAtInt j = if j = i then v else c.cellAtInt j := by
  by_cases hji : j = i
  · subst hji
    simp [cellAtInt, setCellInt, put, blockIndex, byteOffset]
  · have : ¬ (c.blockIndex 4 j = c.blockIndex 4 i ∧ c.byteOffset 4 j = c.byteOffset 4 i) := by
      rintro ⟨hb, ho⟩
      exact hji (address_injective h hb ho)
    have e : (c.setCellInt i v).cellAtInt j =
        put c.s.ivalues (c.blockIndex 4 i) (c.byteOffset 4 i) v
          (c.blockIndex 4 j) (c.byteOffset 4 j) := rfl
    rw [e, if_neg hji]
    unfold put
    rw [if_neg this]
    rfl

theorem SameFrame.frameRefl (c : ColumnW) : SameFrame c c :=
  ⟨rfl, rfl, rfl, rfl, rfl, rfl, rfl, rfl, rfl, rfl, rfl, rfl, rfl⟩

theorem SameFrame.frameTrans {a b c : ColumnW} (h1 : SameFrame a b) (h2 : SameFrame b c) :
    SameFrame a c :=
  ⟨h2.parent.trans h1.parent, h2.mm.trans h1.mm, h2.space.trans h1.space,
   h2.block.trans h1.block, h2.rowCount.trans h1.rowCount, h2.dataType.trans h1.dataType,
   h2.measureType.trans h1.measureType, h2.trimLevels.trans h1.trimLevels,
   h2.levels.trans h1.levels, h2.levelsCapacity.trans h1.levelsCapacity,
   h2.levelsOffset.trans h1.levelsOffset, h2.blocksUsed.trans h1.blocksUsed,
   h2.changes.trans h1.changes⟩

theorem sameFrame_setCellInt (c : ColumnW) (i : Nat) (v : Int) :
    SameFrame c (c.setCellInt i v) :=
  ⟨rfl, rfl, rfl, rfl, rfl, rfl, rfl, rfl, rfl, rfl, rfl, rfl, rfl⟩

theorem SameFrame.frameLayout {c c' : ColumnW} (h : SameFrame c c') (hl : c.Layout) : c'.Layout := by
  unfold Layout at *
  rw [h.space]; exact hl

/-- A run of writes of one constant: the written rows hold it, the others keep their cell. -/
theorem foldl_setCellInt_const (x : Int) (is : List Nat) (c : ColumnW) (hl : c.Layout) :
    SameFrame c (is.foldl (fun a i => a.setCellInt i x) c) ∧
    ∀ j, (is.foldl (fun a i => a.setCellInt i x) c).cellAtInt j
      = if j ∈ is then x else c.cellAtInt j := by
  induction is generalizing c with
  | nil => exact ⟨SameFrame.frameRefl c, fun j => by simp⟩
  | cons i is ih =>
    have hl' : (c.setCellInt i x).Layout := (sameFrame_setCellInt c i x).frameLayout hl
    obtain ⟨hf, hc⟩ := ih (c.setCellInt i x) hl'
    refine ⟨(sameFrame_setCellInt c i x).frameTrans hf, fun j => ?_⟩
    rw [List.foldl_cons, hc j, cellAtInt_setCellInt hl]
    by_cases h1 : j ∈ is
    · simp [h1]
    · by_cases h2 : j = i
      · simp [h2]
      · simp [h1, h2]

theorem growBlocks_frame (n : Nat) (c : ColumnW) :
    (growBlocks n c).VALUES_SPACE = c.VALUES_SPACE ∧
    (growBlocks n c).parent = c.parent ∧
    (growBlocks n c).s.rowCount = c.s.rowCount ∧
    (growBlocks n c).s.dataType = c.s.dataType ∧
    (growBlocks n c).s.measureType = c.s.measureType ∧
    (growBlocks n c).s.levels = c.s.levels ∧
    (growBlocks n c).s.ivalues = c.s.ivalues ∧
    (growBlocks n c).s.blocksUsed = c.s.blocksUsed + n := by
  induction n generalizing c with
  | zero => simp [growBlocks]
  | succ n ih =>
    simp only [growBlocks]
    obtain ⟨h1, h2, h3, h4, h5, h6, h7, h8⟩ := ih
      { c with mm := (c.mm.allocate c.BLOCK_SIZE).1,
               s := { c.s with blocks := c.s.blocks ++ [(c.mm.allocate c.BLOCK_SIZE).2.1],
                               blocksUsed := c.s.blocksUsed + 1 } }
    refine ⟨h1, h2, h3, h4, h5, h6, h7, ?_⟩
    rw [h8]; simp only; omega

/-- `setRowCount<int>` on a column whose cells are integers. -/
theorem setRowCount_int {c : ColumnW} (hl : c.Layout) (hm : c.measureType ≠ MeasureType.ID)
    (hd : c.dataType ≠ DataType.DECIMAL) (count : Nat) :
    (c.setRowCount 4 count).Layout ∧
    (c.setRowCount 4 count).rowCount = count ∧
    (c.setRowCount 4 count).dataType = c.dataType ∧
    (c.setRowCount 4 count).measureType = c.measureType ∧
    (c.setRowCount 4 count).s.levels = c.s.levels ∧
    (c.setRowCount 4 count).s.blocksUsed
      = c.s.blocksUsed + (count * 4 / c.VALUES_SPACE + 1 - c.s.blocksUsed) ∧
    ∀ j, (c.setRowCount 4 count).cellAtInt j
      = if c.rowCount ≤ j ∧ j < count then INT_MIN else c.cellAtInt j := by
  obtain ⟨g1, g2, g3, g4, g5, g6, g7, g8⟩ :=
    growBlocks_frame (count * 4 / c.VALUES_SPACE + 1 - c.s.blocksUsed) c
  set c1 := growBlocks (count * 4 / c.VALUES_SPACE + 1 - c.s.blocksUsed) c with hc1
  set c2 : ColumnW := { c1 with s := { c1.s with rowCount := count } } with hc2
  have hl2 : c2.Layout := by
    unfold Layout at *
    show 0 < c1.VALUES_SPACE ∧ 4 ∣ c1.VALUES_SPACE
    rw [g1]; exact hl
  have e : c.setRowCount 4 count
      = (List.range' c1.s.rowCount (count - c1.s.rowCount)).foldl
          (fun a i => a.setCellInt i INT_MIN) c2 := by
    have hm2 : ¬ c2.measureType = MeasureType.ID := by
      show ¬ c1.s.measureType = MeasureType.ID
      rw [g5]; exact hm
    have hd2 : ¬ c2.dataType = DataType.DECIMAL := by
      show ¬ c1.s.dataType = DataType.DECIMAL
      rw [g4]; exact hd
    unfold setRowCount
    simp only [← hc1, ← hc2, if_neg hm2, if_neg hd2]
  obtain ⟨hf, hc⟩ := foldl_setCellInt_const INT_MIN
    (List.range' c1.s.rowCount (count - c1.s.rowCount)) c2 hl2
  rw [e]
  refine ⟨hf.frameLayout hl2, ?_, ?_, ?_, ?_, ?_, fun j => ?_⟩
  · show _ = count
    rw [show ∀ x : ColumnW, x.rowCount = x.s.rowCount from fun _ => rfl, hf.rowCount]
  · rw [show ∀ x : ColumnW, x.dataType = x.s.dataType from fun _ => rfl, hf.dataType]
    exact g4
  · rw [show ∀ x : ColumnW, x.measureType = x.s.measureType from fun _ => rfl, hf.measureType]
    exact g5
  · rw [hf.levels]; exact g6
  · rw [hf.blocksUsed]; exact g8
  · have e2 : c2.cellAtInt j = c.cellAtInt j := by
      show c1.s.ivalues (j * 4 / c1.VALUES_SPACE) (j % (c1.VALUES_SPACE / 4) * 4) = _
      rw [g7, g1]; rfl
    have hmem : j ∈ List.range' c1.s.rowCount (count - c1.s.rowCount)
        ↔ c.rowCount ≤ j ∧ j < count := by
      rw [List.mem_range'_1, g3]
      unfold rowCount
      omega
    rw [hc j, e2]
    by_cases h : c.rowCount ≤ j ∧ j < count
    · rw [if_pos h, if_pos (hmem.2 h)]
    · rw [if_neg h, if_neg (fun hh => h (hmem.1 hh))]


/-- The shifting loop of `insertRows`, run from the highest index down. -/
theorem foldl_shift (k : Nat) (len s : Nat) (c : ColumnW) (hl : c.Layout) :
    SameFrame c ((List.range' s len).reverse.foldl
      (fun a j => a.setCellInt j (a.cellAtInt (j - k))) c) ∧
    ∀ i, ((List.range' s len).reverse.foldl
        (fun a j => a.setCellInt j (a.cellAtInt (j - k))) c).cellAtInt i
      = if s ≤ i ∧ i < s + len then c.cellAtInt (i - k) else c.cellAtInt i := by
  induction len generalizing s with
  | zero =>
    refine ⟨SameFrame.frameRefl c, fun i => ?_⟩
    have : ¬ (s ≤ i ∧ i < s + 0) := by omega
    rw [if_neg this]
    rfl
  | succ len ih =>
    obtain ⟨hf, hc⟩ := ih (s + 1)
    rw [List.range'_succ, List.reverse_cons, List.foldl_append]
    set r := (List.range' (s + 1) len).reverse.foldl
      (fun a j => a.setCellInt j (a.cellAtInt (j - k))) c with hr
    have hlr : r.Layout := hf.frameLayout hl
    refine ⟨hf.frameTrans (sameFrame_setCellInt r s _), fun i => ?_⟩
    simp only [List.foldl_cons, List.foldl_nil]
    rw [cellAtInt_setCellInt hlr, hc, hc]
    by_cases h1 : i = s
    · subst h1
      have a1 : ¬ (i + 1 ≤ i - k ∧ i - k < i + 1 + len) := by omega
      have a2 : i ≤ i ∧ i < i + (len + 1) := by omega
      rw [if_pos rfl, if_neg a1, if_pos a2]
    · rw [if_neg h1]
      by_cases h2 : s + 1 ≤ i ∧ i < s + 1 + len
      · have a2 : s ≤ i ∧ i < s + (len + 1) := by omega
        rw [if_pos h2, if_pos a2]
      · have a2 : ¬ (s ≤ i ∧ i < s + (len + 1)) := by omega
        rw [if_neg h2, if_neg a2]

/-! ## Row block store -/

/-- C7: on a column of integer cells (not decimal, not id) with `n` rows,
`insertRows(first, last)` with `first ≤ last` and `first ≤ n` leaves
`n + (last - first + 1)` rows; rows below `first` keep their cell, rows
`first .. last` hold the missing sentinel, and row `i > last` holds the cell of
the old row `i - (last - first + 1)`. -/
theorem insertRows_cells {c : ColumnW} (hl : c.Layout) (hd : c.dataType ≠ DataType.DECIMAL)
    (hm : c.measureType ≠ MeasureType.ID) (first last : Nat)
    (h1 : first ≤ last) (h2 : first ≤ c.rowCount) :
    (c.insertRows first last).rowCount = c.rowCount + (last - first + 1) ∧
    (∀ i, i < first → (c.insertRows first last).ivalue i = c.ivalue i) ∧
    (∀ i, first ≤ i → i ≤ last → (c.insertRows first last).ivalue i = INT_MIN) ∧
    (∀ i, last < i → i < c.rowCount + (last - first + 1) →
      (c.insertRows first last).ivalue i = c.ivalue (i - (last - first + 1))) := by
  have hk : last + 1 - first = last - first + 1 := by omega
  obtain ⟨s1, s2, s3, s4, s5, s6, s7⟩ :=
    setRowCount_int hl hm hd (c.rowCount + (last + 1 - first))
  set c1 := c.setRowCount 4 (c.rowCount + (last + 1 - first)) with hc1
  obtain ⟨m1, m2⟩ := foldl_shift (last + 1 - first)
    (c.rowCount + (last + 1 - first) - (last + 1)) (last + 1) c1 s1
  set c2 := (List.range' (last + 1) (c.rowCount + (last + 1 - first) - (last + 1))).reverse.foldl
      (fun a j => a.setCellInt j (a.cellAtInt (j - (last + 1 - first)))) c1 with hc2
  obtain ⟨f1, f2⟩ := foldl_setCellInt_const INT_MIN
    (List.range' first (last + 1 - first)) c2 (m1.frameLayout s1)
  have e : c.insertRows first last
      = (List.range' first (last + 1 - first)).foldl (fun a j => a.setCellInt j INT_MIN) c2 := by
    unfold insertRows
    simp only [if_neg hd, ← hc1, ← hc2]
  have hmem : ∀ i, i ∈ List.range' first (last + 1 - first) ↔ first ≤ i ∧ i ≤ last := by
    intro i
    rw [List.mem_range'_1]
    omega
  have hrc : c1.s.rowCount = c.rowCount + (last + 1 - first) := s2
  rw [e]
  refine ⟨?_, fun i hi => ?_, fun i hi1 hi2 => ?_, fun i hi1 hi2 => ?_⟩
  · show (List.foldl _ c2 _).s.rowCount = _
    rw [f1.rowCount, m1.rowCount, hrc, hk]
  · show (List.foldl _ c2 _).cellAtInt i = c.cellAtInt i
    have a1 : ¬ (first ≤ i ∧ i ≤ last) := by omega
    have a2 : ¬ (last + 1 ≤ i ∧
        i < last + 1 + (c.rowCount + (last + 1 - first) - (last + 1))) := by omega
    have a3 : ¬ (c.rowCount ≤ i ∧ i < c.rowCount + (last + 1 - first)) := by omega
    rw [f2, if_neg (fun hh => a1 ((hmem i).1 hh)), m2, if_neg a2, s7, if_neg a3]
  · show (List.foldl _ c2 _).cellAtInt i = INT_MIN
    rw [f2, if_pos ((hmem i).2 ⟨hi1, hi2⟩)]
  · show (List.foldl _ c2 _).cellAtInt i = c.cellAtInt (i - (last - first + 1))
    have a1 : ¬ (first ≤ i ∧ i ≤ last) := by omega
    have a2 : last + 1 ≤ i ∧
        i < last + 1 + (c.rowCount + (last + 1 - first) - (last + 1)) := by omega
    have a3 : ¬ (c.rowCount ≤ i - (last + 1 - first) ∧
        i - (last + 1 - first) < c.rowCount + (last + 1 - first)) := by omega
    rw [f2, if_neg (fun hh => a1 ((hmem i).1 hh)), m2, if_pos a2, s7, if_neg a3, hk]

/-- The column `[10, 20, 30, 40, 50]` of the specification, after
`insertRows(2, 3)`: an instance of `insertRows_cells` and its evaluation. -/
theorem insertRows_cells_witness :
    (columnOfRows 16 [10, 20, 30, 40, 50]).Layout ∧
    ((columnOfRows 16 [10, 20, 30, 40, 50]).insertRows 2 3).rows
      = [10, 20, INT_MIN, INT_MIN, 30, 40, 50] ∧
    ((columnOfRows 16 [10, 20, 30, 40, 50]).insertRows 2 3).rowCount
      = (columnOfRows 16 [10, 20, 30, 40, 50]).rowCount + (3 - 2 + 1) :=
  ⟨by unfold Layout; decide, by decide,
   (@insertRows_cells (columnOfRows 16 [10, 20, 30, 40, 50]) (by unfold Layout; decide)
      (by decide) (by decide) 2 3 (by decide) (by decide)).1⟩

/-- C10: what `append` does on a column of integer cells with `n` rows: the
column gets `n + 1` rows and rows `0 .. n - 1` keep their cell, but the value
is stored in the slot of index `n + 1`, past the new last row, and the new
last row `n` reads the missing sentinel whatever the value was. -/
theorem append_cells {c : ColumnW} (hl : c.Layout) (hd : c.dataType ≠ DataType.DECIMAL)
    (hm : c.measureType ≠ MeasureType.ID) (v : Int) :
    (c.append v).rowCount = c.rowCount + 1 ∧
    (c.append v).ivalue c.rowCount = INT_MIN ∧
    (c.append v).cellAtInt (c.rowCount + 1) = v ∧
    ∀ i, i < c.rowCount → (c.append v).ivalue i = c.ivalue i := by
  obtain ⟨s1, s2, s3, s4, s5, s6, s7⟩ := setRowCount_int hl hm hd (c.rowCount + 1)
  have e : c.append v = (c.setRowCount 4 (c.rowCount + 1)).setCellInt (c.rowCount + 1) v := by
    have : (c.setRowCount 4 (c.rowCount + 1)).s.rowCount = c.rowCount + 1 := s2
    unfold append setCellInt blockIndex byteOffset
    simp only [show c.s.rowCount = c.rowCount from rfl, this]
  rw [e]
  refine ⟨s2, ?_, ?_, fun i hi => ?_⟩
  · show ((c.setRowCount 4 (c.rowCount + 1)).setCellInt _ v).cellAtInt _ = _
    rw [cellAtInt_setCellInt s1, if_neg (by omega), s7, if_pos (by omega)]
  · rw [cellAtInt_setCellInt s1, if_pos rfl]
  · show ((c.setRowCount 4 (c.rowCount + 1)).setCellInt _ v).cellAtInt _ = c.cellAtInt i
    rw [cellAtInt_setCellInt s1, if_neg (by omega), s7, if_neg (by omega)]

/-- Appending `7` to the two-row column `[10, 20]`: the third row reads the
missing sentinel and the `7` sits in the slot after it. -/
theorem append_cells_witness :
    (columnOfRows 16 [10, 20]).Layout ∧
    ((columnOfRows 16 [10, 20]).append 7).rows = [10, 20, INT_MIN] ∧
    ((columnOfRows 16 [10, 20]).append 7).ivalue (columnOfRows 16 [10, 20]).rowCount = INT_MIN ∧
    ((columnOfRows 16 [10, 20]).append 7).cellAtInt ((columnOfRows 16 [10, 20]).rowCount + 1) = 7 :=
  ⟨by unfold Layout; decide, by decide,
   (@append_cells (columnOfRows 16 [10, 20]) (by unfold Layout; decide)
      (by decide) (by decide) 7).2.1,
   (@append_cells (columnOfRows 16 [10, 20]) (by unfold Layout; decide)
      (by decide) (by decide) 7).2.2.1⟩

/-! ## Level dictionary: growth -/

theorem appendLevel_levelsUsed (c : ColumnW) (value : Int) (label : String)
    (importValue : Option String) :
    (c.appendLevel value label importValue).levelsUsed = c.levelsUsed + 1 := by
  unfold appendLevel levelsUsed bumpChanges
  split
  · by_cases h0 : 0 < c.s.levelsCapacity <;> simp [h0]
  · simp

theorem appendLevel_capacity (c : ColumnW) (value : Int) (label : String)
    (importValue : Option String) :
    (c.appendLevel value label importValue).s.levelsCapacity
      = if c.levelsUsed + 1 ≥ c.s.levelsCapacity then
          (if c.s.levelsCapacity = 0 then 50 else 2 * c.s.levelsCapacity)
        else c.s.levelsCapacity := by
  unfold appendLevel bumpChanges
  split <;> simp

theorem appendLevel_offset_of_room (c : ColumnW) (value : Int) (label : String)
    (importValue : Option String) (h : c.levelsUsed + 1 < c.s.levelsCapacity) :
    (c.appendLevel value label importValue).s.levelsOffset = c.s.levelsOffset := by
  unfold appendLevel bumpChanges
  rw [if_neg (by omega)]

theorem capacityShape_appendLevel {c : ColumnW} (h : CapacityShape c) (value : Int)
    (label : String) (importValue : Option String) :
    CapacityShape (c.appendLevel value label importValue) := by
  obtain ⟨j, h1, h2, h3⟩ := h
  unfold CapacityShape
  rw [appendLevel_levelsUsed, appendLevel_capacity]
  have hpos : 0 < 2 ^ j := Nat.pow_pos (by norm_num)
  by_cases hg : c.levelsUsed + 1 ≥ c.s.levelsCapacity
  · have hne : ¬ c.s.levelsCapacity = 0 := by omega
    rw [if_pos hg, if_neg hne]
    refine ⟨j + 1, ?_, ?_, Or.inr ?_⟩
    · rw [h1, pow_succ]; ring
    · omega
    · omega
  · rw [if_neg hg]
    refine ⟨j, h1, by omega, ?_⟩
    rcases h3 with h3 | h3
    · exact Or.inl h3
    · exact Or.inr (by omega)

theorem capacityShape_appendLevels {c : ColumnW} (h : CapacityShape c) (values : List Int) :
    CapacityShape (c.appendLevels values) := by
  induction values generalizing c with
  | nil => exact h
  | cons v vs ih => exact ih (capacityShape_appendLevel h v (toString v) none)

theorem appendLevels_levelsUsed (c : ColumnW) (values : List Int) :
    (c.appendLevels values).levelsUsed = c.levelsUsed + values.length := by
  induction values generalizing c with
  | nil => rfl
  | cons v vs ih =>
    show ((c.appendLevel v (toString v) none).appendLevels vs).levelsUsed = _
    rw [ih, appendLevel_levelsUsed, List.length_cons]; omega

/-- C6 (as amended): `appendLevel` changes the capacity exactly when
`used + 1 ≥ capacity` held before the call, that is one entry before the array
is full; the new capacity is then 50 for an empty array and twice the old one
otherwise, and a call made while `used + 1 < capacity` leaves the capacity and
the storage offset unchanged. Starting from the empty dictionary the capacity
after any number of calls is `50 · 2 ^ j`, and it has doubled as soon as the
number of entries reached half of it. -/
theorem appendLevel_growth :
    (∀ (c : ColumnW) (value : Int) (label : String) (importValue : Option String),
      ((c.appendLevel value label importValue).s.levelsCapacity ≠ c.s.levelsCapacity
          ↔ c.levelsUsed + 1 ≥ c.s.levelsCapacity) ∧
      (c.levelsUsed + 1 ≥ c.s.levelsCapacity →
        (c.appendLevel value label importValue).s.levelsCapacity
          = if c.s.levelsCapacity = 0 then 50 else 2 * c.s.levelsCapacity) ∧
      (c.levelsUsed + 1 < c.s.levelsCapacity →
        (c.appendLevel value label importValue).s.levelsCapacity = c.s.levelsCapacity ∧
        (c.appendLevel value label importValue).s.levelsOffset = c.s.levelsOffset)) ∧
    (∀ (c : ColumnW) (v : Int) (values : List Int),
      c.levelsUsed = 0 → c.s.levelsCapacity = 0 →
      ∃ j, (c.appendLevels (v :: values)).s.levelsCapacity = 50 * 2 ^ j ∧
        (c.appendLevels (v :: values)).levelsUsed = values.length + 1 ∧
        values.length + 1 < 50 * 2 ^ j ∧ (j = 0 ∨ 50 * 2 ^ j ≤ 2 * (values.length + 1))) := by
  refine ⟨fun c value label importValue => ⟨?_, ?_, ?_⟩, fun c v values hu hc => ?_⟩
  · rw [appendLevel_capacity]
    by_cases hg : c.levelsUsed + 1 ≥ c.s.levelsCapacity
    · rw [if_pos hg]
      by_cases h0 : c.s.levelsCapacity = 0
      · rw [if_pos h0, h0]; simp
      · rw [if_neg h0]
        constructor
        · intro _; exact hg
        · intro _; omega
    · rw [if_neg hg]
      simp [hg]
  · intro hg
    rw [appendLevel_capacity, if_pos hg]
  · intro hr
    refine ⟨?_, appendLevel_offset_of_room c value label importValue hr⟩
    rw [appendLevel_capacity, if_neg (by omega)]
  · have h1 : CapacityShape (c.appendLevel v (toString v) none) := by
      refine ⟨0, ?_, ?_, Or.inl rfl⟩
      · rw [appendLevel_capacity, if_pos (by omega), if_pos hc]; rfl
      · rw [appendLevel_levelsUsed, appendLevel_capacity, if_pos (by omega), if_pos hc, hu]
        norm_num
    obtain ⟨j, a1, a2, a3⟩ := capacityShape_appendLevels h1 values
    have hlen : (c.appendLevels (v :: values)).levelsUsed = values.length + 1 := by
      rw [appendLevels_levelsUsed, hu, List.length_cons]; omega
    have e : c.appendLevels (v :: values)
        = (c.appendLevel v (toString v) none).appendLevels values := rfl
    rw [← e] at a1 a2 a3
    rw [hlen] at a2 a3
    exact ⟨j, a1, hlen, by rw [← a1]; exact a2, by rw [← a1]; exact a3⟩

/-- C6, instances of `appendLevel_growth`: the first call on the empty
dictionary gives capacity 50, a call with room left changes neither capacity
nor offset, and three calls from empty leave three entries in capacity 50. -/
theorem appendLevel_growth_witness :
    ((emptyColumn 16).appendLevel 1 "1" none).s.levelsCapacity = 50 ∧
    ((trimInteger.appendLevel 4 "4" none).s.levelsCapacity = trimInteger.s.levelsCapacity ∧
      (trimInteger.appendLevel 4 "4" none).s.levelsOffset = trimInteger.s.levelsOffset) ∧
    (∃ j, ((emptyColumn 16).appendLevels [1, 2, 3]).s.levelsCapacity = 50 * 2 ^ j ∧
      ((emptyColumn 16).appendLevels [1, 2, 3]).levelsUsed = [2, 3].length + 1 ∧
      [2, 3].length + 1 < 50 * 2 ^ j ∧ (j = 0 ∨ 50 * 2 ^ j ≤ 2 * ([2, 3].length + 1))) :=
  ⟨(appendLevel_growth.1 (emptyColumn 16) 1 "1" none).2.1 (by decide),
   (appendLevel_growth.1 trimInteger 4 "4" none).2.2 (by decide),
   appendLevel_growth.2 (emptyColumn 16) 1 [2, 3] (by decide) (by decide)⟩

/-- C6, growth before the array is full: with 49 entries in an array of
capacity 50 the next entry fits (`used + 1 ≤ capacity`), yet `appendLevel` doubles the
capacity to 100. -/
theorem appendLevel_grows_before_full :
    dictionary49.levelsUsed = 49 ∧ dictionary49.s.levelsCapacity = 50 ∧
    ¬ (dictionary49.levelsUsed + 1 > dictionary49.s.levelsCapacity) ∧
    (dictionary49.appendLevel 49 "49" none).s.levelsCapacity = 100 := by
  decide

/-! ## Level dictionary: lookup and removal -/

theorem scanLevels_le (ls : List Level) (v : Int) : scanLevels ls v ≤ ls.length := by
  induction ls with
  | nil => simp [scanLevels]
  | cons l ls ih =>
    unfold scanLevels
    split
    · simp
    · simp only [List.length_cons]; omega

theorem scanLevels_eq_length_iff (ls : List Level) (v : Int) :
    scanLevels ls v = ls.length ↔ ∀ l ∈ ls, l.value ≠ v := by
  induction ls with
  | nil => simp [scanLevels]
  | cons l ls ih =>
    unfold scanLevels
    by_cases h : l.value = v
    · simp [h]
    · simp [h, ih]

/-- The entry found by the scan holds the value, and no entry before it does. -/
theorem scanLevels_spec (ls : List Level) (v : Int) (h : scanLevels ls v < ls.length) :
    (ls.getD (scanLevels ls v) default).value = v ∧
    ∀ i, i < scanLevels ls v → (ls.getD i default).value ≠ v := by
  induction ls with
  | nil => simp at h
  | cons l ls ih =>
    unfold scanLevels at h ⊢
    by_cases hv : l.value = v
    · simp [hv]
    · simp only [if_neg hv] at h ⊢
      have h' : scanLevels ls v < ls.length := by simpa using h
      obtain ⟨a, b⟩ := ih h'
      refine ⟨by simpa using a, fun i hi => ?_⟩
      cases i with
      | zero => simpa using hv
      | succ i => simpa using b i (by omega)

/-- With unique coded values the scan finds the position of any entry holding the value. -/
theorem scanLevels_of_nodup (ls : List Level) (hn : (ls.map (·.value)).Nodup) (i : Nat)
    (hi : i < ls.length) : scanLevels ls (ls.getD i default).value = i := by
  induction ls generalizing i with
  | nil => simp at hi
  | cons l ls ih =>
    rw [List.map_cons, List.nodup_cons] at hn
    cases i with
    | zero => simp [scanLevels]
    | succ i =>
      have hi' : i < ls.length := by simpa using hi
      have hmem : (ls.getD i default).value ∈ ls.map (·.value) := by
        rw [List.getD_eq_getElem _ _ hi']
        exact List.mem_map_of_mem _ (List.getElem_mem hi')
      have hne : l.value ≠ (ls.getD i default).value := fun e => hn.1 (e ▸ hmem)
      simp only [List.getD_cons_succ]
      unfold scanLevels
      rw [if_neg hne, ih hn.2 i hi']

theorem removeLevel_not_text {c : ColumnW} (ht : c.dataType ≠ DataType.TEXT) (v : Int)
    (h : scanLevels c.s.levels v < c.levelsUsed) :
    c.removeLevel v
      = some (bumpChanges (c.withLevels (c.s.levels.eraseIdx (scanLevels c.s.levels v)))) := by
  unfold removeLevel
  have h1 : ¬ scanLevels c.s.levels v = c.levelsUsed := by omega
  have h2 : ¬ (c.withLevels (c.s.levels.eraseIdx (scanLevels c.s.levels v))).dataType
      = DataType.TEXT := ht
  simp only [if_neg h1, if_neg h2]

theorem trim_done (c : ColumnW) (i : Nat) (hi : ¬ i < c.levelsUsed) :
    c.s.levels.take i ++ (c.s.levels.drop i).filter (fun l => decide (l.count ≠ 0))
      = c.s.levels := by
  have h1 : c.s.levels.drop i = [] := List.drop_eq_nil_of_le (by unfold levelsUsed at hi; omega)
  have h2 : c.s.levels.take i = c.s.levels :=
    List.take_of_length_le (by unfold levelsUsed at hi; omega)
  rw [h1, h2]
  simp

/-- The state after a sweep differs from the state before in the dictionary
entries and the change counter only. -/
theorem trimSweep_not_text (fuel : Nat) (i : Nat) (c : ColumnW)
    (ht : c.dataType ≠ DataType.TEXT) (hn : (c.s.levels.map (·.value)).Nodup)
    (hf : c.levelsUsed - i ≤ fuel) :
    ∃ ch, trimSweep fuel i c = some
      { c with s := { c.s with
          levels := c.s.levels.take i ++ (c.s.levels.drop i).filter (fun l => decide (l.count ≠ 0)),
          changes := ch } } := by
  induction fuel generalizing i c with
  | zero =>
    have hi : ¬ i < c.levelsUsed := by omega
    refine ⟨c.s.changes, ?_⟩
    unfold trimSweep
    rw [if_neg hi, trim_done c i hi]
  | succ fuel ih =>
    unfold trimSweep
    by_cases hi : i < c.levelsUsed
    · have hi' : i < c.s.levels.length := hi
      have hdrop : c.s.levels.drop i = c.s.levels.getD i default :: c.s.levels.drop (i + 1) := by
        rw [List.getD_eq_getElem _ _ hi']
        exact List.drop_eq_getElem_cons hi'
      rw [if_pos hi]
      by_cases hc : (c.s.levels.getD i default).count = 0
      · simp only [if_pos hc]
        have hs : scanLevels c.s.levels (c.s.levels.getD i default).value = i :=
          scanLevels_of_nodup _ hn i hi'
        rw [removeLevel_not_text ht _ (by rw [hs]; exact hi), hs, Option.some_bind]
        set c1 := bumpChanges (c.withLevels (c.s.levels.eraseIdx i)) with hc1
        have hl1 : c1.s.levels = c.s.levels.eraseIdx i := rfl
        have hn1 : (c1.s.levels.map (·.value)).Nodup := by
          rw [hl1]
          exact hn.sublist ((List.eraseIdx_sublist _ _).map _)
        have hf1 : c1.levelsUsed - i ≤ fuel := by
          show c1.s.levels.length - i ≤ fuel
          rw [hl1, List.length_eraseIdx, if_pos hi']
          unfold levelsUsed at hf; omega
        obtain ⟨ch, e⟩ := ih i c1 ht hn1 hf1
        refine ⟨ch, ?_⟩
        rw [e, hl1]
        have t1 : (c.s.levels.eraseIdx i).take i = c.s.levels.take i := by
          rw [List.eraseIdx_eq_take_drop_succ, List.take_append_of_le_length (by simp; omega),
            List.take_take]
          simp
        have t2 : (c.s.levels.eraseIdx i).drop i = c.s.levels.drop (i + 1) := by
          rw [List.eraseIdx_eq_take_drop_succ]
          rw [List.drop_append_of_le_length (by simp; omega)]
          have : (c.s.levels.take i).drop i = [] :=
            List.drop_eq_nil_of_le (by simp)
          rw [this]; simp
        rw [t1, t2, hdrop, List.filter_cons_of_neg (by rw [decide_eq_true_eq]; exact fun h => h hc)]
        rfl
      · simp only [if_neg hc]
        obtain ⟨ch, e⟩ := ih (i + 1) c ht hn (by omega)
        refine ⟨ch, ?_⟩
        rw [e, hdrop, List.filter_cons_of_pos (by rw [decide_eq_true_eq]; exact hc)]
        have : c.s.levels.take (i + 1) = c.s.levels.take i ++ [c.s.levels.getD i default] := by
          rw [List.getD_eq_getElem _ _ hi', List.take_succ, List.getElem?_eq_getElem hi']
          rfl
        rw [this, List.append_assoc]
        rfl
    · refine ⟨c.s.changes, ?_⟩
      rw [if_neg hi, trim_done c i hi]

/-- The row scan of the consolidation: every listed row above the removed code
goes down by one, every other cell stays. -/
theorem consolidateRows_cells (value : Int) (is : List Nat) (c : ColumnW) (hl : c.Layout)
    (hnd : is.Nodup) :
    SameFrame c (consolidateRows value is c) ∧
    ∀ j, (consolidateRows value is c).cellAtInt j
      = if j ∈ is ∧ c.cellAtInt j > value then c.cellAtInt j - 1 else c.cellAtInt j := by
  induction is generalizing c with
  | nil =>
    refine ⟨SameFrame.frameRefl c, fun j => ?_⟩
    simp [consolidateRows]
  | cons i is ih =>
    rw [List.nodup_cons] at hnd
    unfold consolidateRows
    by_cases hv : c.cellAtInt i > value
    · simp only [if_pos hv]
      have hl1 : (c.setCellInt i (c.cellAtInt i - 1)).Layout :=
        (sameFrame_setCellInt c i _).frameLayout hl
      obtain ⟨f, g⟩ := ih (c.setCellInt i (c.cellAtInt i - 1)) hl1 hnd.2
      refine ⟨(sameFrame_setCellInt c i _).frameTrans f, fun j => ?_⟩
      rw [g j, cellAtInt_setCellInt hl]
      by_cases hji : j = i
      · subst hji
        have a1 : ¬ (j ∈ is ∧ (if j = j then c.cellAtInt j - 1 else c.cellAtInt j) > value) :=
          fun h => hnd.1 h.1
        have a2 : j ∈ j :: is ∧ c.cellAtInt j > value := ⟨List.mem_cons_self _ _, hv⟩
        rw [if_neg a1, if_pos a2, if_pos rfl]
      · simp only [List.mem_cons, hji, false_or, if_false]
    · simp only [if_neg hv]
      obtain ⟨f, g⟩ := ih c hl hnd.2
      refine ⟨f, fun j => ?_⟩
      rw [g j]
      by_cases hji : j = i
      · subst hji
        have a1 : ¬ (j ∈ is ∧ c.cellAtInt j > value) := fun h => hv h.2
        have a2 : ¬ (j ∈ j :: is ∧ c.cellAtInt j > value) := fun h => hv h.2
        rw [if_neg a1, if_neg a2]
      · simp only [List.mem_cons, hji, false_or]

theorem removeLevel_text {c : ColumnW} (ht : c.dataType = DataType.TEXT) (v : Int)
    (h : scanLevels c.s.levels v < c.levelsUsed) :
    c.removeLevel v
      = some (bumpChanges (consolidateRows v (List.range c.rowCount)
          (c.withLevels
            ((c.s.levels.eraseIdx (scanLevels c.s.levels v)).take (scanLevels c.s.levels v) ++
              ((c.s.levels.eraseIdx (scanLevels c.s.levels v)).drop
                (scanLevels c.s.levels v)).map
                  (fun l => { l with value := wrapInt (l.value - 1) }))))) := by
  unfold removeLevel
  have h1 : ¬ scanLevels c.s.levels v = c.levelsUsed := by omega
  have h2 : (c.withLevels (c.s.levels.eraseIdx (scanLevels c.s.levels v))).dataType
      = DataType.TEXT := ht
  simp only [if_neg h1, if_pos h2]
  rfl

theorem eraseIdx_take (ls : List Level) (k : Nat) (hk : k < ls.length) :
    (ls.eraseIdx k).take k = ls.take k := by
  rw [List.eraseIdx_eq_take_drop_succ, List.take_append_of_le_length (by simp; omega),
    List.take_take]
  simp

theorem eraseIdx_drop (ls : List Level) (k : Nat) (hk : k < ls.length) :
    (ls.eraseIdx k).drop k = ls.drop (k + 1) := by
  rw [List.eraseIdx_eq_take_drop_succ, List.drop_append_of_le_length (by simp; omega)]
  have : (ls.take k).drop k = [] := List.drop_eq_nil_of_le (by simp)
  rw [this]; simp

/-- C8 (as amended): on a textual column whose level codes are `0 .. n - 1`
in ascending order (entry `i` has code `i`), `removeLevel(k)` succeeds; a
remaining level's code is decremented exactly when it was greater than `k`, the
remaining levels keep everything else and their relative order, the codes are
again `0 .. n - 2` in order, and every row cell greater than `k` is decremented
while every other cell is unchanged. -/
theorem removeLevel_text_codes {c : ColumnW} (hl : c.Layout) (ht : c.dataType = DataType.TEXT)
    (hcodes : ∀ i, i < c.levelsUsed → (c.s.levels.getD i default).value = (i : Int))
    (hused : c.levelsUsed ≤ 2147483647) (k : Nat) (hk : k < c.levelsUsed) :
    ∃ c', c.removeLevel (k : Int) = some c' ∧
      c'.s.levels = (c.s.levels.eraseIdx k).map
        (fun l => if l.value > (k : Int) then { l with value := l.value - 1 } else l) ∧
      c'.levelsUsed = c.levelsUsed - 1 ∧
      (∀ i, i < c'.levelsUsed → (c'.s.levels.getD i default).value = (i : Int)) ∧
      c'.rowCount = c.rowCount ∧
      ∀ i, i < c.rowCount →
        c'.ivalue i = if c.ivalue i > (k : Int) then c.ivalue i - 1 else c.ivalue i := by
  have hk' : k < c.s.levels.length := hk
  -- the scan stops at position `k`
  have hs : scanLevels c.s.levels (k : Int) = k := by
    have hlt : scanLevels c.s.levels (k : Int) < c.s.levels.length := by
      rcases Nat.lt_or_ge (scanLevels c.s.levels (k : Int)) c.s.levels.length with h | h
      · exact h
      · exfalso
        have e := Nat.le_antisymm (scanLevels_le c.s.levels k) h
        have hm := (scanLevels_eq_length_iff c.s.levels k).1 e
          (c.s.levels.getD k default)
          (by rw [List.getD_eq_getElem _ _ hk']; exact List.getElem_mem hk')
        exact hm (hcodes k hk)
    have h1 := (scanLevels_spec c.s.levels k hlt).1
    rw [hcodes _ hlt] at h1
    exact_mod_cast h1
  have hbelow : ∀ l ∈ c.s.levels.take k, ¬ l.value > (k : Int) := by
    intro l hmem
    obtain ⟨i, hi, rfl⟩ := List.mem_iff_getElem.1 hmem
    have hi2 : i < k := by have := List.length_take_le k c.s.levels; omega
    have hi3 : i < c.s.levels.length := by omega
    rw [List.getElem_take]
    have := hcodes i hi3
    rw [List.getD_eq_getElem _ _ hi3] at this
    rw [this]; omega
  have habove : ∀ l ∈ c.s.levels.drop (k + 1),
      l.value > (k : Int) ∧ wrapInt (l.value - 1) = l.value - 1 := by
    intro l hmem
    obtain ⟨i, hi, rfl⟩ := List.mem_iff_getElem.1 hmem
    rw [List.length_drop] at hi
    have hi3 : k + 1 + i < c.s.levels.length := by omega
    rw [List.getElem_drop]
    have := hcodes (k + 1 + i) hi3
    rw [List.getD_eq_getElem _ _ hi3] at this
    rw [this]
    have hu : c.s.levels.length ≤ 2147483647 := hused
    refine ⟨by push_cast; omega, wrapInt_of_range (by push_cast; omega) (by push_cast; omega)⟩
  have hlev : (c.s.levels.eraseIdx k).take k ++
      ((c.s.levels.eraseIdx k).drop k).map (fun l => { l with value := wrapInt (l.value - 1) })
      = (c.s.levels.eraseIdx k).map
        (fun l => if l.value > (k : Int) then { l with value := l.value - 1 } else l) := by
    rw [eraseIdx_take _ _ hk', eraseIdx_drop _ _ hk', List.eraseIdx_eq_take_drop_succ,
      List.map_append]
    congr 1
    · conv_lhs => rw [← List.map_id (c.s.levels.take k)]
      exact List.map_congr_left (fun l hmem => by rw [if_neg (hbelow l hmem)]; rfl)
    · exact List.map_congr_left (fun l hmem => by
        rw [if_pos (habove l hmem).1, (habove l hmem).2])
  rw [removeLevel_text ht _ (by rw [hs]; exact hk), hs, hlev]
  set c3 := c.withLevels ((c.s.levels.eraseIdx k).map
        (fun l => if l.value > (k : Int) then { l with value := l.value - 1 } else l)) with hc3
  obtain ⟨f, g⟩ := consolidateRows_cells (k : Int) (List.range c.rowCount) c3 hl
    (List.nodup_range _)
  refine ⟨_, rfl, ?_, ?_, ?_, ?_, ?_⟩
  · show (consolidateRows _ _ c3).s.levels = _
    rw [f.levels]
    rfl
  · show (consolidateRows _ _ c3).s.levels.length = _
    rw [f.levels]
    show ((c.s.levels.eraseIdx k).map _).length = _
    rw [List.length_map, List.length_eraseIdx, if_pos hk']
    rfl
  · intro i hi
    have hi1 : i < ((c.s.levels.eraseIdx k).map
        (fun l => if l.value > (k : Int) then { l with value := l.value - 1 } else l)).length := by
      have : (consolidateRows (k : Int) (List.range c.rowCount) c3).s.levels = _ := f.levels
      unfold levelsUsed bumpChanges at hi
      simp only at hi
      rw [this] at hi
      exact hi
    show ((consolidateRows _ _ c3).s.levels.getD i default).value = _
    rw [f.levels]
    have e3 : c3.s.levels = (c.s.levels.eraseIdx k).map
        (fun l => if l.value > (k : Int) then { l with value := l.value - 1 } else l) := rfl
    rw [e3, List.getD_eq_getElem _ _ hi1, List.getElem_map]
    rw [List.length_map, List.length_eraseIdx, if_pos hk'] at hi1
    rw [List.getElem_eraseIdx]
    by_cases hik : i < k
    · rw [dif_pos hik]
      have := hcodes i (by unfold levelsUsed; omega)
      rw [List.getD_eq_getElem _ _ (by omega)] at this
      rw [this, if_neg (by omega)]
      exact this
    · rw [dif_neg hik]
      have := hcodes (i + 1) (by unfold levelsUsed; omega)
      rw [List.getD_eq_getElem _ _ (by omega)] at this
      rw [this, if_pos (by push_cast; omega)]
      show ((i + 1 : Nat) : Int) - 1 = i
      push_cast; omega
  · show (consolidateRows _ _ c3).s.rowCount = _
    rw [f.rowCount]; rfl
  · intro i hi
    show (consolidateRows _ _ c3).cellAtInt i = _
    rw [g i]
    have : c3.cellAtInt i = c.cellAtInt i := rfl
    rw [this]
    show _ = if c.cellAtInt i > (k : Int) then c.cellAtInt i - 1 else c.cellAtInt i
    by_cases hv : c.cellAtInt i > (k : Int)
    · rw [if_pos hv, if_pos ⟨List.mem_range.2 hi, hv⟩]
    · rw [if_neg hv, if_neg (fun h => hv h.2)]

/-- C8, the column of the specification: codes `[0, 1, 2]`, rows
`[0, 1, 2, 1]`, removing code 1 leaves codes `[0, 1]` and rows `[0, 1, 1, 1]`;
an instance of `removeLevel_text_codes` and its evaluation. -/
theorem removeLevel_text_codes_witness :
    (textOrdered.removeLevel 1).map (fun c => (c.s.levels.map (fun l => (l.value, l.label)), c.rows))
      = some ([(0, "a"), (1, "c")], [0, 1, 1, 1]) ∧
    ∃ c', textOrdered.removeLevel ((1 : Nat) : Int) = some c' ∧
      c'.s.levels = (textOrdered.s.levels.eraseIdx 1).map
        (fun l => if l.value > ((1 : Nat) : Int) then { l with value := l.value - 1 } else l) ∧
      c'.levelsUsed = textOrdered.levelsUsed - 1 ∧
      (∀ i, i < c'.levelsUsed → (c'.s.levels.getD i default).value = (i : Int)) ∧
      c'.rowCount = textOrdered.rowCount ∧
      ∀ i, i < textOrdered.rowCount →
        c'.ivalue i = if textOrdered.ivalue i > ((1 : Nat) : Int) then textOrdered.ivalue i - 1
          else textOrdered.ivalue i :=
  ⟨by decide,
   @removeLevel_text_codes textOrdered (by unfold Layout; decide) (by decide) (by decide)
     (by decide) 1 (by decide)⟩

/-- C8, codes that do not sit in ascending order are not consolidated by
value: with the dictionary in the order `2, 0, 1`, removing code 1 leaves the
codes `[2, 0]` (the level of code 2 is not decremented) while the row that
held 2 now holds 1, a code without level. -/
theorem removeLevel_text_unordered :
    (textUnordered.s.levels.map (fun l => l.value)) = [2, 0, 1] ∧
    textUnordered.rows = [0, 1, 2, 1] ∧
    (textUnordered.removeLevel 1).map (fun c => (c.s.levels.map (fun l => l.value), c.rows))
      = some ([2, 0], [0, 1, 1, 1]) := by
  decide

/-! ## Level dictionary: trimming -/

/-- C9 (as amended): on a column that is not textual, with unique level
values and `trimLevels` disabled, `setTrimLevels(true)` succeeds and leaves
exactly the levels whose count is not zero, in their order and with all their
fields; `trimLevels` is enabled and the rows are untouched. -/
theorem setTrimLevels_sweep {c : ColumnW} (h0 : c.trimLevels = false)
    (ht : c.dataType ≠ DataType.TEXT) (hn : (c.s.levels.map (·.value)).Nodup) :
    ∃ c', c.setTrimLevels true = some c' ∧
      c'.s.levels = c.s.levels.filter (fun l => decide (l.count ≠ 0)) ∧
      c'.trimLevels = true ∧ c'.rows = c.rows := by
  obtain ⟨ch, e⟩ := trimSweep_not_text c.levelsUsed 0 c ht hn (by omega)
  have h1 : ¬ c.s.trimLevels = true := by
    have : c.s.trimLevels = false := h0
    rw [this]; decide
  unfold setTrimLevels
  rw [if_neg h1, if_pos rfl, e]
  exact ⟨_, rfl, by simp [bumpChanges], rfl, rfl⟩

/-- C9, an integer dictionary with one zero-count level loses exactly that
level: an instance of `setTrimLevels_sweep` and its evaluation. -/
theorem setTrimLevels_sweep_witness :
    (trimInteger.setTrimLevels true).map (fun c => c.s.levels)
      = some [mkLevel 1 "a" 2 2, mkLevel 3 "c" 1 1] ∧
    ∃ c', trimInteger.setTrimLevels true = some c' ∧
      c'.s.levels = trimInteger.s.levels.filter (fun l => decide (l.count ≠ 0)) ∧
      c'.trimLevels = true ∧ c'.rows = trimInteger.rows :=
  ⟨by decide, @setTrimLevels_sweep trimInteger (by decide) (by decide) (by decide)⟩

/-- C9, two columns on which the sweep does more than drop the zero-count
levels. On a textual column the level that
stays is renumbered (code 1 becomes 0, and so does the row); and with two
entries of the same coded value the sweep removes the first of them, which has
occurrences, and keeps the zero-count one. -/
theorem setTrimLevels_not_untouched :
    (trimText.s.levels.filter (fun l => decide (l.count ≠ 0)) = [mkLevel 1 "b" 1 1] ∧
      (trimText.setTrimLevels true).map (fun c => (c.s.levels, c.rows))
        = some ([mkLevel 0 "b" 1 1], [0])) ∧
    (trimDuplicate.s.levels.filter (fun l => decide (l.count ≠ 0)) = [mkLevel 1 "a" 2 2] ∧
      (trimDuplicate.setTrimLevels true).map (fun c => c.s.levels)
        = some [mkLevel 1 "b" 0 0]) := by
  decide

/-! ## Level dictionary: insertion -/

theorem SameRows.refl (c : ColumnW) : SameRows c c := ⟨rfl, rfl, rfl, rfl, rfl, rfl, rfl⟩

theorem SameRows.trans {a b c : ColumnW} (h1 : SameRows a b) (h2 : SameRows b c) :
    SameRows a c :=
  ⟨h2.parent.trans h1.parent, h2.space.trans h1.space, h2.rowCount.trans h1.rowCount,
   h2.ivalues.trans h1.ivalues, h2.dataType.trans h1.dataType,
   h2.measureType.trans h1.measureType, h2.trimLevels.trans h1.trimLevels⟩

theorem sameRows_withLevels (c : ColumnW) (ls : List Level) : SameRows c (c.withLevels ls) :=
  ⟨rfl, rfl, rfl, rfl, rfl, rfl, rfl⟩

theorem sameRows_bumpChanges (c : ColumnW) : SameRows c c.bumpChanges :=
  ⟨rfl, rfl, rfl, rfl, rfl, rfl, rfl⟩

theorem SameRows.cellAtInt {c c' : ColumnW} (h : SameRows c c') (i : Nat) :
    c'.cellAtInt i = c.cellAtInt i := by
  unfold ColumnW.cellAtInt blockIndex byteOffset
  rw [h.space, h.ivalues]

theorem SameRows.layout {c c' : ColumnW} (h : SameRows c c') (hl : c.Layout) : c'.Layout := by
  unfold Layout at *
  rw [h.space]; exact hl

theorem sameRows_appendLevel (c : ColumnW) (value : Int) (label : String)
    (importValue : Option String) : SameRows c (c.appendLevel value label importValue) := by
  unfold appendLevel bumpChanges
  split <;> exact ⟨rfl, rfl, rfl, rfl, rfl, rfl, rfl⟩

theorem appendLevel_levels (c : ColumnW) (value : Int) (label : String)
    (importValue : Option String) (hcap : c.levelsUsed ≤ c.s.levelsCapacity) :
    (c.appendLevel value label importValue).s.levels
      = c.s.levels ++ [appendedLevel c value label importValue] := by
  have hz : ¬ c.s.levelsCapacity > 0 → c.s.levels = [] := by
    intro h0
    have : c.s.levels.length = 0 := by unfold levelsUsed at hcap; omega
    exact List.length_eq_zero.1 this
  cases importValue <;>
  · unfold appendLevel bumpChanges appendedLevel MemoryMapW.allocate
    split
    · by_cases h0 : c.s.levelsCapacity > 0
      · simp only [if_pos h0]; rfl
      · simp only [if_neg h0, hz h0, List.map_nil]; rfl
    · rfl

/-- Two flags that are cleared by the tests `g` and `h`: after `n` rounds a
flag is still set exactly when its test never fired. -/
theorem flags_fold (g h : Nat → Bool) (n : Nat) :
    (((List.range n).foldl
        (fun (f : Bool × Bool) i =>
          (if f.1 && g i then false else f.1, if f.2 && h i then false else f.2))
        (true, true)).1 = true ↔ ∀ i, i < n → g i = false) ∧
    (((List.range n).foldl
        (fun (f : Bool × Bool) i =>
          (if f.1 && g i then false else f.1, if f.2 && h i then false else f.2))
        (true, true)).2 = true ↔ ∀ i, i < n → h i = false) := by
  induction n with
  | zero => simp
  | succ n ih =>
    rw [List.range_succ, List.foldl_append]
    simp only [List.foldl_cons, List.foldl_nil]
    obtain ⟨ih1, ih2⟩ := ih
    set r := (List.range n).foldl
        (fun (f : Bool × Bool) i =>
          (if f.1 && g i then false else f.1, if f.2 && h i then false else f.2))
        (true, true) with hr
    constructor
    · cases h1 : r.1
      · simp only [Bool.false_and, Bool.false_eq_true, if_false, false_iff]
        intro hall
        have := ih1.2 (fun i hi => hall i (by omega))
        rw [h1] at this
        exact Bool.false_ne_true this
      · have hall := ih1.1 h1
        simp only [Bool.true_and]
        cases hg : g n
        · simp only [Bool.false_eq_true, if_false, true_iff]
          intro i hi
          rcases Nat.lt_or_ge i n with h' | h'
          · exact hall i h'
          · have : i = n := by omega
            rw [this]; exact hg
        · simp only [if_true, Bool.false_eq_true, false_iff]
          intro hall'
          have := hall' n (by omega)
          rw [hg] at this
          exact Bool.false_ne_true this.symm
    · cases h1 : r.2
      · simp only [Bool.false_and, Bool.false_eq_true, if_false, false_iff]
        intro hall
        have := ih2.2 (fun i hi => hall i (by omega))
        rw [h1] at this
        exact Bool.false_ne_true this
      · have hall := ih2.1 h1
        simp only [Bool.true_and]
        cases hg : h n
        · simp only [Bool.false_eq_true, if_false, true_iff]
          intro i hi
          rcases Nat.lt_or_ge i n with h' | h'
          · exact hall i h'
          · have : i = n := by omega
            rw [this]; exact hg
        · simp only [if_true, Bool.false_eq_true, false_iff]
          intro hall'
          have := hall' n (by omega)
          rw [hg] at this
          exact Bool.false_ne_true this.symm

theorem detectOrder_append (pre : List Level) (x : Level) :
    ((detectOrder (pre ++ [x]) pre.length).1 = true ↔ AscendingRun pre) ∧
    ((detectOrder (pre ++ [x]) pre.length).2 = true ↔ DescendingRun pre) := by
  have key : ∀ i, i + 1 < pre.length →
      (pre ++ [x]).getD i default = pre.getD i default ∧
      (pre ++ [x]).getD (i + 1) default = pre.getD (i + 1) default := fun i hi =>
    ⟨List.getD_append _ _ _ _ (by omega), List.getD_append _ _ _ _ (by omega)⟩
  obtain ⟨h1, h2⟩ := flags_fold
    (fun i => decide (((pre ++ [x]).getD i default).value
      > ((pre ++ [x]).getD (i + 1) default).value))
    (fun i => decide (((pre ++ [x]).getD i default).value
      < ((pre ++ [x]).getD (i + 1) default).value))
    (pre.length - 1)
  constructor
  · refine Iff.trans h1 ⟨fun h i hi => ?_, fun h i hi => ?_⟩
    · have := h i (by omega)
      rw [decide_eq_false_iff_not, (key i hi).1, (key i hi).2] at this
      omega
    · have := h i (by omega)
      rw [decide_eq_false_iff_not, (key i (by omega)).1, (key i (by omega)).2]
      omega
  · refine Iff.trans h2 ⟨fun h i hi => ?_, fun h i hi => ?_⟩
    · have := h i (by omega)
      rw [decide_eq_false_iff_not, (key i hi).1, (key i hi).2] at this
      omega
    · have := h i (by omega)
      rw [decide_eq_false_iff_not, (key i (by omega)).1, (key i (by omega)).2]
      omega

theorem set_gap (A B : List Level) (j x : Level) :
    (A ++ j :: B).set A.length x = A ++ x :: B := by
  induction A with
  | nil => rfl
  | cons a A ih => simp [ih]

theorem modify_gap (f : Level → Level) (A B : List Level) (j : Level) :
    (A ++ j :: B).modify f A.length = A ++ f j :: B := by
  induction A with
  | nil => rfl
  | cons a A ih =>
    simp only [List.cons_append, List.length_cons, List.modify_succ_cons, ih]

theorem take_succ_getD (pre : List Level) (k : Nat) (hk : k < pre.length) :
    pre.take (k + 1) = pre.take k ++ [pre.getD k default] := by
  rw [List.getD_eq_getElem _ _ hk, List.take_succ, List.getElem?_eq_getElem hk]
  rfl

theorem drop_getD (pre : List Level) (k : Nat) (hk : k < pre.length) :
    pre.drop k = pre.getD k default :: pre.drop (k + 1) := by
  rw [List.getD_eq_getElem _ _ hk]
  exact List.drop_eq_getElem_cons hk

/-- The placement loop on an array with the free slot at position `k`: the
new level ends at some `p ≤ k`, every entry it passed was shifted by the test
and the entry before it was not; the slot written is the free one when nothing
was shifted, the slot of the old entry `p` otherwise. -/
theorem placeLevel_spec (asc desc : Bool) (v : Int) (bl bi : String) (pre : List Level)
    (hv : ∀ l ∈ pre, l.value ≠ v) :
    ∀ (k : Nat), k ≤ pre.length → ∀ (junk : Level),
      ∃ p slot, p ≤ k ∧
        placeLevel asc desc v bl bi k (pre.take k ++ junk :: pre.drop k)
          = some (pre.take p ++ writeNewLevel v bl bi slot :: pre.drop p) ∧
        (∀ i, p ≤ i → i < k → shifts asc desc v (pre.getD i default)) ∧
        (0 < p → ¬ shifts asc desc v (pre.getD (p - 1) default)) ∧
        ((p = k ∧ slot = junk) ∨ (p < k ∧ slot = pre.getD p default)) := by
  intro k
  induction k with
  | zero =>
    intro _ junk
    refine ⟨0, junk, le_refl _, ?_, fun i h1 h2 => by omega, fun h => by omega, Or.inl ⟨rfl, rfl⟩⟩
    simp [placeLevel, List.modify]
  | succ k ih =>
    intro hk junk
    have hk' : k < pre.length := hk
    have hlen : (pre.take (k + 1)).length = k + 1 := by
      rw [List.length_take]; omega
    have hget : (pre.take (k + 1) ++ junk :: pre.drop (k + 1)).getD k default
        = pre.getD k default := by
      rw [List.getD_append _ _ _ _ (by omega), List.getD_eq_getElem _ _ (by omega),
        List.getD_eq_getElem _ _ hk', List.getElem_take]
    have hne : ¬ (pre.getD k default).value = v := by
      apply hv
      rw [List.getD_eq_getElem _ _ hk']
      exact List.getElem_mem hk'
    have hset : (pre.take (k + 1) ++ junk :: pre.drop (k + 1)).set (k + 1) (pre.getD k default)
        = pre.take k ++ pre.getD k default :: pre.drop k := by
      have := set_gap (pre.take (k + 1)) (pre.drop (k + 1)) junk (pre.getD k default)
      rw [hlen] at this
      rw [this, take_succ_getD pre k hk', drop_getD pre k hk']
      simp
    have hshift : shifts asc desc v (pre.getD k default) →
        ∃ p slot, p ≤ k + 1 ∧
          some (pre.take p ++ writeNewLevel v bl bi slot :: pre.drop p)
            = placeLevel asc desc v bl bi k (pre.take k ++ pre.getD k default :: pre.drop k) ∧
          (∀ i, p ≤ i → i < k + 1 → shifts asc desc v (pre.getD i default)) ∧
          (0 < p → ¬ shifts asc desc v (pre.getD (p - 1) default)) ∧
          ((p = k + 1 ∧ slot = junk) ∨ (p < k + 1 ∧ slot = pre.getD p default)) := by
      intro hs
      obtain ⟨p, slot, h1, h2, h3, h4, h5⟩ := ih (by omega) (pre.getD k default)
      refine ⟨p, slot, by omega, h2.symm, fun i hi1 hi2 => ?_, h4, Or.inr ?_⟩
      · rcases Nat.lt_or_ge i k with h | h
        · exact h3 i hi1 h
        · have : i = k := by omega
          rw [this]; exact hs
      · rcases h5 with ⟨a, b⟩ | ⟨a, b⟩
        · exact ⟨by omega, by rw [b, a]⟩
        · exact ⟨by omega, b⟩
    unfold placeLevel
    simp only [hget, if_neg hne, hset]
    by_cases ha : (asc && decide ((pre.getD k default).value > v)) = true
    · rw [if_pos ha]
      obtain ⟨p, slot, a1, a2, a3, a4, a5⟩ := hshift (Or.inl (by
        rw [Bool.and_eq_true, decide_eq_true_eq] at ha; exact ha))
      exact ⟨p, slot, a1, a2.symm, a3, a4, a5⟩
    · rw [if_neg ha]
      by_cases hd : (desc && decide ((pre.getD k default).value < v)) = true
      · rw [if_pos hd]
        obtain ⟨p, slot, a1, a2, a3, a4, a5⟩ := hshift (Or.inr (by
          rw [Bool.and_eq_true, decide_eq_true_eq] at hd; exact hd))
        exact ⟨p, slot, a1, a2.symm, a3, a4, a5⟩
      · rw [if_neg hd]
        refine ⟨k + 1, junk, le_refl _, ?_, fun i h1 h2 => by omega, fun _ => ?_,
          Or.inl ⟨rfl, rfl⟩⟩
        · have := modify_gap (writeNewLevel v bl bi) (pre.take (k + 1)) (pre.drop (k + 1)) junk
          rw [hlen] at this
          rw [this]
        · show ¬ shifts asc desc v (pre.getD k default)
          rintro (⟨x, y⟩ | ⟨x, y⟩)
          · exact ha (by rw [x, Bool.true_and]; exact decide_eq_true y)
          · exact hd (by rw [x, Bool.true_and]; exact decide_eq_true y)

/-- `insertLevel` of a value the dictionary does not hold: the call succeeds,
the rows are untouched, and the entries are the old ones with one entry of the
new value at a position `p` that the detected order and the placement loop
determine. -/
theorem insertLevel_spec (c : ColumnW) (v : Int) (label : String) (imp : Option String)
    (hcap : c.levelsUsed ≤ c.s.levelsCapacity) (hv : ∀ l ∈ c.s.levels, l.value ≠ v) :
    ∃ p slot c', p ≤ c.levelsUsed ∧ c.insertLevel v label imp = some c' ∧ SameRows c c' ∧
      c'.s.levels = c.s.levels.take p
        ++ writeNewLevel v label (imp.getD label) slot :: c.s.levels.drop p ∧
      ((p = c.levelsUsed ∧ slot = appendedLevel c v label imp) ∨
        (p < c.levelsUsed ∧ slot = c.s.levels.getD p default)) ∧
      (AscendingRun c.s.levels →
        (∀ i, p ≤ i → i < c.levelsUsed → shifts true false v (c.s.levels.getD i default)) ∧
        (0 < p → ¬ shifts true false v (c.s.levels.getD (p - 1) default))) ∧
      (¬ AscendingRun c.s.levels → DescendingRun c.s.levels →
        (∀ i, p ≤ i → i < c.levelsUsed → shifts false true v (c.s.levels.getD i default)) ∧
        (0 < p → ¬ shifts false true v (c.s.levels.getD (p - 1) default))) ∧
      (¬ AscendingRun c.s.levels → ¬ DescendingRun c.s.levels → p = c.levelsUsed) := by
  set pre := c.s.levels with hpre
  set x := appendedLevel c v label imp with hx
  set c1 := c.appendLevel v label imp with hc1
  have hl1 : c1.s.levels = pre ++ [x] := appendLevel_levels c v label imp hcap
  have hr1 : SameRows c c1 := sameRows_appendLevel c v label imp
  have hm : c1.levelsUsed - 1 = pre.length := by
    show c1.s.levels.length - 1 = _
    rw [hl1]; simp
  have hlast : (pre ++ [x]).getD pre.length default = x := by
    rw [List.getD_append_right _ _ _ _ (le_refl _)]; simp
  have hgap : pre ++ [x] = pre.take pre.length ++ x :: pre.drop pre.length := by simp
  obtain ⟨d1, d2⟩ := detectOrder_append pre x
  have hfin : ∀ ls, SameRows c (bumpChanges (c1.withLevels ls)) := fun ls =>
    hr1.trans ((sameRows_withLevels c1 ls).trans (sameRows_bumpChanges _))
  -- the shape of the call
  have hshape : c.insertLevel v label imp =
      (if (detectOrder (pre ++ [x]) pre.length).1 = false ∧
          (if (detectOrder (pre ++ [x]) pre.length).1 && (detectOrder (pre ++ [x]) pre.length).2
            then false else (detectOrder (pre ++ [x]) pre.length).2) = false then
        some ((pre ++ [x]).modify (writeNewLevel v label (imp.getD label)) pre.length)
      else
        placeLevel (detectOrder (pre ++ [x]) pre.length).1
          (if (detectOrder (pre ++ [x]) pre.length).1 && (detectOrder (pre ++ [x]) pre.length).2
            then false else (detectOrder (pre ++ [x]) pre.length).2)
          v label (imp.getD label) pre.length (pre ++ [x])).map
        (fun ls => bumpChanges (c1.withLevels ls)) := by
    unfold insertLevel
    simp only [← hc1, hl1, hm, hlast]
    rfl
  rw [hshape]
  by_cases hA : AscendingRun pre
  · have fa : (detectOrder (pre ++ [x]) pre.length).1 = true := d1.2 hA
    have fd : (if (detectOrder (pre ++ [x]) pre.length).1 &&
        (detectOrder (pre ++ [x]) pre.length).2 then false
        else (detectOrder (pre ++ [x]) pre.length).2) = false := by
      rw [fa]; cases (detectOrder (pre ++ [x]) pre.length).2 <;> rfl
    rw [fd, fa, if_neg (by simp), hgap]
    obtain ⟨p, slot, p1, p2, p3, p4, p5⟩ :=
      placeLevel_spec true false v label (imp.getD label) pre hv pre.length (le_refl _) x
    rw [p2]
    exact ⟨p, slot, _, p1, rfl, hfin _, rfl, p5, fun _ => ⟨p3, p4⟩,
      fun h => absurd hA h, fun h => absurd hA h⟩
  · have fa : (detectOrder (pre ++ [x]) pre.length).1 = false := by
      cases h : (detectOrder (pre ++ [x]) pre.length).1
      · rfl
      · exact absurd (d1.1 h) hA
    by_cases hD : DescendingRun pre
    · have fd : (detectOrder (pre ++ [x]) pre.length).2 = true := d2.2 hD
      rw [fa, fd]
      simp only [Bool.false_and, Bool.false_eq_true, if_false]
      rw [if_neg (by simp), hgap]
      obtain ⟨p, slot, p1, p2, p3, p4, p5⟩ :=
        placeLevel_spec false true v label (imp.getD label) pre hv pre.length (le_refl _) x
      rw [p2]
      exact ⟨p, slot, _, p1, rfl, hfin _, rfl, p5, fun h => absurd h hA,
        fun _ _ => ⟨p3, p4⟩, fun _ h => absurd hD h⟩
    · have fd : (detectOrder (pre ++ [x]) pre.length).2 = false := by
        cases h : (detectOrder (pre ++ [x]) pre.length).2
        · rfl
        · exact absurd (d2.1 h) hD
      rw [fa, fd]
      simp only [Bool.false_and, Bool.false_eq_true, if_false, and_self, if_true]
      refine ⟨pre.length, x, _, le_refl _, rfl, hfin _, ?_, Or.inl ⟨rfl, rfl⟩,
        fun h => absurd h hA, fun _ h => absurd h hD, fun _ _ => rfl⟩
      show (pre ++ [x]).modify _ pre.length = _
      rw [modify_gap]
      simp

theorem pairwise_insert (R : Int → Int → Prop) (vals : List Int) (p : Nat) (v : Int)
    (hs : vals.Pairwise R) (h1 : ∀ b ∈ vals.drop p, R v b) (h2 : ∀ a ∈ vals.take p, R a v) :
    (vals.take p ++ v :: vals.drop p).Pairwise R := by
  have hsplit : (vals.take p ++ vals.drop p).Pairwise R := by
    rw [List.take_append_drop]; exact hs
  rw [List.pairwise_append] at hsplit
  rw [List.pairwise_append]
  refine ⟨hsplit.1, List.pairwise_cons.2 ⟨h1, hsplit.2.1⟩, fun a ha b hb => ?_⟩
  rcases List.mem_cons.1 hb with rfl | hb
  · exact h2 a ha
  · exact hsplit.2.2 a ha b hb

theorem value_getD (pre : List Level) (i : Nat) (hi : i < pre.length) :
    (pre.map (·.value)).getD i 0 = (pre.getD i default).value := by
  rw [List.getD_eq_getElem _ _ hi, List.getD_eq_getElem _ _ (by simpa using hi),
    List.getElem_map]

theorem mem_drop_values (pre : List Level) (p : Nat) (b : Int)
    (hb : b ∈ (pre.map (·.value)).drop p) :
    ∃ i, p ≤ i ∧ i < pre.length ∧ b = (pre.getD i default).value := by
  obtain ⟨j, hj, rfl⟩ := List.mem_iff_getElem.1 hb
  rw [List.length_drop, List.length_map] at hj
  refine ⟨p + j, by omega, by omega, ?_⟩
  rw [List.getElem_drop, List.getElem_map, List.getD_eq_getElem _ _ (by omega)]

theorem mem_take_values (pre : List Level) (p : Nat) (a : Int)
    (ha : a ∈ (pre.map (·.value)).take p) :
    ∃ i, i < p ∧ i < pre.length ∧ a = (pre.getD i default).value := by
  obtain ⟨j, hj, rfl⟩ := List.mem_iff_getElem.1 ha
  rw [List.length_take, List.length_map] at hj
  refine ⟨j, by omega, by omega, ?_⟩
  rw [List.getElem_take, List.getElem_map, List.getD_eq_getElem _ _ (by omega)]

theorem pairwise_values_getD {R : Int → Int → Prop} (pre : List Level)
    (hs : (pre.map (·.value)).Pairwise R) (i j : Nat) (hij : i < j) (hj : j < pre.length) :
    R (pre.getD i default).value (pre.getD j default).value := by
  have := List.pairwise_iff_getElem.1 hs i j (by simp; omega) (by simpa using hj) hij
  rwa [List.getElem_map, List.getElem_map, ← List.getD_eq_getElem _ default,
    ← List.getD_eq_getElem _ default] at this

theorem ascendingRun_of_pairwise (pre : List Level)
    (hs : (pre.map (·.value)).Pairwise (· < ·)) : AscendingRun pre := fun i hi =>
  le_of_lt (pairwise_values_getD pre hs i (i + 1) (by omega) hi)

theorem descendingRun_of_pairwise (pre : List Level)
    (hs : (pre.map (·.value)).Pairwise (· > ·)) : DescendingRun pre := fun i hi =>
  le_of_lt (pairwise_values_getD pre hs i (i + 1) (by omega) hi)

theorem not_ascendingRun_of_pairwise_gt (pre : List Level) (h2 : 2 ≤ pre.length)
    (hs : (pre.map (·.value)).Pairwise (· > ·)) : ¬ AscendingRun pre := fun h => by
  have a := h 0 (by omega)
  have b := pairwise_values_getD pre hs 0 1 (by omega) (by omega)
  simp only [gt_iff_lt, Nat.zero_add] at a b
  omega

theorem pairwise_lt_of_ascendingRun (pre : List Level) (hn : (pre.map (·.value)).Nodup)
    (h : AscendingRun pre) : (pre.map (·.value)).Pairwise (· < ·) := by
  rw [← List.chain'_iff_pairwise, List.chain'_iff_get]
  intro i hi
  rw [List.length_map] at hi
  have hi0 : i < pre.length := by omega
  have hi1 : i + 1 < pre.length := by omega
  have hle := h i hi1
  have hne : (pre.getD i default).value ≠ (pre.getD (i + 1) default).value := by
    intro e
    rw [← value_getD pre i hi0, ← value_getD pre (i + 1) hi1,
      List.getD_eq_getElem _ _ (by simpa using hi0),
      List.getD_eq_getElem _ _ (by simpa using hi1)] at e
    have := (List.Nodup.getElem_inj_iff hn).1 e
    omega
  simp only [List.get_eq_getElem, List.getElem_map]
  rw [List.getD_eq_getElem _ _ hi0, List.getD_eq_getElem _ _ hi1] at hle hne
  omega

theorem pairwise_gt_of_descendingRun (pre : List Level) (hn : (pre.map (·.value)).Nodup)
    (h : DescendingRun pre) : (pre.map (·.value)).Pairwise (· > ·) := by
  rw [← List.chain'_iff_pairwise, List.chain'_iff_get]
  intro i hi
  rw [List.length_map] at hi
  have hi0 : i < pre.length := by omega
  have hi1 : i + 1 < pre.length := by omega
  have hle := h i hi1
  have hne : (pre.getD i default).value ≠ (pre.getD (i + 1) default).value := by
    intro e
    rw [← value_getD pre i hi0, ← value_getD pre (i + 1) hi1,
      List.getD_eq_getElem _ _ (by simpa using hi0),
      List.getD_eq_getElem _ _ (by simpa using hi1)] at e
    have := (List.Nodup.getElem_inj_iff hn).1 e
    omega
  simp only [List.get_eq_getElem, List.getElem_map]
  rw [List.getD_eq_getElem _ _ hi0, List.getD_eq_getElem _ _ hi1] at hle hne
  omega

theorem values_insert (pre : List Level) (p : Nat) (l : Level) :
    (pre.take p ++ l :: pre.drop p).map (·.value)
      = (pre.map (·.value)).take p ++ l.value :: (pre.map (·.value)).drop p := by
  rw [List.map_append, List.map_cons, List.map_take, List.map_drop]

/-- C5: `insertLevel` preserves the detected sort order. For a dictionary with
unique coded values (and no more entries than its capacity) and a value not yet
present the call succeeds and its result is the old sequence of levels with
one new entry, holding the value and the label, put in at a position `p`. If
the old values are strictly ascending (always so with fewer than two entries)
the new values are strictly ascending; if there are two or more and they are
strictly descending the new values are strictly descending; and if they are
neither, the new level is the last entry and the old entries keep their
positions. -/
theorem insertLevel_keeps_order (c : ColumnW) (hcap : c.levelsUsed ≤ c.s.levelsCapacity)
    (hn : (c.s.levels.map (·.value)).Nodup) (v : Int)
    (hv : v ∉ c.s.levels.map (·.value)) (label : String) (imp : Option String) :
    ∃ c' p l, c.insertLevel v label imp = some c' ∧ p ≤ c.levelsUsed ∧
      l.value = v ∧ l.label = label ∧ l.importValue = imp.getD label ∧
      c'.s.levels = c.s.levels.take p ++ l :: c.s.levels.drop p ∧
      c'.s.levels.map (·.value)
        = (c.s.levels.map (·.value)).take p ++ v :: (c.s.levels.map (·.value)).drop p ∧
      ((c.s.levels.map (·.value)).Pairwise (· < ·) →
        (c'.s.levels.map (·.value)).Pairwise (· < ·)) ∧
      (2 ≤ c.levelsUsed → (c.s.levels.map (·.value)).Pairwise (· > ·) →
        (c'.s.levels.map (·.value)).Pairwise (· > ·)) ∧
      (¬ (c.s.levels.map (·.value)).Pairwise (· < ·) →
        ¬ (c.s.levels.map (·.value)).Pairwise (· > ·) →
        p = c.levelsUsed ∧ c'.s.levels = c.s.levels ++ [l]) := by
  have hv' : ∀ l ∈ c.s.levels, l.value ≠ v := fun l hl e =>
    hv (e ▸ List.mem_map_of_mem _ hl)
  obtain ⟨p, slot, c', hp, hcall, -, hlev, -, hasc, hdesc, hnone⟩ :=
    insertLevel_spec c v label imp hcap hv'
  have hvals : c'.s.levels.map (·.value)
      = (c.s.levels.map (·.value)).take p ++ v :: (c.s.levels.map (·.value)).drop p := by
    rw [hlev, values_insert]; rfl
  -- the entry before the new one, when the test did not shift it
  have hbefore : ∀ (R : Int → Int → Prop), (∀ a b d : Int, R a b → R b d → R a d) →
      (c.s.levels.map (·.value)).Pairwise R →
      (0 < p → R (c.s.levels.getD (p - 1) default).value v) →
      ∀ a ∈ (c.s.levels.map (·.value)).take p, R a v := by
    intro R htrans hs hlast a ha
    obtain ⟨i, hi1, hi2, rfl⟩ := mem_take_values _ _ _ ha
    rcases Nat.lt_or_ge i (p - 1) with h | h
    · exact htrans _ _ _
        (pairwise_values_getD _ hs i (p - 1) h (by unfold levelsUsed at hp; omega))
        (hlast (by omega))
    · have : i = p - 1 := by omega
      rw [this]; exact hlast (by omega)
  refine ⟨c', p, writeNewLevel v label (imp.getD label) slot, hcall, hp, rfl, rfl, rfl, hlev,
    hvals, fun hs => ?_, fun h2 hs => ?_, fun h1 h2 => ?_⟩
  · obtain ⟨a1, a2⟩ := hasc (ascendingRun_of_pairwise _ hs)
    rw [hvals]
    refine pairwise_insert _ _ p v hs (fun b hb => ?_)
      (hbefore _ (fun _ _ _ => lt_trans) hs (fun h0 => ?_))
    · obtain ⟨i, hi1, hi2, rfl⟩ := mem_drop_values _ _ _ hb
      rcases a1 i hi1 hi2 with ⟨-, h⟩ | ⟨h, -⟩
      · exact h
      · exact absurd h (by decide)
    · have hne := hv' (c.s.levels.getD (p - 1) default) (by
        rw [List.getD_eq_getElem _ _ (by unfold levelsUsed at hp; omega)]
        exact List.getElem_mem _)
      have hns := a2 h0
      have : ¬ (c.s.levels.getD (p - 1) default).value > v := fun h => hns (Or.inl ⟨rfl, h⟩)
      omega
  · obtain ⟨a1, a2⟩ := hdesc (not_ascendingRun_of_pairwise_gt _ h2 hs)
      (descendingRun_of_pairwise _ hs)
    rw [hvals]
    refine pairwise_insert _ _ p v hs (fun b hb => ?_)
      (hbefore _ (fun _ _ _ h h' => lt_trans h' h) hs (fun h0 => ?_))
    · obtain ⟨i, hi1, hi2, rfl⟩ := mem_drop_values _ _ _ hb
      rcases a1 i hi1 hi2 with ⟨h, -⟩ | ⟨-, h⟩
      · exact absurd h (by decide)
      · exact h
    · have hne := hv' (c.s.levels.getD (p - 1) default) (by
        rw [List.getD_eq_getElem _ _ (by unfold levelsUsed at hp; omega)]
        exact List.getElem_mem _)
      have hns := a2 h0
      have : ¬ (c.s.levels.getD (p - 1) default).value < v := fun h => hns (Or.inr ⟨rfl, h⟩)
      show v < _
      omega
  · have hA : ¬ AscendingRun c.s.levels := fun h => h1 (pairwise_lt_of_ascendingRun _ hn h)
    have hD : ¬ DescendingRun c.s.levels := fun h => h2 (pairwise_gt_of_descendingRun _ hn h)
    have hp' := hnone hA hD
    refine ⟨hp', ?_⟩
    rw [hlev, hp']
    unfold levelsUsed
    simp

/-- C5, instances: inserting 25 into `[10, 20, 30]` gives `[10, 20, 25, 30]`;
inserting below or above `[1, 2, 3]` keeps it ascending; a descending
dictionary stays descending; an unordered one gets the level at its tail. -/
theorem insertLevel_keeps_order_witness :
    (((dictionaryOf [10, 20, 30]).insertLevel 25 "25" none).map
        (fun c => c.s.levels.map (·.value)) = some [10, 20, 25, 30] ∧
      ((dictionaryOf [1, 2, 3]).insertLevel 0 "0" none).map
        (fun c => c.s.levels.map (·.value)) = some [0, 1, 2, 3] ∧
      ((dictionaryOf [1, 2, 3]).insertLevel 4 "4" none).map
        (fun c => c.s.levels.map (·.value)) = some [1, 2, 3, 4] ∧
      ((dictionaryOf [30, 20, 10]).insertLevel 25 "25" none).map
        (fun c => c.s.levels.map (·.value)) = some [30, 25, 20, 10] ∧
      ((dictionaryOf [10, 30, 20]).insertLevel 25 "25" none).map
        (fun c => c.s.levels.map (·.value)) = some [10, 30, 20, 25]) ∧
    ∃ c' p l, (dictionaryOf [10, 20, 30]).insertLevel 25 "25" none = some c' ∧
      l.value = 25 ∧
      c'.s.levels = (dictionaryOf [10, 20, 30]).s.levels.take p
        ++ l :: (dictionaryOf [10, 20, 30]).s.levels.drop p ∧
      (c'.s.levels.map (·.value)).Pairwise (· < ·) := by
  refine ⟨by decide, ?_⟩
  obtain ⟨c', p, l, h1, -, h3, -, -, h6, -, h8, -, -⟩ :=
    insertLevel_keeps_order (dictionaryOf [10, 20, 30]) (by decide) (by decide) 25 (by decide)
      "25" none
  exact ⟨c', p, l, h1, h3, h6, h8 (by decide)⟩

/-! ## Level dictionary: counting -/

theorem map_zeroCounts_modify (f : Level → Level) (hf : ∀ l, zeroCounts (f l) = zeroCounts l)
    (ls : List Level) (k : Nat) :
    (ls.modify f k).map zeroCounts = ls.map zeroCounts := by
  induction ls generalizing k with
  | nil => cases k <;> rfl
  | cons l ls ih =>
    cases k with
    | zero => simp [List.modify, hf]
    | succ k => simp only [List.modify_succ_cons, List.map_cons, ih]

/-- The row scan only touches the counters of the dictionary. -/
theorem countRows_frame (is : List Nat) (c c' : ColumnW) (h : countRows is c = some c') :
    ∃ ls, c' = c.withLevels ls ∧ ls.map zeroCounts = c.s.levels.map zeroCounts := by
  induction is generalizing c with
  | nil =>
    simp only [countRows, Option.some.injEq] at h
    exact ⟨c.s.levels, h.symm, rfl⟩
  | cons i is ih =>
    unfold countRows at h
    by_cases hv : c.cellAtInt i = INT_MIN
    · simp only [hv, if_true] at h
      exact ih c h
    · simp only [if_neg hv] at h
      cases hk : c.rawLevel (c.cellAtInt i) with
      | none => rw [hk] at h; exact absurd h (by simp)
      | some k =>
        rw [hk] at h
        simp only at h
        obtain ⟨ls, e1, e2⟩ := ih _ h
        refine ⟨ls, ?_, ?_⟩
        · rw [e1]; split <;> rfl
        · rw [e2]
          split
          · show ((c.s.levels.modify _ k).modify _ k).map zeroCounts = _
            rw [map_zeroCounts_modify _ (by intro l; rfl), map_zeroCounts_modify _ (by intro l; rfl)]
          · show (c.s.levels.modify _ k).map zeroCounts = _
            rw [map_zeroCounts_modify _ (by intro l; rfl)]

/-- C4: `updateLevelCounts` is idempotent: on every column state on which it
does not abort, a second run returns exactly the state the first run
returned. -/
theorem updateLevelCounts_idempotent (c c' : ColumnW) (h : c.updateLevelCounts = some c') :
    c'.updateLevelCounts = some c' := by
  unfold updateLevelCounts at h
  by_cases hm : c.measureType ≠ MeasureType.CONTINUOUS ∧ c.measureType ≠ MeasureType.ID
  · rw [if_pos hm] at h
    obtain ⟨ls, e1, e2⟩ := countRows_frame _ _ _ h
    have hz : ls.map (fun l => { l with count := 0, countExFiltered := 0 })
        = c.s.levels.map (fun l => { l with count := 0, countExFiltered := 0 }) := by
      have : (c.s.levels.map zeroCounts).map zeroCounts = c.s.levels.map zeroCounts := by
        rw [List.map_map]; rfl
      have e3 : ls.map zeroCounts = c.s.levels.map zeroCounts := by
        rw [e2]; exact this
      exact e3
    have hm' : c'.measureType ≠ MeasureType.CONTINUOUS ∧ c'.measureType ≠ MeasureType.ID := by
      rw [e1]; exact hm
    unfold updateLevelCounts
    rw [if_pos hm']
    have : c'.withLevels (c'.s.levels.map (fun l => { l with count := 0, countExFiltered := 0 }))
        = c.withLevels (c.s.levels.map (fun l => { l with count := 0, countExFiltered := 0 })) := by
      rw [e1]
      show c.withLevels (ls.map _) = _
      rw [hz]
    have hrc : (c'.withLevels
        (c'.s.levels.map (fun l => { l with count := 0, countExFiltered := 0 }))).rowCount
        = (c.withLevels
        (c.s.levels.map (fun l => { l with count := 0, countExFiltered := 0 }))).rowCount := by
      rw [this]
    simp only [hrc, this]
    exact h
  · rw [if_neg hm] at h
    have e : c' = c := (Option.some.inj h).symm
    rw [e]
    unfold updateLevelCounts
    rw [if_neg hm]

/-- C4, an instance of `updateLevelCounts_idempotent` on a column whose
counters are out of date: the first run succeeds and recounts, the second run
returns the state of the first. -/
theorem updateLevelCounts_idempotent_witness :
    ((staleCounts.updateLevelCounts).bind updateLevelCounts).map
        (fun c => c.s.levels.map (fun l => (l.value, l.count, l.countExFiltered)))
      = some [(0, 1, 1), (1, 2, 2), (2, 1, 1)] ∧
    ∃ c', staleCounts.updateLevelCounts = some c' ∧ c'.updateLevelCounts = some c' := by
  refine ⟨by decide, ?_⟩
  have h : (staleCounts.updateLevelCounts).isSome = true := by decide
  obtain ⟨c', hc'⟩ := Option.isSome_iff_exists.1 h
  exact ⟨c', hc', updateLevelCounts_idempotent staleCounts c' hc'⟩

/-- With unique coded values, a change of the entry the scan finds is a change
of every entry holding the value. -/
theorem modify_scan_eq_map (f : Level → Level) (ls : List Level)
    (hn : (ls.map (·.value)).Nodup) (v : Int) :
    ls.modify f (scanLevels ls v) = ls.map (fun l => if l.value = v then f l else l) := by
  induction ls with
  | nil => rfl
  | cons l ls ih =>
    rw [List.map_cons, List.nodup_cons] at hn
    unfold scanLevels
    by_cases h : l.value = v
    · rw [if_pos h, List.map_cons, if_pos h]
      have : ls.map (fun l => if l.value = v then f l else l) = ls := by
        conv_rhs => rw [← List.map_id ls]
        apply List.map_congr_left
        intro a ha
        have : a.value ≠ v := fun e => hn.1 (by rw [h, ← e]; exact List.mem_map_of_mem _ ha)
        rw [if_neg this]; rfl
      rw [this]; rfl
    · rw [if_neg h, List.modify_succ_cons, List.map_cons, if_neg h, ih hn.2]

theorem rawLevel_of_mem (c : ColumnW) (v : Int) (h : ∃ l ∈ c.s.levels, l.value = v) :
    c.rawLevel v = some (scanLevels c.s.levels v) := by
  unfold rawLevel
  have : ¬ scanLevels c.s.levels v = c.levelsUsed := by
    intro e
    obtain ⟨l, hl, hv⟩ := h
    exact (scanLevels_eq_length_iff _ _).1 e l hl hv
  simp only [if_neg this]

theorem countedOnce_value (filtered : Bool) (v : Int) (l : Level) :
    (countedOnce filtered v l).value = l.value := by
  unfold countedOnce; split <;> rfl

theorem map_countedOnce_values (filtered : Bool) (v : Int) (ls : List Level) :
    (ls.map (countedOnce filtered v)).map (·.value) = ls.map (·.value) := by
  rw [List.map_map]
  exact List.map_congr_left (fun l _ => countedOnce_value filtered v l)

/-- Counting one row in the level the lookup returns, as both `countRows` and
`countNew` do it, changes the dictionary by `countedOnce`. -/
theorem count_step (ls : List Level) (hn : (ls.map (·.value)).Nodup) (v : Int)
    (filtered : Bool) :
    (if ¬ filtered = true then
        (ls.modify (fun l => { l with count := wrapInt (l.count + 1) }) (scanLevels ls v)).modify
          (fun l => { l with countExFiltered := wrapInt (l.countExFiltered + 1) })
          (scanLevels ls v)
      else ls.modify (fun l => { l with count := wrapInt (l.count + 1) }) (scanLevels ls v))
      = ls.map (countedOnce filtered v) := by
  have e1 := modify_scan_eq_map (fun l => { l with count := wrapInt (l.count + 1) }) ls hn v
  have hn1 : ((ls.map (fun l => if l.value = v then
      ({ l with count := wrapInt (l.count + 1) } : Level) else l)).map (·.value)).Nodup := by
    have : (ls.map (fun l => if l.value = v then
        ({ l with count := wrapInt (l.count + 1) } : Level) else l)).map (·.value)
        = ls.map (·.value) := by
      rw [List.map_map]
      apply List.map_congr_left
      intro l _
      show (if l.value = v then _ else l).value = l.value
      split <;> rfl
    rw [this]; exact hn
  have hs : scanLevels (ls.map (fun l => if l.value = v then
      ({ l with count := wrapInt (l.count + 1) } : Level) else l)) v = scanLevels ls v := by
    clear e1 hn1 hn
    induction ls with
    | nil => rfl
    | cons l ls ih =>
      simp only [List.map_cons, scanLevels]
      by_cases h : l.value = v
      · simp [h]
      · simp only [if_neg h, ih]
  cases filtered with
  | true =>
    simp only [not_true_eq_false, if_false]
    rw [e1]
    apply List.map_congr_left
    intro l _
    unfold countedOnce
    split <;> rfl
  | false =>
    simp only [Bool.false_eq_true, not_false_eq_true, if_true]
    rw [e1, ← hs, modify_scan_eq_map _ _ hn1, List.map_map]
    apply List.map_congr_left
    intro l _
    unfold countedOnce
    by_cases h : l.value = v
    · simp [h]
    · simp [h]

theorem SameRows.ivalue {c c' : ColumnW} (h : SameRows c c') (i : Nat) :
    c'.ivalue i = c.ivalue i := h.cellAtInt i

theorem SameRows.occurrencesIn {c c' : ColumnW} (h : SameRows c c') (is : List Nat) (v : Int) :
    c'.occurrencesIn is v = c.occurrencesIn is v := by
  unfold ColumnW.occurrencesIn
  simp only [h.ivalue]

theorem SameRows.occurrencesExFilteredIn {c c' : ColumnW} (h : SameRows c c') (is : List Nat)
    (v : Int) : c'.occurrencesExFilteredIn is v = c.occurrencesExFilteredIn is v := by
  unfold ColumnW.occurrencesExFilteredIn
  simp only [h.ivalue, h.parent]

theorem occurrencesIn_cons (c : ColumnW) (i : Nat) (is : List Nat) (v : Int) :
    c.occurrencesIn (i :: is) v
      = c.occurrencesIn is v + if c.ivalue i = v ∧ c.ivalue i ≠ INT_MIN then 1 else 0 := by
  unfold occurrencesIn
  rw [List.countP_cons]
  simp only [decide_eq_true_eq]

theorem occurrencesExFilteredIn_cons (c : ColumnW) (i : Nat) (is : List Nat) (v : Int) :
    c.occurrencesExFilteredIn (i :: is) v
      = c.occurrencesExFilteredIn is v
        + if c.ivalue i = v ∧ c.ivalue i ≠ INT_MIN ∧ c.parent.isRowFiltered i = false
            then 1 else 0 := by
  unfold occurrencesExFilteredIn
  rw [List.countP_cons]
  simp only [decide_eq_true_eq]

/-- The row scan of `updateLevelCounts` on a dictionary with unique values
that covers the scanned cells, with counters that cannot overflow: it
succeeds and adds to every level the occurrences of its value. -/
theorem countRows_spec (is : List Nat) (c : ColumnW)
    (hn : (c.s.levels.map (·.value)).Nodup)
    (hcov : ∀ i ∈ is, c.ivalue i ≠ INT_MIN → ∃ l ∈ c.s.levels, l.value = c.ivalue i)
    (hb : ∀ l ∈ c.s.levels, 0 ≤ l.count ∧ l.count + is.length ≤ 2147483647 ∧
      0 ≤ l.countExFiltered ∧ l.countExFiltered + is.length ≤ 2147483647) :
    countRows is c = some (c.withLevels (c.s.levels.map (tallied c is))) := by
  induction is generalizing c with
  | nil =>
    unfold countRows
    have : c.s.levels.map (tallied c []) = c.s.levels := by
      conv_rhs => rw [← List.map_id c.s.levels]
      apply List.map_congr_left
      intro l _
      cases l
      simp [tallied, occurrencesIn, occurrencesExFilteredIn]
    rw [this]; rfl
  | cons i is ih =>
    unfold countRows
    by_cases hv : c.cellAtInt i = INT_MIN
    · simp only [hv, if_true]
      rw [ih c hn (fun j hj => hcov j (List.mem_cons_of_mem _ hj))
        (fun l hl => by
          obtain ⟨a, b, d, e⟩ := hb l hl
          simp only [List.length_cons, Nat.cast_add, Nat.cast_one] at b e
          exact ⟨a, by omega, d, by omega⟩)]
      congr 2
      apply List.map_congr_left
      intro l _
      have hi : c.ivalue i = INT_MIN := hv
      unfold tallied
      rw [occurrencesIn_cons, occurrencesExFilteredIn_cons]
      simp [hi]
    · simp only [if_neg hv]
      have hmem := hcov i (List.mem_cons_self _ _) hv
      rw [rawLevel_of_mem c (c.cellAtInt i) hmem]
      simp only
      set v := c.cellAtInt i with hvdef
      set c2 := c.withLevels (c.s.levels.map (countedOnce (c.parent.isRowFiltered i) v)) with hc2
      have hstep : (if ¬ c.parent.isRowFiltered i = true then
            (c.withLevels (c.s.levels.modify
              (fun l => { l with count := wrapInt (l.count + 1) })
              (scanLevels c.s.levels v))).withLevels
              ((c.withLevels (c.s.levels.modify
                (fun l => { l with count := wrapInt (l.count + 1) })
                (scanLevels c.s.levels v))).s.levels.modify
                (fun l => { l with countExFiltered := wrapInt (l.countExFiltered + 1) })
                (scanLevels c.s.levels v))
          else c.withLevels (c.s.levels.modify
              (fun l => { l with count := wrapInt (l.count + 1) })
              (scanLevels c.s.levels v))) = c2 := by
        rw [hc2, ← count_step c.s.levels hn v (c.parent.isRowFiltered i)]
        split <;> rfl
      rw [hstep]
      have hr : SameRows c c2 := sameRows_withLevels c _
      have hn2 : (c2.s.levels.map (·.value)).Nodup := by
        show ((c.s.levels.map (countedOnce _ v)).map (·.value)).Nodup
        rw [map_countedOnce_values]; exact hn
      have hcov2 : ∀ j ∈ is, c2.ivalue j ≠ INT_MIN → ∃ l ∈ c2.s.levels, l.value = c2.ivalue j := by
        intro j hj hne
        rw [hr.ivalue] at hne ⊢
        obtain ⟨l, hl, e⟩ := hcov j (List.mem_cons_of_mem _ hj) hne
        exact ⟨countedOnce (c.parent.isRowFiltered i) v l, List.mem_map_of_mem _ hl,
          by rw [countedOnce_value]; exact e⟩
      have hb2 : ∀ l ∈ c2.s.levels, 0 ≤ l.count ∧ l.count + is.length ≤ 2147483647 ∧
          0 ≤ l.countExFiltered ∧ l.countExFiltered + is.length ≤ 2147483647 := by
        intro l' hl'
        obtain ⟨l, hl, rfl⟩ := List.mem_map.1 hl'
        obtain ⟨a, b, d, e⟩ := hb l hl
        simp only [List.length_cons, Nat.cast_add, Nat.cast_one] at b e
        unfold countedOnce
        by_cases h : l.value = v
        · simp only [if_pos h]
          rw [wrapInt_of_range (by omega) (by omega)]
          cases c.parent.isRowFiltered i
          · simp only [Bool.false_eq_true, if_false]
            rw [wrapInt_of_range (by omega) (by omega)]
            exact ⟨by omega, by omega, by omega, by omega⟩
          · simp only [if_true]
            exact ⟨by omega, by omega, by omega, by omega⟩
        · simp only [if_neg h]
          exact ⟨a, by omega, d, by omega⟩
      rw [ih c2 hn2 hcov2 hb2]
      show some (c.withLevels ((c.s.levels.map (countedOnce _ v)).map (tallied c2 is))) = _
      rw [List.map_map]
      congr 2
      apply List.map_congr_left
      intro l hl
      obtain ⟨a, b, d, e⟩ := hb l hl
      simp only [List.length_cons, Nat.cast_add, Nat.cast_one] at b e
      have hi : c.ivalue i = v := rfl
      have hvne : v ≠ INT_MIN := hv
      show tallied c2 is (countedOnce (c.parent.isRowFiltered i) v l) = tallied c (i :: is) l
      unfold tallied
      rw [countedOnce_value, hr.occurrencesIn, hr.occurrencesExFilteredIn,
        occurrencesIn_cons, occurrencesExFilteredIn_cons, hi]
      unfold countedOnce
      by_cases h : l.value = v
      · simp only [if_pos h]
        rw [wrapInt_of_range (by omega) (by omega)]
        cases hf : c.parent.isRowFiltered i
        · simp only [Bool.false_eq_true, if_false]
          rw [wrapInt_of_range (by omega) (by omega)]
          simp only [h, hvne, ne_eq, not_false_eq_true, and_self, if_true, Nat.cast_add,
            Nat.cast_one]
          cases l
          simp only [Level.mk.injEq, true_and]
          constructor <;> omega
        · simp only [if_true, h, hvne, ne_eq, not_false_eq_true, and_self, Bool.true_eq_false,
            and_false, if_false, Nat.cast_add, Nat.cast_one, Nat.cast_zero, add_zero]
          cases l
          simp only [Level.mk.injEq, true_and, and_true]
          omega
      · have h' : ¬ v = l.value := fun e => h e.symm
        simp only [if_neg h, h', false_and, if_false, add_zero]

theorem SameRows.rows {c c' : ColumnW} (h : SameRows c c') : c'.rows = c.rows := by
  unfold ColumnW.rows ColumnW.rowCount
  rw [h.rowCount]
  exact List.map_congr_left (fun i _ => h.ivalue i)

theorem SameRows.occurrences {c c' : ColumnW} (h : SameRows c c') (v : Int) :
    c'.occurrences v = c.occurrences v := by
  unfold ColumnW.occurrences ColumnW.rowCount
  rw [h.rowCount]; exact h.occurrencesIn _ v

theorem SameRows.occurrencesExFiltered {c c' : ColumnW} (h : SameRows c c') (v : Int) :
    c'.occurrencesExFiltered v = c.occurrencesExFiltered v := by
  unfold ColumnW.occurrencesExFiltered ColumnW.rowCount
  rw [h.rowCount]; exact h.occurrencesExFilteredIn _ v

/-- C3: on a column that is neither continuous nor id, with unique level
values, a level for every cell that is not missing (and a row count that fits
an `int`), `updateLevelCounts` succeeds whatever the counters were; afterwards
the count of every level is the number of rows whose cell equals the level's
value, its `countExFiltered` is the number of those rows that are not
filtered (missing cells being counted in no level, as in the data model),
nothing else of any level changed (values, labels and order), and all row
cells are as before. -/
theorem updateLevelCounts_recounts (c : ColumnW)
    (hm1 : c.measureType ≠ MeasureType.CONTINUOUS) (hm2 : c.measureType ≠ MeasureType.ID)
    (hcov : c.EveryCellHasLevel) (hn : c.UniqueLevels) (hrows : c.rowCount ≤ 2147483647) :
    ∃ c', c.updateLevelCounts = some c' ∧
      c'.CountsExact ∧ c'.FilteredCountsExact ∧
      c'.s.levels.map zeroCounts = c.s.levels.map zeroCounts ∧
      c'.rowCount = c.rowCount ∧ c'.rows = c.rows := by
  set c1 := c.withLevels (c.s.levels.map (fun l => { l with count := 0, countExFiltered := 0 }))
    with hc1
  have hr1 : SameRows c c1 := sameRows_withLevels c _
  have hvals : c1.s.levels.map (·.value) = c.s.levels.map (·.value) := by
    show (c.s.levels.map _).map _ = _
    rw [List.map_map]; rfl
  have hn1 : (c1.s.levels.map (·.value)).Nodup := by rw [hvals]; exact hn
  have hcov1 : ∀ i ∈ List.range c1.rowCount, c1.ivalue i ≠ INT_MIN →
      ∃ l ∈ c1.s.levels, l.value = c1.ivalue i := by
    intro i hi hne
    rw [hr1.ivalue] at hne ⊢
    obtain ⟨l, hl, e⟩ := hcov i (List.mem_range.1 hi) hne
    exact ⟨_, List.mem_map_of_mem _ hl, e⟩
  have hb1 : ∀ l ∈ c1.s.levels, 0 ≤ l.count ∧
      l.count + (List.range c1.rowCount).length ≤ 2147483647 ∧
      0 ≤ l.countExFiltered ∧
      l.countExFiltered + (List.range c1.rowCount).length ≤ 2147483647 := by
    intro l' hl'
    obtain ⟨l, -, rfl⟩ := List.mem_map.1 hl'
    rw [List.length_range]
    have : c1.rowCount = c.rowCount := rfl
    simp only [this]
    exact ⟨le_refl _, by omega, le_refl _, by omega⟩
  have hcall : c.updateLevelCounts
      = some (c1.withLevels (c1.s.levels.map (tallied c1 (List.range c1.rowCount)))) := by
    unfold updateLevelCounts
    rw [if_pos ⟨hm1, hm2⟩]
    exact countRows_spec _ c1 hn1 hcov1 hb1
  set c' := c1.withLevels (c1.s.levels.map (tallied c1 (List.range c1.rowCount))) with hc'
  have hr' : SameRows c1 c' := sameRows_withLevels c1 _
  refine ⟨c', hcall, ?_, ?_, ?_, rfl, (hr1.trans hr').rows⟩
  · intro l' hl'
    obtain ⟨l1, hl1, rfl⟩ := List.mem_map.1 hl'
    obtain ⟨l, -, rfl⟩ := List.mem_map.1 hl1
    rw [hr'.occurrences]
    show (0 : Int) + _ = _
    rw [zero_add]; rfl
  · intro l' hl'
    obtain ⟨l1, hl1, rfl⟩ := List.mem_map.1 hl'
    obtain ⟨l, -, rfl⟩ := List.mem_map.1 hl1
    rw [hr'.occurrencesExFiltered]
    show (0 : Int) + _ = _
    rw [zero_add]; rfl
  · show ((c.s.levels.map _).map _).map zeroCounts = _
    rw [List.map_map, List.map_map]
    rfl

/-- C3, an instance of `updateLevelCounts_recounts`: the codes `0, 1, 2` over
the rows `[0, 1, 2, 1]` are recounted to 1, 2 and 1. -/
theorem updateLevelCounts_recounts_witness :
    (textOrdered.updateLevelCounts).map (fun c => c.s.levels.map (fun l => (l.value, l.count)))
      = some [(0, 1), (1, 2), (2, 1)] ∧
    ∃ c', textOrdered.updateLevelCounts = some c' ∧
      c'.CountsExact ∧ c'.FilteredCountsExact ∧
      c'.s.levels.map zeroCounts = textOrdered.s.levels.map zeroCounts ∧
      c'.rowCount = textOrdered.rowCount ∧ c'.rows = textOrdered.rows :=
  ⟨by decide,
   updateLevelCounts_recounts textOrdered (by decide) (by decide)
     (by unfold EveryCellHasLevel; decide) (by unfold UniqueLevels; decide) (by decide)⟩

/-- The reserved sentinel is not a level code: were a level given the coded
value `INT_MIN`, which no write path does, the scan would still skip the
missing cells and leave its count at 0. -/
theorem updateLevelCounts_skips_sentinel :
    sentinelLevel.measureType = MeasureType.NOMINAL ∧
    sentinelLevel.UniqueLevels ∧ sentinelLevel.EveryCellHasLevel ∧
    (sentinelLevel.updateLevelCounts).map
        (fun c => c.s.levels.map (fun l => (l.value, l.count, rowsHolding c l.value)))
      = some [(INT_MIN, 0, 1), (7, 1, 1)] := by
  refine ⟨by decide, by unfold UniqueLevels; decide, by unfold EveryCellHasLevel; decide, by decide⟩

/-! ## Cell accessors: `setIValue` -/

theorem sum_count_modify (f : Level → Level) (ls : List Level) (k : Nat) (hk : k < ls.length) :
    ((ls.modify f k).map (·.count)).sum
      = (ls.map (·.count)).sum - (ls.getD k default).count + (f (ls.getD k default)).count := by
  induction ls generalizing k with
  | nil => simp at hk
  | cons l ls ih =>
    cases k with
    | zero => simp [List.modify]; ring
    | succ k =>
      have hk' : k < ls.length := by simpa using hk
      simp only [List.modify_succ_cons, List.map_cons, List.sum_cons, ih k hk',
        List.getD_cons_succ]
      ring

theorem sum_count_eraseIdx (ls : List Level) (k : Nat) (hk : k < ls.length) :
    ((ls.eraseIdx k).map (·.count)).sum = (ls.map (·.count)).sum - (ls.getD k default).count := by
  induction ls generalizing k with
  | nil => simp at hk
  | cons l ls ih =>
    cases k with
    | zero => simp
    | succ k =>
      have hk' : k < ls.length := by simpa using hk
      simp only [List.eraseIdx_cons_succ, List.map_cons, List.sum_cons, ih k hk',
        List.getD_cons_succ]
      ring

theorem getD_modify_self (f : Level → Level) (ls : List Level) (k : Nat) (hk : k < ls.length) :
    (ls.modify f k).getD k default = f (ls.getD k default) := by
  induction ls generalizing k with
  | nil => simp at hk
  | cons l ls ih =>
    cases k with
    | zero => simp [List.modify]
    | succ k =>
      have hk' : k < ls.length := by simpa using hk
      simp only [List.modify_succ_cons, List.getD_cons_succ, ih k hk']

/-- Summing, over a list of distinct values, how many cells of `xs` hold each
value counts every cell that holds one of them exactly once. -/
theorem sum_occurrences (vals : List Int) (hn : vals.Nodup) (xs : List Int)
    (hcov : ∀ x ∈ xs, x ≠ INT_MIN → x ∈ vals) :
    (vals.map (fun v => ((xs.countP (fun x => decide (x = v ∧ x ≠ INT_MIN)) : Nat) : Int))).sum
      = ((xs.countP (fun x => decide (x ≠ INT_MIN)) : Nat) : Int) := by
  induction xs with
  | nil => simp
  | cons x xs ih =>
    have ih' := ih (fun y hy => hcov y (List.mem_cons_of_mem _ hy))
    simp only [List.countP_cons, Nat.cast_add]
    rw [List.sum_map_add, ih']
    congr 1
    by_cases hx : x = INT_MIN
    · have : ∀ v : Int, ¬ (x = v ∧ x ≠ INT_MIN) := fun v h => h.2 hx
      simp [hx]
    · have hmem := hcov x (List.mem_cons_self _ _) hx
      simp only [decide_eq_true_eq, hx, ne_eq, not_false_eq_true, and_true, if_true,
        Nat.cast_one]
      clear ih ih' hcov
      induction vals with
      | nil => simp at hmem
      | cons v vals ihv =>
        rw [List.nodup_cons] at hn
        rw [List.map_cons, List.sum_cons]
        by_cases hxv : x = v
        · subst hxv
          have : (vals.map (fun v => ((if x = v then 1 else 0 : Nat) : Int))).sum = 0 := by
            apply List.sum_eq_zero
            intro y hy
            obtain ⟨w, hw, rfl⟩ := List.mem_map.1 hy
            have : x ≠ w := fun e => hn.1 (e ▸ hw)
            simp [this]
          rw [this]; simp
        · have hmem' : x ∈ vals := by
            rcases List.mem_cons.1 hmem with h | h
            · exact absurd h hxv
            · exact h
          rw [ihv hn.2 hmem']
          simp [hxv]

theorem countP_range_split (p : Nat → Bool) (n r : Nat) (hr : r < n) :
    (List.range n).countP p = ((List.range n).erase r).countP p + if p r then 1 else 0 := by
  have hperm := List.perm_cons_erase (List.mem_range.2 hr)
  rw [hperm.countP_eq, List.countP_cons]

theorem mem_otherRows {c : ColumnW} {r i : Nat} (h : i ∈ c.otherRows r) :
    i < c.rowCount ∧ i ≠ r := by
  unfold otherRows at h
  refine ⟨List.mem_range.1 (List.mem_of_mem_erase h), fun e => ?_⟩
  subst e
  exact (List.nodup_range _).not_mem_erase h

theorem length_otherRows (c : ColumnW) (r : Nat) (hr : r < c.rowCount) :
    (c.otherRows r).length = c.rowCount - 1 := by
  unfold otherRows
  rw [List.length_erase_of_mem (List.mem_range.2 hr), List.length_range]

theorem occurrences_split (c : ColumnW) (r : Nat) (hr : r < c.rowCount) (v : Int) :
    c.occurrences v = c.occurrencesIn (c.otherRows r) v
      + if c.ivalue r = v ∧ c.ivalue r ≠ INT_MIN then 1 else 0 := by
  unfold occurrences occurrencesIn otherRows
  rw [countP_range_split _ _ r hr]
  simp only [decide_eq_true_eq]

theorem occurrencesExFiltered_split (c : ColumnW) (r : Nat) (hr : r < c.rowCount) (v : Int) :
    c.occurrencesExFiltered v = c.occurrencesExFilteredIn (c.otherRows r) v
      + if c.ivalue r = v ∧ c.ivalue r ≠ INT_MIN ∧ c.parent.isRowFiltered r = false
          then 1 else 0 := by
  unfold occurrencesExFiltered occurrencesExFilteredIn otherRows
  rw [countP_range_split _ _ r hr]
  simp only [decide_eq_true_eq]

theorem nonMissing_split (c : ColumnW) (r : Nat) (hr : r < c.rowCount) :
    c.nonMissing = c.nonMissingIn (c.otherRows r)
      + if c.ivalue r ≠ INT_MIN then 1 else 0 := by
  unfold nonMissing nonMissingIn otherRows
  rw [countP_range_split _ _ r hr]
  simp only [decide_eq_true_eq]

theorem occurrencesIn_le (c : ColumnW) (is : List Nat) (v : Int) :
    c.occurrencesIn is v ≤ is.length := List.countP_le_length _

theorem occurrencesIn_congr {c c' : ColumnW} (is : List Nat)
    (h : ∀ i ∈ is, c'.ivalue i = c.ivalue i) (v : Int) :
    c'.occurrencesIn is v = c.occurrencesIn is v := by
  unfold occurrencesIn
  apply List.countP_congr
  intro i hi
  rw [h i hi]

theorem occurrencesExFilteredIn_congr {c c' : ColumnW} (is : List Nat)
    (h : ∀ i ∈ is, c'.ivalue i = c.ivalue i) (hp : c'.parent = c.parent) (v : Int) :
    c'.occurrencesExFilteredIn is v = c.occurrencesExFilteredIn is v := by
  unfold occurrencesExFilteredIn
  apply List.countP_congr
  intro i hi
  rw [h i hi, hp]

theorem nonMissingIn_congr {c c' : ColumnW} (is : List Nat)
    (h : ∀ i ∈ is, (c'.ivalue i ≠ INT_MIN ↔ c.ivalue i ≠ INT_MIN)) :
    c'.nonMissingIn is = c.nonMissingIn is := by
  unfold nonMissingIn
  apply List.countP_congr
  intro i hi
  simp only [decide_eq_true_eq]
  exact h i hi

/-- Under the data-model invariants the counts add up to the number of cells
that are not missing. -/
theorem sumCounts_eq_nonMissing (c : ColumnW) (hn : c.UniqueLevels) (hcov : c.EveryCellHasLevel)
    (hcnt : c.CountsExact) : c.sumCounts = c.nonMissing := by
  have h1 : c.s.levels.map (·.count)
      = (c.s.levels.map (·.value)).map
          (fun v => ((c.rows.countP (fun x => decide (x = v ∧ x ≠ INT_MIN)) : Nat) : Int)) := by
    rw [List.map_map]
    apply List.map_congr_left
    intro l hl
    rw [hcnt l hl]
    unfold occurrences occurrencesIn rows
    show _ = ((List.countP _ (List.map c.ivalue (List.range c.rowCount)) : Nat) : Int)
    rw [List.countP_map]
    rfl
  have h2 : c.nonMissing = c.rows.countP (fun x => decide (x ≠ INT_MIN)) := by
    unfold nonMissing nonMissingIn rows
    rw [List.countP_map]
    rfl
  unfold sumCounts
  rw [h1, h2]
  apply sum_occurrences _ hn
  intro x hx hne
  unfold rows at hx
  obtain ⟨i, hi, rfl⟩ := List.mem_map.1 hx
  obtain ⟨l, hl, e⟩ := hcov i (List.mem_range.1 hi) hne
  rw [← e]
  exact List.mem_map_of_mem _ hl

/-- What `removeLevel` of a value the dictionary holds does on any column:
the counts are those of the old entries without the one the scan found, the
capacity is kept, and the cells move only by the consolidation of a textual
column. -/
theorem removeLevel_counts {c : ColumnW} (hl : c.Layout) (v : Int)
    (h : scanLevels c.s.levels v < c.levelsUsed) :
    ∃ c1, c.removeLevel v = some c1 ∧ c1.Layout ∧ c1.rowCount = c.rowCount ∧
      c1.parent = c.parent ∧ c1.s.levelsCapacity = c.s.levelsCapacity ∧
      c1.levelsUsed = c.levelsUsed - 1 ∧
      c1.s.levels.map (·.count) = (c.s.levels.eraseIdx (scanLevels c.s.levels v)).map (·.count) ∧
      ∀ j, c1.ivalue j
        = if c.dataType = DataType.TEXT ∧ j < c.rowCount ∧ c.ivalue j > v then c.ivalue j - 1
          else c.ivalue j := by
  have hk : scanLevels c.s.levels v < c.s.levels.length := h
  by_cases ht : c.dataType = DataType.TEXT
  · rw [removeLevel_text ht v h]
    set c3 := c.withLevels
      ((c.s.levels.eraseIdx (scanLevels c.s.levels v)).take (scanLevels c.s.levels v) ++
        ((c.s.levels.eraseIdx (scanLevels c.s.levels v)).drop (scanLevels c.s.levels v)).map
          (fun l => { l with value := wrapInt (l.value - 1) })) with hc3
    obtain ⟨f, g⟩ := consolidateRows_cells v (List.range c.rowCount) c3 hl (List.nodup_range _)
    have hlev : (consolidateRows v (List.range c.rowCount) c3).s.levels = c3.s.levels := f.levels
    refine ⟨_, rfl, f.frameLayout hl, f.rowCount, f.parent, f.levelsCapacity, ?_, ?_, fun j => ?_⟩
    · show (consolidateRows v (List.range c.rowCount) c3).s.levels.length = _
      rw [hlev, hc3]
      show (List.take _ _ ++ List.map _ _).length = _
      rw [List.length_append, List.length_map, ← List.length_append, List.take_append_drop,
        List.length_eraseIdx, if_pos hk]
      rfl
    · show (consolidateRows v (List.range c.rowCount) c3).s.levels.map _ = _
      rw [hlev, hc3]
      show List.map _ (List.take _ _ ++ List.map _ _) = _
      rw [List.map_append, List.map_map]
      have : ((fun l : Level => l.count) ∘ fun l : Level => { l with value := wrapInt (l.value - 1) })
          = fun l : Level => l.count := rfl
      rw [this, ← List.map_append, List.take_append_drop]
    · show (consolidateRows v (List.range c.rowCount) c3).cellAtInt j = _
      rw [g j]
      show (if j ∈ List.range c.rowCount ∧ c.cellAtInt j > v then c.cellAtInt j - 1
        else c.cellAtInt j) = _
      by_cases hj : j < c.rowCount ∧ c.ivalue j > v
      · rw [if_pos ⟨List.mem_range.2 hj.1, hj.2⟩, if_pos ⟨ht, hj⟩]; rfl
      · rw [if_neg (fun hh => hj ⟨List.mem_range.1 hh.1, hh.2⟩), if_neg (fun hh => hj hh.2)]; rfl
  · rw [removeLevel_not_text ht v h]
    refine ⟨_, rfl, hl, rfl, rfl, rfl, ?_, rfl, fun j => ?_⟩
    · show (c.s.levels.eraseIdx _).length = _
      rw [List.length_eraseIdx, if_pos hk]; rfl
    · rw [if_neg (fun hh => ht hh.1)]; rfl

theorem map_count_modify (f : Level → Level) (hf : ∀ l, (f l).count = l.count)
    (ls : List Level) (k : Nat) :
    (ls.modify f k).map (·.count) = ls.map (·.count) := by
  induction ls generalizing k with
  | nil => cases k <;> rfl
  | cons l ls ih =>
    cases k with
    | zero => simp [List.modify, hf]
    | succ k => simp only [List.modify_succ_cons, List.map_cons, ih]

theorem getD_mem (ls : List Level) (k : Nat) (hk : k < ls.length) : ls.getD k default ∈ ls := by
  rw [List.getD_eq_getElem _ _ hk]
  exact List.getElem_mem hk

/-- The increments of step 3 of `setIValue` on the level at position `k`: the
rows are untouched and the counts add up to one more. -/
theorem bump_sum (c : ColumnW) (r k : Nat) (hk : k < c.levelsUsed)
    (hb : -2147483648 ≤ (c.s.levels.getD k default).count + 1 ∧
      (c.s.levels.getD k default).count + 1 ≤ 2147483647) :
    ∃ c2,
      (if ¬ (c.withLevels (c.s.levels.modify
            (fun l => { l with count := wrapInt (l.count + 1) }) k)).parent.isRowFiltered r = true
        then some ((c.withLevels (c.s.levels.modify
            (fun l => { l with count := wrapInt (l.count + 1) }) k)).withLevels
          ((c.withLevels (c.s.levels.modify
            (fun l => { l with count := wrapInt (l.count + 1) }) k)).s.levels.modify
            (fun l => { l with countExFiltered := wrapInt (l.countExFiltered + 1) }) k))
        else some (c.withLevels (c.s.levels.modify
            (fun l => { l with count := wrapInt (l.count + 1) }) k))) = some c2 ∧
      SameRows c c2 ∧ c2.sumCounts = c.sumCounts + 1 ∧ c2.levelsUsed = c.levelsUsed ∧
      c2.s.levelsCapacity = c.s.levelsCapacity := by
  have hk' : k < c.s.levels.length := hk
  have hsum : ((c.s.levels.modify (fun l => { l with count := wrapInt (l.count + 1) }) k).map
      (·.count)).sum = c.sumCounts + 1 := by
    rw [sum_count_modify _ _ _ hk']
    show _ - _ + wrapInt _ = _
    rw [wrapInt_of_range hb.1 hb.2]
    unfold sumCounts
    ring
  split
  · refine ⟨_, rfl, ⟨rfl, rfl, rfl, rfl, rfl, rfl, rfl⟩, ?_, ?_, rfl⟩
    · show (((c.s.levels.modify _ k).modify _ k).map (·.count)).sum = _
      rw [map_count_modify _ (by intro l; rfl), hsum]
    · show ((c.s.levels.modify _ k).modify _ k).length = _
      rw [List.length_modify, List.length_modify]; rfl
  · refine ⟨_, rfl, ⟨rfl, rfl, rfl, rfl, rfl, rfl, rfl⟩, hsum, ?_, rfl⟩
    show (c.s.levels.modify _ k).length = _
    rw [List.length_modify]; rfl

/-- Step 3 of `setIValue` for a value that is not missing, on a dictionary
whose counts leave room for one more row: it succeeds, leaves the rows alone
and raises the sum of the counts by one. -/
theorem countNew_sum (c : ColumnW) (r : Nat) (v : Int) (hv : v ≠ INT_MIN)
    (hcap : c.levelsUsed ≤ c.s.levelsCapacity)
    (hb : ∀ l ∈ c.s.levels, 0 ≤ l.count ∧ l.count + 1 ≤ 2147483647) :
    ∃ c2, c.countNew r v = some c2 ∧ SameRows c c2 ∧ c2.sumCounts = c.sumCounts + 1 := by
  unfold countNew
  rw [if_pos hv]
  by_cases hfound : scanLevels c.s.levels v = c.levelsUsed
  · -- no level yet: one is inserted, and found
    have hraw : c.rawLevel v = none := by
      unfold rawLevel; simp only [if_pos hfound]
    have hno : ∀ l ∈ c.s.levels, l.value ≠ v := (scanLevels_eq_length_iff _ _).1 hfound
    obtain ⟨p, slot, ci, hp, hcall, hrows, hlev, -, -, -, -⟩ :=
      insertLevel_spec c v (toString v) (some (toString v)) hcap hno
    rw [hraw]
    simp only [hcall, Option.some_bind]
    have hmem : ∃ l ∈ ci.s.levels, l.value = v :=
      ⟨writeNewLevel v (toString v) ((some (toString v)).getD (toString v)) slot,
        by rw [hlev]; simp, rfl⟩
    have hki : scanLevels ci.s.levels v < ci.levelsUsed := by
      rcases Nat.lt_or_ge (scanLevels ci.s.levels v) ci.levelsUsed with h | h
      · exact h
      · exfalso
        obtain ⟨l, hl, e⟩ := hmem
        exact (scanLevels_eq_length_iff _ _).1
          (Nat.le_antisymm (scanLevels_le _ _) h) l hl e
    have hbi : ∀ l ∈ ci.s.levels, 0 ≤ l.count ∧ l.count + 1 ≤ 2147483647 := by
      intro l hl
      rw [hlev] at hl
      rcases List.mem_append.1 hl with h | h
      · exact hb l (List.mem_of_mem_take h)
      · rcases List.mem_cons.1 h with h | h
        · rw [h]
          show (0 : Int) ≤ 0 ∧ (0 : Int) + 1 ≤ 2147483647
          omega
        · exact hb l (List.mem_of_mem_drop h)
    have hsumi : ci.sumCounts = c.sumCounts := by
      unfold sumCounts
      rw [hlev, List.map_append, List.map_cons, List.sum_append, List.sum_cons]
      have : (writeNewLevel v (toString v) ((some (toString v)).getD (toString v)) slot).count
          = 0 := rfl
      rw [this, zero_add, ← List.sum_append, ← List.map_append, List.take_append_drop]
    rw [rawLevel_of_mem ci v hmem]
    obtain ⟨c2, e, h1, h2, -, -⟩ := bump_sum ci r (scanLevels ci.s.levels v) hki
      (by have := hbi _ (getD_mem _ _ hki); omega)
    exact ⟨c2, e, hrows.trans h1, by rw [h2, hsumi]⟩
  · have hk : scanLevels c.s.levels v < c.levelsUsed := by
      have := scanLevels_le c.s.levels v
      unfold levelsUsed at *
      omega
    have hraw : c.rawLevel v = some (scanLevels c.s.levels v) := by
      unfold rawLevel; simp only [if_neg hfound]
    rw [hraw]
    simp only [Option.some_bind, hraw]
    obtain ⟨c2, e, h1, h2, -, -⟩ := bump_sum c r (scanLevels c.s.levels v) hk
      (by have := hb _ (getD_mem _ _ hk); omega)
    exact ⟨c2, e, h1, h2⟩

theorem scanLevels_map (g : Level → Level) (hg : ∀ l, (g l).value = l.value)
    (ls : List Level) (v : Int) : scanLevels (ls.map g) v = scanLevels ls v := by
  induction ls with
  | nil => rfl
  | cons l ls ih =>
    simp only [List.map_cons, scanLevels, hg, ih]

theorem scanLevels_modify (f : Level → Level) (hf : ∀ l, (f l).value = l.value)
    (ls : List Level) (k : Nat) (v : Int) :
    scanLevels (ls.modify f k) v = scanLevels ls v := by
  induction ls generalizing k with
  | nil => cases k <;> rfl
  | cons l ls ih =>
    cases k with
    | zero => simp only [List.modify, List.modifyHead, List.modifyTailIdx, scanLevels, hf]
    | succ k =>
      rw [List.modify_succ_cons]
      unfold scanLevels
      rw [ih]

/-- Under the data-model invariants every count is the number of other rows
holding the value, plus one for the level of row `r`. -/
theorem count_split (c : ColumnW) (r : Nat) (hr : r < c.rowCount) (hcnt : c.CountsExact)
    (l : Level) (hl : l ∈ c.s.levels) :
    l.count = c.occurrencesIn (c.otherRows r) l.value
      + (if c.ivalue r = l.value ∧ c.ivalue r ≠ INT_MIN then 1 else 0 : Nat) ∧
    c.occurrencesIn (c.otherRows r) l.value + 1 ≤ c.rowCount := by
  refine ⟨?_, ?_⟩
  · rw [hcnt l hl, occurrences_split c r hr]
    push_cast
    rfl
  · have := occurrencesIn_le c (c.otherRows r) l.value
    rw [length_otherRows c r hr] at this
    omega

/-- Step 2 of `setIValue` under the data-model invariants, on a column of any
data type: it succeeds, row `r` still holds its old value, no other cell
becomes or stops being missing, the counts add up to one less when the old
value was not missing, and every count leaves room for one more row. -/
theorem retireOld_sum (c : ColumnW) (r : Nat) (hl : c.Layout) (hr : r < c.rowCount)
    (hrows : c.rowCount ≤ 2147483647) (hcap : c.levelsUsed ≤ c.s.levelsCapacity)
    (hn : c.UniqueLevels) (hcov : c.EveryCellHasLevel) (hcnt : c.CountsExact)
    (hint : INT_MIN ≤ c.ivalue r) :
    ∃ c1, c.retireOld r (c.ivalue r) = some c1 ∧ c1.Layout ∧ c1.rowCount = c.rowCount ∧
      c1.ivalue r = c.ivalue r ∧
      c1.nonMissingIn (c.otherRows r) = c.nonMissingIn (c.otherRows r) ∧
      c1.sumCounts = c.sumCounts - (if c.ivalue r = INT_MIN then 0 else 1) ∧
      (∀ l ∈ c1.s.levels, 0 ≤ l.count ∧ l.count + 1 ≤ 2147483647) ∧
      c1.levelsUsed ≤ c1.s.levelsCapacity := by
  unfold retireOld
  by_cases hold : c.ivalue r = INT_MIN
  · rw [if_neg (by simpa using hold)]
    refine ⟨c, rfl, hl, rfl, rfl, rfl, by rw [if_pos hold, sub_zero], fun l hl' => ?_, hcap⟩
    obtain ⟨a, b⟩ := count_split c r hr hcnt l hl'
    rw [a, if_neg (fun h => h.2 hold)]
    push_cast
    omega
  · rw [if_pos hold, if_neg hold]
    have hmem := hcov r hr hold
    rw [rawLevel_of_mem c _ hmem]
    simp only
    set old := c.ivalue r with hold_def
    set k := scanLevels c.s.levels old with hk_def
    have hk : k < c.s.levels.length := by
      rcases Nat.lt_or_ge k c.s.levels.length with h | h
      · exact h
      · exfalso
        obtain ⟨l, hl', e⟩ := hmem
        exact (scanLevels_eq_length_iff _ _).1
          (Nat.le_antisymm (scanLevels_le _ _) h) l hl' e
    have hkval : (c.s.levels.getD k default).value = old := (scanLevels_spec _ _ hk).1
    obtain ⟨ck, bk⟩ := count_split c r hr hcnt _ (getD_mem _ _ hk)
    rw [hkval, if_pos ⟨rfl, hold⟩] at ck
    rw [hkval] at bk
    set M := c.s.levels.modify (fun l => { l with count := wrapInt (l.count - 1) }) k with hM
    have hMk : (M.getD k default).count = c.occurrencesIn (c.otherRows r) old := by
      rw [hM, getD_modify_self _ _ _ hk]
      show wrapInt ((c.s.levels.getD k default).count - 1) = _
      rw [ck, wrapInt_of_range (by push_cast; omega) (by push_cast; omega)]
      push_cast; ring
    have hMsum : (M.map (·.count)).sum = c.sumCounts - 1 := by
      rw [hM, sum_count_modify _ _ _ hk]
      show _ - _ + wrapInt ((c.s.levels.getD k default).count - 1) = _
      rw [ck, wrapInt_of_range (by push_cast; omega) (by push_cast; omega)]
      unfold sumCounts
      push_cast; ring
    have hMb : ∀ x ∈ M.map (·.count), 0 ≤ x ∧ x + 1 ≤ 2147483647 := by
      intro x hx
      obtain ⟨l', hl', rfl⟩ := List.mem_map.1 hx
      obtain ⟨i, hi, rfl⟩ := List.mem_iff_getElem.1 hl'
      have hi' : i < c.s.levels.length := by rw [hM, List.length_modify] at hi; exact hi
      by_cases hik : i = k
      · subst hik
        have := hMk
        rw [List.getD_eq_getElem _ _ hi] at this
        rw [this]
        omega
      · have e : M[i] = c.s.levels[i] := by
          simp only [hM, List.getElem_modify]
          rw [if_neg (fun h => hik h.symm)]
        rw [e]
        obtain ⟨a, b⟩ := count_split c r hr hcnt _ (List.getElem_mem hi')
        have hne : ¬ (c.ivalue r = c.s.levels[i].value ∧ c.ivalue r ≠ INT_MIN) := by
          rintro ⟨h1, -⟩
          have := scanLevels_of_nodup c.s.levels hn i hi'
          rw [List.getD_eq_getElem _ _ hi', ← h1] at this
          exact hik this.symm
        rw [a, if_neg hne]
        push_cast
        omega
    have hMlen : M.length = c.s.levels.length := by rw [hM, List.length_modify]
    have hMscan : scanLevels M old = k := by
      rw [hM, scanLevels_modify _ (by intro l; rfl)]
    by_cases htrim : ((c.withLevels M).s.levels.getD k default).count = 0 ∧
        (c.withLevels M).trimLevels = true
    · rw [if_pos htrim]
      have hMk0 : (M.getD k default).count = 0 := htrim.1
      obtain ⟨c1, e, l1, r1, p1, cap1, u1, cnt1, cells1⟩ :=
        removeLevel_counts (c := c.withLevels M) hl old (by
          show scanLevels M old < M.length
          rw [hMscan, hMlen]; exact hk)
      have hscan' : scanLevels (c.withLevels M).s.levels old = k := hMscan
      rw [hscan'] at cnt1
      have hcell : ∀ j, c1.ivalue j
          = if c.dataType = DataType.TEXT ∧ j < c.rowCount ∧ c.ivalue j > old
              then c.ivalue j - 1 else c.ivalue j := cells1
      refine ⟨c1, e, l1, r1, ?_, ?_, ?_, ?_, ?_⟩
      · rw [hcell r, if_neg (fun h => by have := h.2.2; omega)]
      · apply nonMissingIn_congr
        intro i _
        rw [hcell i]
        unfold INT_MIN at *
        split
        · rename_i h
          have := h.2.2
          constructor <;> intro _ <;> omega
        · rfl
      · unfold sumCounts
        rw [cnt1]
        show ((M.eraseIdx k).map (·.count)).sum = _
        rw [sum_count_eraseIdx _ _ (by rw [hMlen]; exact hk), hMk0, hMsum, sub_zero]
        rfl
      · intro l' hl''
        have : l'.count ∈ c1.s.levels.map (·.count) := List.mem_map_of_mem _ hl''
        rw [cnt1] at this
        obtain ⟨l2, hl2, e2⟩ := List.mem_map.1 this
        rw [← e2]
        exact hMb _ (List.mem_map_of_mem _ (List.mem_of_mem_eraseIdx hl2))
      · rw [u1, cap1]
        show M.length - 1 ≤ c.s.levelsCapacity
        rw [hMlen]
        unfold levelsUsed at hcap
        omega
    · rw [if_neg htrim]
      have hfin : ∀ c1 : ColumnW, SameRows c c1 → c1.s.levels.map (·.count) = M.map (·.count) →
          c1.s.levelsCapacity = c.s.levelsCapacity → c1.s.levels.length = M.length →
          c1.Layout ∧ c1.rowCount = c.rowCount ∧ c1.ivalue r = old ∧
          c1.nonMissingIn (c.otherRows r) = c.nonMissingIn (c.otherRows r) ∧
          c1.sumCounts = c.sumCounts - 1 ∧
          (∀ l ∈ c1.s.levels, 0 ≤ l.count ∧ l.count + 1 ≤ 2147483647) ∧
          c1.levelsUsed ≤ c1.s.levelsCapacity := by
        intro c1 hs hc hcp hlen
        refine ⟨hs.layout hl, hs.rowCount, hs.ivalue r,
          nonMissingIn_congr _ (fun i _ => by rw [hs.ivalue]), ?_, fun l' hl'' => ?_, ?_⟩
        · unfold sumCounts at *
          rw [hc, hMsum]
        · exact hMb _ (by rw [← hc]; exact List.mem_map_of_mem _ hl'')
        · show c1.s.levels.length ≤ _
          rw [hlen, hMlen, hcp]; exact hcap
      split
      · exact ⟨_, rfl, hfin _ (sameRows_withLevels _ _)
          (map_count_modify _ (by intro l; rfl) _ _) rfl (by
            show (M.modify _ k).length = _
            rw [List.length_modify])⟩
      · exact ⟨_, rfl, hfin _ (sameRows_withLevels _ _) rfl rfl rfl⟩

/-- C1: on a column that is neither decimal nor continuous and satisfies the
data-model invariants (level values unique, every cell that is not missing has
a level, every count is the number of rows holding the level's value with
missing cells counted in no level, no more levels than the capacity, cells and
row count representable as `int`), for every row `r` and every value `v` other
than the missing sentinel, `setIValue(r, v, initing = false)` succeeds; after
it row `r` reads `v` and the counts of all levels add up to the number of rows
whose cell is not the missing sentinel. -/
theorem setIValue_reads_back (c : ColumnW) (r : Nat) (v : Int)
    (hl : c.Layout) (hrows : c.rowCount ≤ 2147483647) (hint : c.IntCells)
    (hcap : c.levelsUsed ≤ c.s.levelsCapacity)
    (hd : c.dataType ≠ DataType.DECIMAL) (hm : c.measureType ≠ MeasureType.CONTINUOUS)
    (hn : c.UniqueLevels) (hcov : c.EveryCellHasLevel) (hcnt : c.CountsExact)
    (hr : r < c.rowCount) (hv : v ≠ INT_MIN) :
    ∃ c', c.setIValue r v false = some c' ∧ c'.ivalue r = v ∧
      c'.sumCounts = c'.nonMissing := by
  unfold setIValue
  rw [if_neg hd, if_neg hm]
  simp only [if_true]
  by_cases hsame : c.ivalue r = v
  · rw [if_pos hsame]
    exact ⟨c, rfl, hsame, sumCounts_eq_nonMissing c hn hcov hcnt⟩
  · rw [if_neg hsame]
    obtain ⟨c1, e1, l1, r1, v1, nm1, s1, b1, cap1⟩ :=
      retireOld_sum c r hl hr hrows hcap hn hcov hcnt (hint r hr).1
    obtain ⟨c2, e2, f2, s2⟩ := countNew_sum c1 r v hv cap1 b1
    rw [e1, Option.some_bind, e2, Option.map_some']
    have l2 : c2.Layout := f2.layout l1
    have hrc : (c2.setCellInt r v).rowCount = c.rowCount := by
      show c2.s.rowCount = _
      rw [f2.rowCount]; exact r1
    refine ⟨_, rfl, ?_, ?_⟩
    · show (c2.setCellInt r v).cellAtInt r = v
      rw [cellAtInt_setCellInt l2, if_pos rfl]
    · have hsum : (c2.setCellInt r v).sumCounts = c.sumCounts
          - (if c.ivalue r = INT_MIN then 0 else 1) + 1 := by
        show c2.sumCounts = _
        rw [s2, s1]
      have hother : (c2.setCellInt r v).otherRows r = c.otherRows r := by
        unfold otherRows; rw [hrc]
      have hnm : (c2.setCellInt r v).nonMissing = c.nonMissingIn (c.otherRows r) + 1 := by
        rw [nonMissing_split _ r (by rw [hrc]; exact hr), hother]
        have hr3 : (c2.setCellInt r v).ivalue r = v := by
          show (c2.setCellInt r v).cellAtInt r = v
          rw [cellAtInt_setCellInt l2, if_pos rfl]
        rw [hr3, if_pos hv, ← nm1]
        congr 1
        apply nonMissingIn_congr
        intro i hi
        have hne : i ≠ r := (mem_otherRows hi).2
        have : (c2.setCellInt r v).ivalue i = c1.ivalue i := by
          show (c2.setCellInt r v).cellAtInt i = _
          rw [cellAtInt_setCellInt l2, if_neg hne]
          exact f2.cellAtInt i
        rw [this]
      rw [hsum, hnm, sumCounts_eq_nonMissing c hn hcov hcnt, nonMissing_split c r hr]
      by_cases hmiss : c.ivalue r = INT_MIN
      · rw [if_pos hmiss, if_neg (fun h => h hmiss)]
        push_cast; ring
      · rw [if_neg hmiss, if_pos hmiss]
        push_cast; ring

/-- C1, an instance on a textual column with `trimLevels` enabled, where the
write retires the last occurrence of code 0: the level is removed, the codes
are consolidated, a level is created for the new value, and the counts add up
to the four rows. -/
theorem setIValue_reads_back_witness :
    (textTrimmed.setIValue 0 2 false).map
        (fun c => (c.rows, c.s.levels.map (fun l => (l.value, l.label, l.count))))
      = some ([2, 0, 1, 0], [(0, "b", 2), (1, "c", 1), (2, "2", 1)]) ∧
    ∃ c', textTrimmed.setIValue 0 2 false = some c' ∧ c'.ivalue 0 = 2 ∧
      c'.sumCounts = c'.nonMissing :=
  ⟨by decide,
   setIValue_reads_back textTrimmed 0 2 (by unfold Layout; decide) (by decide)
     (by unfold IntCells; decide) (by decide) (by decide) (by decide)
     (by unfold UniqueLevels; decide) (by unfold EveryCellHasLevel; decide)
     (by unfold CountsExact occurrences occurrencesIn; decide) (by decide) (by decide)⟩

theorem retiredOnce_value (filtered : Bool) (v : Int) (l : Level) :
    (retiredOnce filtered v l).value = l.value := by
  unfold retiredOnce; split <;> rfl

theorem retire_step (ls : List Level) (hn : (ls.map (·.value)).Nodup) (v : Int)
    (filtered : Bool) :
    (if ¬ filtered = true then
        (ls.modify (fun l => { l with count := wrapInt (l.count - 1) }) (scanLevels ls v)).modify
          (fun l => { l with countExFiltered := wrapInt (l.countExFiltered - 1) })
          (scanLevels ls v)
      else ls.modify (fun l => { l with count := wrapInt (l.count - 1) }) (scanLevels ls v))
      = ls.map (retiredOnce filtered v) := by
  have e1 := modify_scan_eq_map (fun l => { l with count := wrapInt (l.count - 1) }) ls hn v
  have hvals : (ls.map (fun l => if l.value = v then
      ({ l with count := wrapInt (l.count - 1) } : Level) else l)).map (·.value)
      = ls.map (·.value) := by
    rw [List.map_map]
    apply List.map_congr_left
    intro l _
    show (if l.value = v then _ else l).value = l.value
    split <;> rfl
  have hs : scanLevels (ls.map (fun l => if l.value = v then
      ({ l with count := wrapInt (l.count - 1) } : Level) else l)) v = scanLevels ls v :=
    scanLevels_map _ (by intro l; show (if l.value = v then _ else l).value = l.value
                         split <;> rfl) ls v
  cases filtered with
  | true =>
    simp only [not_true_eq_false, if_false]
    rw [e1]
    apply List.map_congr_left
    intro l _
    unfold retiredOnce
    split <;> rfl
  | false =>
    simp only [Bool.false_eq_true, not_false_eq_true, if_true]
    rw [e1, ← hs, modify_scan_eq_map _ _ (by rw [hvals]; exact hn), List.map_map]
    apply List.map_congr_left
    intro l _
    unfold retiredOnce
    by_cases h : l.value = v
    · simp [h]
    · simp [h]

theorem occurrencesExFilteredIn_le (c : ColumnW) (is : List Nat) (v : Int) :
    c.occurrencesExFilteredIn is v ≤ c.occurrencesIn is v := by
  unfold occurrencesExFilteredIn occurrencesIn
  apply List.countP_mono_left
  intro i _ h
  simp only [decide_eq_true_eq] at h ⊢
  exact ⟨h.1, h.2.1⟩

theorem mem_eraseIdx_of_ne (ls : List Level) (k : Nat) (hk : k < ls.length) (l : Level)
    (hl : l ∈ ls) (hne : l ≠ ls.getD k default) : l ∈ ls.eraseIdx k := by
  rw [List.eraseIdx_eq_take_drop_succ]
  have hsplit : ls = ls.take k ++ ls.getD k default :: ls.drop (k + 1) := by
    rw [← drop_getD ls k hk, List.take_append_drop]
  rw [hsplit] at hl
  rcases List.mem_append.1 hl with h | h
  · exact List.mem_append_left _ h
  · rcases List.mem_cons.1 h with h | h
    · exact absurd h hne
    · exact List.mem_append_right _ h

theorem value_ne_of_mem_eraseIdx (ls : List Level) (hn : (ls.map (·.value)).Nodup) (k : Nat)
    (hk : k < ls.length) (l : Level) (hl : l ∈ ls.eraseIdx k) :
    l.value ≠ (ls.getD k default).value := by
  have hsplit : ls = ls.take k ++ ls.getD k default :: ls.drop (k + 1) := by
    rw [← drop_getD ls k hk, List.take_append_drop]
  rw [hsplit, List.map_append, List.map_cons] at hn
  have h1 := List.nodup_append.1 hn
  have h2 := List.nodup_cons.1 h1.2.1
  rw [List.eraseIdx_eq_take_drop_succ] at hl
  intro e
  rcases List.mem_append.1 hl with h | h
  · exact h1.2.2 (List.mem_map_of_mem _ h) (by rw [e]; exact List.mem_cons_self _ _)
  · exact h2.1 (by rw [← e]; exact List.mem_map_of_mem _ h)

theorem SameRows.otherRows {c c' : ColumnW} (h : SameRows c c') (r : Nat) :
    c'.otherRows r = c.otherRows r := by
  unfold ColumnW.otherRows ColumnW.rowCount
  rw [h.rowCount]

/-- Exact counters seen from row `r`: each level counts the other rows holding
its value, plus row `r` when that row holds it. -/
theorem exact_split (c : ColumnW) (r : Nat) (hr : r < c.rowCount) (hcnt : c.CountsExact)
    (hfcnt : c.FilteredCountsExact) (l : Level) (hl : l ∈ c.s.levels) :
    l.count = c.occurrencesIn (c.otherRows r) l.value
      + (if c.ivalue r = l.value ∧ c.ivalue r ≠ INT_MIN then 1 else 0 : Nat) ∧
    l.countExFiltered = c.occurrencesExFilteredIn (c.otherRows r) l.value
      + (if c.ivalue r = l.value ∧ c.ivalue r ≠ INT_MIN ∧ c.parent.isRowFiltered r = false
          then 1 else 0 : Nat) ∧
    c.occurrencesIn (c.otherRows r) l.value + 1 ≤ c.rowCount ∧
    c.occurrencesExFilteredIn (c.otherRows r) l.value + 1 ≤ c.rowCount := by
  have h1 := occurrencesIn_le c (c.otherRows r) l.value
  have h2 := occurrencesExFilteredIn_le c (c.otherRows r) l.value
  rw [length_otherRows c r hr] at h1
  refine ⟨?_, ?_, by omega, by omega⟩
  · rw [hcnt l hl, occurrences_split c r hr]; push_cast; rfl
  · rw [hfcnt l hl, occurrencesExFiltered_split c r hr]; push_cast; rfl

theorem holeExact_of_sameRows {c c1 : ColumnW} (hs : SameRows c c1) (r : Nat)
    (h : ∀ l ∈ c1.s.levels, l.count = c.occurrencesIn (c.otherRows r) l.value ∧
      l.countExFiltered = c.occurrencesExFilteredIn (c.otherRows r) l.value) :
    c1.HoleExact r := by
  intro l hl
  rw [hs.otherRows, hs.occurrencesIn, hs.occurrencesExFilteredIn]
  exact h l hl

theorem holeCovered_of_sameRows {c c1 : ColumnW} (hs : SameRows c c1) (r : Nat)
    (h : ∀ i ∈ c.otherRows r, c.ivalue i ≠ INT_MIN → ∃ l ∈ c1.s.levels, l.value = c.ivalue i) :
    c1.HoleCovered r := by
  intro i hi hne
  rw [hs.otherRows] at hi
  rw [hs.ivalue] at hne ⊢
  exact h i hi hne

/-- Step 2 of `setIValue` on a column that is not textual, under the
data-model invariants: it succeeds, leaves the rows alone, and afterwards the
counters are exact for the rows other than `r`. -/
theorem retireOld_exact (c : ColumnW) (r : Nat) (hr : r < c.rowCount)
    (hrows : c.rowCount ≤ 2147483647) (hcap : c.levelsUsed ≤ c.s.levelsCapacity)
    (ht : c.dataType ≠ DataType.TEXT)
    (hn : c.UniqueLevels) (hcov : c.EveryCellHasLevel) (hcnt : c.CountsExact)
    (hfcnt : c.FilteredCountsExact) :
    ∃ c1, c.retireOld r (c.ivalue r) = some c1 ∧ SameRows c c1 ∧ c1.UniqueLevels ∧
      c1.HoleExact r ∧ c1.HoleCovered r ∧ c1.levelsUsed ≤ c1.s.levelsCapacity := by
  have hcovO : ∀ i ∈ c.otherRows r, c.ivalue i ≠ INT_MIN →
      ∃ l ∈ c.s.levels, l.value = c.ivalue i := fun i hi hne =>
    hcov i (mem_otherRows hi).1 hne
  unfold retireOld
  by_cases hold : c.ivalue r = INT_MIN
  · rw [if_neg (by simpa using hold)]
    refine ⟨c, rfl, SameRows.refl c, hn, fun l hl => ?_, hcovO, hcap⟩
    obtain ⟨a, b, -, -⟩ := exact_split c r hr hcnt hfcnt l hl
    rw [a, b, if_neg (fun h => h.2 hold), if_neg (fun h => h.2.1 hold)]
    simp
  · rw [if_pos hold]
    have hmem := hcov r hr hold
    rw [rawLevel_of_mem c _ hmem]
    simp only
    set old := c.ivalue r with hold_def
    set k := scanLevels c.s.levels old with hk_def
    have hk : k < c.s.levels.length := by
      rcases Nat.lt_or_ge k c.s.levels.length with h | h
      · exact h
      · exfalso
        obtain ⟨l, hl', e⟩ := hmem
        exact (scanLevels_eq_length_iff _ _).1
          (Nat.le_antisymm (scanLevels_le _ _) h) l hl' e
    have hkval : (c.s.levels.getD k default).value = old := (scanLevels_spec _ _ hk).1
    obtain ⟨ck, fk, bk, bfk⟩ := exact_split c r hr hcnt hfcnt _ (getD_mem _ _ hk)
    rw [hkval] at ck fk bk bfk
    rw [if_pos ⟨rfl, hold⟩] at ck
    set M := c.s.levels.modify (fun l => { l with count := wrapInt (l.count - 1) }) k with hM
    have hMmap : M = c.s.levels.map (fun l => if l.value = old then
        ({ l with count := wrapInt (l.count - 1) } : Level) else l) :=
      modify_scan_eq_map _ _ hn old
    have hMvals : M.map (·.value) = c.s.levels.map (·.value) := by
      rw [hMmap, List.map_map]
      apply List.map_congr_left
      intro l _
      show (if l.value = old then _ else l).value = l.value
      split <;> rfl
    have hnM : (M.map (·.value)).Nodup := by rw [hMvals]; exact hn
    have hMlen : M.length = c.s.levels.length := by rw [hM, List.length_modify]
    have hMscan : scanLevels M old = k := by
      rw [hM, scanLevels_modify _ (by intro l; rfl)]
    have hMk : (M.getD k default).count = c.occurrencesIn (c.otherRows r) old := by
      rw [hM, getD_modify_self _ _ _ hk]
      show wrapInt ((c.s.levels.getD k default).count - 1) = _
      rw [ck, wrapInt_of_range (by push_cast; omega) (by push_cast; omega)]
      push_cast; ring
    have hMkval : (M.getD k default).value = old := by
      rw [hM, getD_modify_self _ _ _ hk]; exact hkval
    -- an entry of `M` with another value is an untouched entry of the dictionary
    have hMother : ∀ l ∈ M, l.value ≠ old → l ∈ c.s.levels := by
      intro l hl hne
      rw [hMmap] at hl
      obtain ⟨l0, hl0, e⟩ := List.mem_map.1 hl
      by_cases h0 : l0.value = old
      · rw [if_pos h0] at e
        exact absurd (by rw [← e]; exact h0) hne
      · rw [if_neg h0] at e; rw [← e]; exact hl0
    have hkeep : ∀ l ∈ c.s.levels, l.value ≠ old → l ∈ M := by
      intro l hl hne
      rw [hMmap]
      exact List.mem_map.2 ⟨l, hl, by rw [if_neg hne]⟩
    have hexact_other : ∀ l ∈ c.s.levels, l.value ≠ old →
        l.count = c.occurrencesIn (c.otherRows r) l.value ∧
        l.countExFiltered = c.occurrencesExFilteredIn (c.otherRows r) l.value := by
      intro l hl hne
      obtain ⟨a, b, -, -⟩ := exact_split c r hr hcnt hfcnt l hl
      rw [a, b, if_neg (fun h => hne h.1.symm), if_neg (fun h => hne h.1.symm)]
      simp
    by_cases htrim : ((c.withLevels M).s.levels.getD k default).count = 0 ∧
        (c.withLevels M).trimLevels = true
    · rw [if_pos htrim]
      have hMk0 : (M.getD k default).count = 0 := htrim.1
      have hnone : c.occurrencesIn (c.otherRows r) old = 0 := by
        have := hMk; rw [hMk0] at this; exact_mod_cast this.symm
      rw [removeLevel_not_text (c := c.withLevels M) ht old (by
        show scanLevels M old < M.length
        rw [hMscan, hMlen]; exact hk)]
      have hscan' : scanLevels (c.withLevels M).s.levels old = k := hMscan
      rw [hscan']
      have hs : SameRows c (bumpChanges ((c.withLevels M).withLevels
          ((c.withLevels M).s.levels.eraseIdx k))) := ⟨rfl, rfl, rfl, rfl, rfl, rfl, rfl⟩
      have hin : ∀ l ∈ M.eraseIdx k, l ∈ c.s.levels ∧ l.value ≠ old := by
        intro l hl
        have hne : l.value ≠ old := by
          have := value_ne_of_mem_eraseIdx M hnM k (by rw [hMlen]; exact hk) l hl
          rwa [hMkval] at this
        exact ⟨hMother l (List.mem_of_mem_eraseIdx hl) hne, hne⟩
      refine ⟨_, rfl, hs, ?_, holeExact_of_sameRows hs r (fun l hl => ?_),
        holeCovered_of_sameRows hs r (fun i hi hne => ?_), ?_⟩
      · show ((M.eraseIdx k).map (·.value)).Nodup
        exact hnM.sublist ((List.eraseIdx_sublist _ _).map _)
      · obtain ⟨h1, h2⟩ := hin l hl
        exact hexact_other l h1 h2
      · obtain ⟨l0, hl0, e⟩ := hcovO i hi hne
        have hne' : l0.value ≠ old := by
          intro e'
          have hpos : 0 < c.occurrencesIn (c.otherRows r) old := by
            unfold occurrencesIn
            rw [List.countP_pos_iff]
            exact ⟨i, hi, by simp only [decide_eq_true_eq]; exact ⟨by rw [← e, e'], hne⟩⟩
          omega
        refine ⟨l0, ?_, e⟩
        show l0 ∈ M.eraseIdx k
        apply mem_eraseIdx_of_ne M k (by rw [hMlen]; exact hk) l0 (hkeep l0 hl0 hne')
        intro e'
        exact hne' (by rw [e', hMkval])
      · show (M.eraseIdx k).length ≤ c.s.levelsCapacity
        rw [List.length_eraseIdx, if_pos (by rw [hMlen]; exact hk), hMlen]
        unfold levelsUsed at hcap
        omega
    · rw [if_neg htrim]
      have hstep : (if ¬ (c.withLevels M).parent.isRowFiltered r = true then
            some ((c.withLevels M).withLevels ((c.withLevels M).s.levels.modify
              (fun l => { l with countExFiltered := wrapInt (l.countExFiltered - 1) }) k))
          else some (c.withLevels M))
          = some (c.withLevels (c.s.levels.map (retiredOnce (c.parent.isRowFiltered r) old))) := by
        rw [← retire_step c.s.levels hn old (c.parent.isRowFiltered r)]
        show (if ¬ c.parent.isRowFiltered r = true then _ else _) = _
        cases c.parent.isRowFiltered r <;> rfl
      rw [hstep]
      have hs : SameRows c (c.withLevels
          (c.s.levels.map (retiredOnce (c.parent.isRowFiltered r) old))) :=
        sameRows_withLevels c _
      refine ⟨_, rfl, hs, ?_, holeExact_of_sameRows hs r (fun l' hl' => ?_),
        holeCovered_of_sameRows hs r (fun i hi hne => ?_), ?_⟩
      · show ((c.s.levels.map (retiredOnce _ old)).map (·.value)).Nodup
        rw [List.map_map]
        have : ((fun l : Level => l.value) ∘ retiredOnce (c.parent.isRowFiltered r) old)
            = fun l : Level => l.value := funext (fun l => retiredOnce_value _ _ l)
        rw [this]; exact hn
      · obtain ⟨l, hl, rfl⟩ := List.mem_map.1 hl'
        rw [retiredOnce_value]
        by_cases h : l.value = old
        · obtain ⟨a, b, p, q⟩ := exact_split c r hr hcnt hfcnt l hl
          rw [h] at a b p q
          rw [if_pos ⟨rfl, hold⟩] at a
          unfold retiredOnce
          rw [if_pos h, h]
          cases hf : c.parent.isRowFiltered r
          · rw [if_pos ⟨rfl, hold, hf⟩] at b
            simp only [Bool.false_eq_true, if_false]
            rw [a, b, wrapInt_of_range (by push_cast; omega) (by push_cast; omega),
              wrapInt_of_range (by push_cast; omega) (by push_cast; omega)]
            push_cast
            constructor <;> ring
          · rw [if_neg (fun hh => by rw [hf] at hh; exact absurd hh.2.2 (by decide))] at b
            simp only [if_true]
            rw [a, b, wrapInt_of_range (by push_cast; omega) (by push_cast; omega)]
            push_cast
            constructor <;> ring
        · unfold retiredOnce
          rw [if_neg h]
          exact hexact_other l hl h
      · obtain ⟨l0, hl0, e⟩ := hcovO i hi hne
        exact ⟨retiredOnce (c.parent.isRowFiltered r) old l0, List.mem_map_of_mem _ hl0,
          by rw [retiredOnce_value]; exact e⟩
      · show (c.s.levels.map _).length ≤ _
        rw [List.length_map]; exact hcap

/-- The lookup-then-insert of step 3 of `setIValue`: afterwards the value has
a level, and a level created for it starts with the exact count zero. -/
theorem ensureLevel_exact (c : ColumnW) (r : Nat) (v : Int)
    (hcap : c.levelsUsed ≤ c.s.levelsCapacity) (hn : c.UniqueLevels)
    (hx : c.HoleExact r) (hc : c.HoleCovered r) :
    ∃ ci, (match c.rawLevel v with
        | none => c.insertLevel v (toString v) (some (toString v))
        | some _ => some c) = some ci ∧
      SameRows c ci ∧ ci.UniqueLevels ∧ ci.HoleExact r ∧ ci.HoleCovered r ∧
      ∃ l ∈ ci.s.levels, l.value = v := by
  by_cases hfound : scanLevels c.s.levels v = c.levelsUsed
  · have hraw : c.rawLevel v = none := by
      unfold rawLevel; simp only [if_pos hfound]
    have hno : ∀ l ∈ c.s.levels, l.value ≠ v := (scanLevels_eq_length_iff _ _).1 hfound
    obtain ⟨p, slot, ci, hp, hcall, hrows, hlev, -, -, -, -⟩ :=
      insertLevel_spec c v (toString v) (some (toString v)) hcap hno
    rw [hraw]
    simp only [hcall]
    have hzero : c.occurrencesIn (c.otherRows r) v = 0 := by
      unfold occurrencesIn
      rw [List.countP_eq_zero]
      intro i hi h
      simp only [decide_eq_true_eq] at h
      obtain ⟨l, hl, e⟩ := hc i hi h.2
      exact hno l hl (by rw [e, h.1])
    have hzero' : c.occurrencesExFilteredIn (c.otherRows r) v = 0 := by
      have := occurrencesExFilteredIn_le c (c.otherRows r) v
      omega
    have hmemi : ∀ l ∈ ci.s.levels,
        l = writeNewLevel v (toString v) ((some (toString v)).getD (toString v)) slot
          ∨ l ∈ c.s.levels := by
      intro l hl
      rw [hlev] at hl
      rcases List.mem_append.1 hl with h | h
      · exact Or.inr (List.mem_of_mem_take h)
      · rcases List.mem_cons.1 h with h | h
        · exact Or.inl h
        · exact Or.inr (List.mem_of_mem_drop h)
    have hsub : ∀ l ∈ c.s.levels, l ∈ ci.s.levels := by
      intro l hl
      rw [hlev]
      rw [← List.take_append_drop p c.s.levels] at hl
      rcases List.mem_append.1 hl with h | h
      · exact List.mem_append_left _ h
      · exact List.mem_append_right _ (List.mem_cons_of_mem _ h)
    refine ⟨ci, rfl, hrows, ?_, holeExact_of_sameRows hrows r (fun l hl => ?_),
      holeCovered_of_sameRows hrows r (fun i hi hne => ?_), ?_⟩
    · unfold UniqueLevels at *
      rw [hlev, List.map_append, List.map_cons]
      have hperm : List.Perm ((c.s.levels.take p).map (·.value) ++
          v :: (c.s.levels.drop p).map (·.value)) (v :: c.s.levels.map (·.value)) := by
        refine List.perm_middle.trans ?_
        rw [← List.map_append, List.take_append_drop]
      have : (v :: c.s.levels.map (·.value)).Nodup :=
        List.nodup_cons.2 ⟨fun h => by
          obtain ⟨l, hl, e⟩ := List.mem_map.1 h
          exact hno l hl e, hn⟩
      exact hperm.nodup_iff.2 this
    · rcases hmemi l hl with h | h
      · rw [h]
        show ((0 : Int) = _) ∧ ((0 : Int) = _)
        show ((0 : Int) = c.occurrencesIn (c.otherRows r) v) ∧
          ((0 : Int) = c.occurrencesExFilteredIn (c.otherRows r) v)
        rw [hzero, hzero']
        exact ⟨rfl, rfl⟩
      · exact hx l h
    · obtain ⟨l, hl, e⟩ := hc i hi hne
      exact ⟨l, hsub l hl, e⟩
    · refine ⟨writeNewLevel v (toString v) ((some (toString v)).getD (toString v)) slot, ?_, rfl⟩
      rw [hlev]
      exact List.mem_append_right _ (List.mem_cons_self _ _)
  · have hk : scanLevels c.s.levels v < c.s.levels.length := by
      have := scanLevels_le c.s.levels v
      unfold levelsUsed at hfound
      omega
    have hraw : c.rawLevel v = some (scanLevels c.s.levels v) := by
      unfold rawLevel; simp only [if_neg hfound]
    rw [hraw]
    exact ⟨c, rfl, SameRows.refl c, hn, hx, hc, _, getD_mem _ _ hk, (scanLevels_spec _ _ hk).1⟩

/-- Exact counters for the rows other than `r`, corrected for the value written
to row `r`, are exact counters of the column after the write. -/
theorem final_exact (ci : ColumnW) (r : Nat) (v : Int) (hl : ci.Layout) (hr : r < ci.rowCount)
    (L2 : List Level)
    (hL2 : ∀ l ∈ L2,
      l.count = ci.occurrencesIn (ci.otherRows r) l.value
        + (if v = l.value ∧ v ≠ INT_MIN then 1 else 0 : Nat) ∧
      l.countExFiltered = ci.occurrencesExFilteredIn (ci.otherRows r) l.value
        + (if v = l.value ∧ v ≠ INT_MIN ∧ ci.parent.isRowFiltered r = false then 1 else 0 : Nat)) :
    ((ci.withLevels L2).setCellInt r v).CountsExact ∧
    ((ci.withLevels L2).setCellInt r v).FilteredCountsExact := by
  set c3 := (ci.withLevels L2).setCellInt r v with hc3
  have hrc : c3.rowCount = ci.rowCount := rfl
  have hl2 : (ci.withLevels L2).Layout := hl
  have hcell : ∀ i, c3.ivalue i = if i = r then v else ci.ivalue i := by
    intro i
    show ((ci.withLevels L2).setCellInt r v).cellAtInt i = _
    rw [cellAtInt_setCellInt hl2]; rfl
  have hoth : c3.otherRows r = ci.otherRows r := rfl
  have hagree : ∀ i ∈ ci.otherRows r, c3.ivalue i = ci.ivalue i := by
    intro i hi
    rw [hcell, if_neg (mem_otherRows hi).2]
  have hr3 : c3.ivalue r = v := by rw [hcell, if_pos rfl]
  constructor
  · intro l hl'
    rw [occurrences_split c3 r (by rw [hrc]; exact hr), hoth, occurrencesIn_congr _ hagree, hr3]
    rw [(hL2 l hl').1]
    push_cast; rfl
  · intro l hl'
    rw [occurrencesExFiltered_split c3 r (by rw [hrc]; exact hr), hoth,
      occurrencesExFilteredIn_congr _ hagree rfl, hr3]
    rw [(hL2 l hl').2]
    push_cast; rfl

/-- Steps 3 and 4 of `setIValue` after step 2 left counters that are exact for
the rows other than `r`. -/
theorem countNew_exact (c1 : ColumnW) (r : Nat) (v : Int) (hl : c1.Layout)
    (hr : r < c1.rowCount) (hrows : c1.rowCount ≤ 2147483647)
    (hcap : c1.levelsUsed ≤ c1.s.levelsCapacity) (hn : c1.UniqueLevels)
    (hx : c1.HoleExact r) (hc : c1.HoleCovered r) :
    ∃ c3, (c1.countNew r v).map (fun c2 => c2.setCellInt r v) = some c3 ∧
      c3.CountsExact ∧ c3.FilteredCountsExact ∧ c3.UniqueLevels ∧ c3.EveryCellHasLevel := by
  have hcover : ∀ (ci : ColumnW) (L2 : List Level), ci.Layout → ci.rowCount = c1.rowCount →
      ci.HoleCovered r → (∀ l ∈ ci.s.levels, ∃ l' ∈ L2, l'.value = l.value) →
      (v ≠ INT_MIN → ∃ l' ∈ L2, l'.value = v) →
      ((ci.withLevels L2).setCellInt r v).EveryCellHasLevel := by
    intro ci L2 hli hrc hci hsub hv i hi hne
    have hcell : ((ci.withLevels L2).setCellInt r v).ivalue i
        = if i = r then v else ci.ivalue i := by
      show ((ci.withLevels L2).setCellInt r v).cellAtInt i = _
      rw [cellAtInt_setCellInt (c := ci.withLevels L2) hli]; rfl
    rw [hcell] at hne ⊢
    by_cases hir : i = r
    · rw [if_pos hir] at hne ⊢
      exact hv hne
    · rw [if_neg hir] at hne ⊢
      have hmem : i ∈ ci.otherRows r := by
        unfold otherRows
        exact (List.mem_erase_of_ne hir).2 (List.mem_range.2 hi)
      obtain ⟨l, hl', e⟩ := hci i hmem hne
      obtain ⟨l', hl'', e'⟩ := hsub l hl'
      exact ⟨l', hl'', by rw [e', e]⟩
  unfold countNew
  by_cases hv : v = INT_MIN
  · rw [if_neg (by simpa using hv), Option.map_some']
    obtain ⟨a, b⟩ := final_exact c1 r v hl hr c1.s.levels (fun l hl' => by
      obtain ⟨p, q⟩ := hx l hl'
      rw [p, q, if_neg (fun h => h.2 hv), if_neg (fun h => h.2.1 hv)]
      simp)
    exact ⟨_, rfl, a, b, hn, hcover c1 c1.s.levels hl rfl hc (fun l hl' => ⟨l, hl', rfl⟩)
      (fun h => absurd hv h)⟩
  · rw [if_pos hv]
    obtain ⟨ci, e, hs, hni, hxi, hci, hmem⟩ := ensureLevel_exact c1 r v hcap hn hx hc
    have hli : ci.Layout := hs.layout hl
    have hrci : ci.rowCount = c1.rowCount := hs.rowCount
    simp only [e, Option.some_bind]
    rw [rawLevel_of_mem ci v hmem]
    simp only
    have hstep : (if ¬ (ci.withLevels (ci.s.levels.modify
            (fun l => { l with count := wrapInt (l.count + 1) })
            (scanLevels ci.s.levels v))).parent.isRowFiltered r = true then
          some ((ci.withLevels (ci.s.levels.modify
            (fun l => { l with count := wrapInt (l.count + 1) })
            (scanLevels ci.s.levels v))).withLevels
            ((ci.withLevels (ci.s.levels.modify
              (fun l => { l with count := wrapInt (l.count + 1) })
              (scanLevels ci.s.levels v))).s.levels.modify
              (fun l => { l with countExFiltered := wrapInt (l.countExFiltered + 1) })
              (scanLevels ci.s.levels v)))
        else some (ci.withLevels (ci.s.levels.modify
            (fun l => { l with count := wrapInt (l.count + 1) })
            (scanLevels ci.s.levels v))))
        = some (ci.withLevels (ci.s.levels.map (countedOnce (ci.parent.isRowFiltered r) v))) := by
      rw [← count_step ci.s.levels hni v (ci.parent.isRowFiltered r)]
      show (if ¬ ci.parent.isRowFiltered r = true then _ else _) = _
      cases ci.parent.isRowFiltered r <;> rfl
    rw [hstep, Option.map_some']
    obtain ⟨a, b⟩ := final_exact ci r v hli (by rw [hrci]; exact hr)
      (ci.s.levels.map (countedOnce (ci.parent.isRowFiltered r) v)) (fun l' hl' => by
        obtain ⟨l, hl0, rfl⟩ := List.mem_map.1 hl'
        obtain ⟨p, q⟩ := hxi l hl0
        have b1 := occurrencesIn_le ci (ci.otherRows r) l.value
        have b2 := occurrencesExFilteredIn_le ci (ci.otherRows r) l.value
        rw [length_otherRows ci r (by rw [hrci]; exact hr), hrci] at b1
        rw [countedOnce_value]
        unfold countedOnce
        by_cases h : l.value = v
        · have i1 : (v = l.value ∧ v ≠ INT_MIN) := ⟨h.symm, hv⟩
          rw [if_pos h, if_pos i1]
          by_cases hf : ci.parent.isRowFiltered r = true
          · have i2 : ¬ (v = l.value ∧ v ≠ INT_MIN ∧ ci.parent.isRowFiltered r = false) :=
              fun hh => by rw [hf] at hh; exact absurd hh.2.2 (by decide)
            rw [if_pos hf, if_neg i2]
            show wrapInt (l.count + 1) = _ ∧ l.countExFiltered = _
            rw [p, q, wrapInt_of_range (by omega) (by omega)]
            exact ⟨rfl, by ring⟩
          · have hf' : ci.parent.isRowFiltered r = false := by simpa using hf
            have i2 : (v = l.value ∧ v ≠ INT_MIN ∧ ci.parent.isRowFiltered r = false) :=
              ⟨h.symm, hv, hf'⟩
            rw [if_neg hf, if_pos i2]
            show wrapInt (l.count + 1) = _ ∧ wrapInt (l.countExFiltered + 1) = _
            rw [p, q, wrapInt_of_range (by omega) (by omega),
              wrapInt_of_range (by omega) (by omega)]
            exact ⟨rfl, rfl⟩
        · have i1 : ¬ (v = l.value ∧ v ≠ INT_MIN) := fun hh => h hh.1.symm
          have i2 : ¬ (v = l.value ∧ v ≠ INT_MIN ∧ ci.parent.isRowFiltered r = false) :=
            fun hh => h hh.1.symm
          rw [if_neg h, if_neg i1, if_neg i2, p, q]
          simp)
    refine ⟨_, rfl, a, b, ?_, hcover ci _ hli hrci hci (fun l hl' =>
      ⟨countedOnce (ci.parent.isRowFiltered r) v l, List.mem_map_of_mem _ hl',
        countedOnce_value _ _ _⟩) (fun _ => ?_)⟩
    · show ((ci.s.levels.map (countedOnce _ v)).map (·.value)).Nodup
      rw [map_countedOnce_values]; exact hni
    · obtain ⟨l, hl', e⟩ := hmem
      exact ⟨countedOnce (ci.parent.isRowFiltered r) v l, List.mem_map_of_mem _ hl',
        by rw [countedOnce_value]; exact e⟩

/-- C2 (as amended): on a non-continuous integer column whose level values are
unique and in which every cell that is not missing has a level (with no more
levels than the capacity and a row count that fits an `int`), the per-level
count invariant is preserved by `setIValue`: if before a non-initializing
`setIValue(r, v)` on a row `r` of the column every count is the number of rows
holding the level's value and every `countExFiltered` is that number among the
unfiltered rows (missing cells counted in no level), then the call succeeds
and the same holds after it, for every `v`, with `trimLevels` enabled or
disabled; uniqueness and coverage hold after the call as well. -/
theorem setIValue_keeps_counts (c : ColumnW) (r : Nat) (v : Int)
    (hl : c.Layout) (hrows : c.rowCount ≤ 2147483647)
    (hcap : c.levelsUsed ≤ c.s.levelsCapacity)
    (hd : c.dataType = DataType.INTEGER) (hm : c.measureType ≠ MeasureType.CONTINUOUS)
    (hn : c.UniqueLevels) (hcov : c.EveryCellHasLevel) (hinv : c.CountInvariant)
    (hr : r < c.rowCount) :
    ∃ c', c.setIValue r v false = some c' ∧ c'.CountInvariant ∧
      c'.UniqueLevels ∧ c'.EveryCellHasLevel := by
  have hd1 : ¬ c.dataType = DataType.DECIMAL := by rw [hd]; decide
  have hd2 : c.dataType ≠ DataType.TEXT := by rw [hd]; decide
  unfold setIValue
  rw [if_neg hd1, if_neg hm]
  simp only [if_true]
  by_cases hsame : c.ivalue r = v
  · rw [if_pos hsame]
    exact ⟨c, rfl, hinv, hn, hcov⟩
  · rw [if_neg hsame]
    obtain ⟨c1, e1, s1, n1, x1, cv1, cap1⟩ :=
      retireOld_exact c r hr hrows hcap hd2 hn hcov hinv.1 hinv.2
    rw [e1, Option.some_bind]
    have hrc : c1.rowCount = c.rowCount := s1.rowCount
    obtain ⟨c3, e3, a, b, n3, cv3⟩ := countNew_exact c1 r v (s1.layout hl)
      (by rw [hrc]; exact hr) (by rw [hrc]; exact hrows) cap1 n1 x1 cv1
    exact ⟨c3, e3, ⟨a, b⟩, n3, cv3⟩

/-- C2, an instance of `setIValue_keeps_counts`: row 1 of `[1, 3, 1]` is
rewritten from 3 to 2; level 3 goes to zero occurrences, level 2 to one. -/
theorem setIValue_keeps_counts_witness :
    (trimInteger.setIValue 1 2 false).map
        (fun c => (c.rows, c.s.levels.map (fun l => (l.value, l.count, l.countExFiltered))))
      = some ([1, 2, 1], [(1, 2, 2), (2, 1, 1), (3, 0, 0)]) ∧
    ∃ c', trimInteger.setIValue 1 2 false = some c' ∧ c'.CountInvariant ∧
      c'.UniqueLevels ∧ c'.EveryCellHasLevel :=
  ⟨by decide,
   setIValue_keeps_counts trimInteger 1 2 (by unfold Layout; decide) (by decide) (by decide)
     (by decide) (by decide) (by unfold UniqueLevels; decide)
     (by unfold EveryCellHasLevel; decide)
     (by unfold CountInvariant CountsExact FilteredCountsExact occurrences occurrencesIn
           occurrencesExFiltered occurrencesExFilteredIn; decide)
     (by decide)⟩

/-- C2, the count invariant alone is not preserved. With two levels of the
same coded value,
both exact before the call, only the first is decremented; and when a row
holds a value that has no level, the level created for that value starts at
one although two rows hold it. In both columns the invariant holds before the
call and a count differs from the occurrences after it. -/
theorem setIValue_breaks_counts :
    (duplicateCounted.CountInvariant ∧
      (duplicateCounted.setIValue 0 7 false).map
        (fun c => c.s.levels.map (fun l => (l.value, l.count, c.occurrences l.value)))
        = some [(5, 0, 0), (5, 1, 0), (7, 1, 1)]) ∧
    (uncovered.CountInvariant ∧
      (uncovered.setIValue 1 7 false).map
        (fun c => c.s.levels.map (fun l => (l.value, l.count, c.occurrences l.value)))
        = some [(7, 1, 2)]) := by
  refine ⟨⟨?_, by decide⟩, ⟨?_, by decide⟩⟩ <;>
  · unfold CountInvariant CountsExact FilteredCountsExact occurrences occurrencesIn
      occurrencesExFiltered occurrencesExFilteredIn
    decide

/-! ## Row block store: block count -/

theorem sameFrame_setCellDouble (c : ColumnW) (i : Nat) (v : Option Rat) :
    SameFrame c (c.setCellDouble i v) :=
  ⟨rfl, rfl, rfl, rfl, rfl, rfl, rfl, rfl, rfl, rfl, rfl, rfl, rfl⟩

theorem sameFrame_setCellText (c : ColumnW) (i : Nat) (v : Option String) :
    SameFrame c (c.setCellText i v) :=
  ⟨rfl, rfl, rfl, rfl, rfl, rfl, rfl, rfl, rfl, rfl, rfl, rfl, rfl⟩

theorem foldl_sameFrame {α : Type} (f : ColumnW → α → ColumnW)
    (hf : ∀ a i, SameFrame a (f a i)) (l : List α) (c : ColumnW) :
    SameFrame c (l.foldl f c) := by
  induction l generalizing c with
  | nil => exact SameFrame.frameRefl c
  | cons x xs ih => exact (hf c x).frameTrans (ih (f c x))

theorem growBlocks_directory (n : Nat) (c : ColumnW) :
    (growBlocks n c).s.blocks.length = c.s.blocks.length + n ∧
    (growBlocks n c).s.changes = c.s.changes ∧
    (growBlocks n c).BLOCK_SIZE = c.BLOCK_SIZE ∧
    (growBlocks n c).s.trimLevels = c.s.trimLevels := by
  induction n generalizing c with
  | zero => simp [growBlocks]
  | succ n ih =>
    simp only [growBlocks]
    obtain ⟨h1, h2, h3, h4⟩ := ih
      { c with mm := (c.mm.allocate c.BLOCK_SIZE).1,
               s := { c.s with blocks := c.s.blocks ++ [(c.mm.allocate c.BLOCK_SIZE).2.1],
                               blocksUsed := c.s.blocksUsed + 1 } }
    refine ⟨?_, h2, h3, h4⟩
    rw [h1]; simp only [List.length_append, List.length_singleton]; omega

theorem foldl_blocks {α : Type} (f : ColumnW → α → ColumnW)
    (hf : ∀ a i, (f a i).s.blocks = a.s.blocks) (l : List α) (c : ColumnW) :
    (l.foldl f c).s.blocks = c.s.blocks := by
  induction l generalizing c with
  | nil => rfl
  | cons x xs ih => exact (ih (f c x)).trans (hf c x)

/-- What `setRowCount<T>` does outside the cells, for every cell type. -/
theorem setRowCount_frame (c : ColumnW) (size count : Nat) :
    (c.setRowCount size count).s.blocksUsed
      = c.s.blocksUsed + (count * size / c.VALUES_SPACE + 1 - c.s.blocksUsed) ∧
    (c.setRowCount size count).s.blocks.length
      = c.s.blocks.length + (count * size / c.VALUES_SPACE + 1 - c.s.blocksUsed) ∧
    (c.setRowCount size count).s.rowCount = count ∧
    (c.setRowCount size count).s.changes = c.s.changes ∧
    (c.setRowCount size count).s.dataType = c.s.dataType ∧
    (c.setRowCount size count).s.measureType = c.s.measureType ∧
    (c.setRowCount size count).VALUES_SPACE = c.VALUES_SPACE ∧
    (c.setRowCount size count).s.levels = c.s.levels := by
  obtain ⟨g1, g2, g3, g4, g5, g6, g7, g8⟩ :=
    growBlocks_frame (count * size / c.VALUES_SPACE + 1 - c.s.blocksUsed) c
  obtain ⟨d1, d2, d3, d4⟩ :=
    growBlocks_directory (count * size / c.VALUES_SPACE + 1 - c.s.blocksUsed) c
  set c1 := growBlocks (count * size / c.VALUES_SPACE + 1 - c.s.blocksUsed) c with hc1
  set c2 : ColumnW := { c1 with s := { c1.s with rowCount := count } } with hc2
  have key : SameFrame c2 (c.setRowCount size count) := by
    unfold setRowCount
    simp only [← hc1, ← hc2]
    split
    · exact foldl_sameFrame _ (fun a i => sameFrame_setCellText a i none) _ _
    · split
      · exact foldl_sameFrame _ (fun a i => sameFrame_setCellDouble a i none) _ _
      · exact foldl_sameFrame _ (fun a i => sameFrame_setCellInt a i INT_MIN) _ _
  refine ⟨?_, ?_, ?_, ?_, ?_, ?_, ?_, ?_⟩
  · rw [key.blocksUsed]; exact g8
  · have kb : (c.setRowCount size count).s.blocks = c2.s.blocks := by
      unfold setRowCount
      simp only [← hc1, ← hc2]
      split
      · exact foldl_blocks (fun a i => a.setCellText i none) (fun a i => rfl) _ c2
      · split
        · exact foldl_blocks (fun a i => a.setCellDouble i none) (fun a i => rfl) _ c2
        · exact foldl_blocks (fun a i => a.setCellInt i INT_MIN) (fun a i => rfl) _ c2
    rw [kb]; exact d1
  · rw [key.rowCount]
  · rw [key.changes]; exact d2
  · rw [key.dataType]; exact g4
  · rw [key.measureType]; exact g5
  · rw [key.space]; exact g1
  · rw [key.levels]; exact g6

/-- C11 (as amended): for every element size, count and starting number of
blocks, `setRowCount<T>(count)` leaves the larger of the starting number and
`count * sizeof(T) / VALUES_SPACE + 1` blocks, and the directory grows by the
blocks added. That figure is the number of blocks needed to hold the cells
when `count * sizeof(T)` is not a multiple of the block capacity, and one
more than needed when it is. -/
theorem setRowCount_blocks (c : ColumnW) (size count : Nat) (hv : 0 < c.VALUES_SPACE) :
    (c.setRowCount size count).s.blocksUsed
      = max c.s.blocksUsed (count * size / c.VALUES_SPACE + 1) ∧
    (c.setRowCount size count).s.blocks.length
      = c.s.blocks.length + ((c.setRowCount size count).s.blocksUsed - c.s.blocksUsed) ∧
    (¬ c.VALUES_SPACE ∣ count * size →
      count * size / c.VALUES_SPACE + 1 = c.blocksToHold size count) ∧
    (c.VALUES_SPACE ∣ count * size →
      count * size / c.VALUES_SPACE + 1 = c.blocksToHold size count + 1) := by
  obtain ⟨f1, f2, -⟩ := setRowCount_frame c size count
  refine ⟨?_, ?_, fun hnd => ?_, fun hd => ?_⟩
  · rw [f1]; omega
  · rw [f2, f1]; omega
  · unfold blocksToHold
    generalize count * size = n at hnd ⊢
    have hmod : 0 < n % c.VALUES_SPACE :=
      Nat.pos_of_ne_zero (fun h0 => hnd (Nat.dvd_of_mod_eq_zero h0))
    have hlt := Nat.mod_lt n hv
    have hdm := Nat.div_add_mod n c.VALUES_SPACE
    generalize n % c.VALUES_SPACE = m at hmod hlt hdm
    generalize n / c.VALUES_SPACE = q at hdm ⊢
    have e : n + c.VALUES_SPACE - 1 = (m - 1) + c.VALUES_SPACE * (q + 1) := by
      rw [Nat.mul_add, Nat.mul_one]; omega
    have hm1 : m - 1 < c.VALUES_SPACE := by omega
    rw [e, Nat.add_mul_div_left _ _ hv, Nat.div_eq_of_lt hm1]; omega
  · unfold blocksToHold
    generalize count * size = n at hd ⊢
    obtain ⟨k, hk⟩ := hd
    have e : n + c.VALUES_SPACE - 1 = (c.VALUES_SPACE - 1) + c.VALUES_SPACE * k := by
      rw [hk]; omega
    have hm1 : c.VALUES_SPACE - 1 < c.VALUES_SPACE := by omega
    rw [e, Nat.add_mul_div_left _ _ hv, Nat.div_eq_of_lt hm1, hk,
      Nat.mul_div_cancel_left _ hv]; omega

/-- C11, an instance of `setRowCount_blocks`: growing the three-row column to
five rows keeps its two blocks. -/
theorem setRowCount_blocks_witness :
    0 < (columnOfRows 16 [1, 2, 3]).VALUES_SPACE ∧
    ((columnOfRows 16 [1, 2, 3]).setRowCount 4 5).s.blocksUsed = 2 ∧
    (columnOfRows 16 [1, 2, 3]).blocksToHold 4 5 = 2 :=
  ⟨by decide,
   (setRowCount_blocks (columnOfRows 16 [1, 2, 3]) 4 5 (by decide)).1.trans (by decide),
   by decide⟩

/-- C11: a count of zero on a column without blocks, and a count whose cells
fill one block exactly, both get one block more than the cells need. -/
theorem setRowCount_allocates_spare_block :
    ((emptyColumn 16).setRowCount 4 0).s.blocksUsed = 1 ∧
    max (emptyColumn 16).s.blocksUsed ((emptyColumn 16).blocksToHold 4 0) = 0 ∧
    ((emptyColumn 16).setRowCount 4 4).s.blocksUsed = 2 ∧
    max (emptyColumn 16).s.blocksUsed ((emptyColumn 16).blocksToHold 4 4) = 1 := by
  decide

/-! ## The change counter -/

theorem map_value_modify (f : Level → Level) (hf : ∀ l, (f l).value = l.value)
    (k : Nat) (ls : List Level) :
    (ls.modify f k).map (·.value) = ls.map (·.value) := by
  induction ls generalizing k with
  | nil => cases k <;> rfl
  | cons x xs ih =>
    cases k with
    | zero => simp [List.modify, hf]
    | succ k =>
      have := ih k
      simp only [List.modify_succ_cons, List.map_cons, this]

theorem consolidateRows_frame (value : Int) (is : List Nat) (c : ColumnW) :
    SameFrame c (consolidateRows value is c) := by
  induction is generalizing c with
  | nil => exact SameFrame.frameRefl c
  | cons i is ih =>
    simp only [consolidateRows]
    split
    · exact (sameFrame_setCellInt c i _).frameTrans (ih _)
    · exact ih c

theorem removeLevel_changes {c c' : ColumnW} {v : Int} (h : c.removeLevel v = some c') :
    c'.s.changes = wrapInt (c.s.changes + 1) ∧ c'.levelsUsed + 1 = c.levelsUsed := by
  have hlt : scanLevels c.s.levels v < c.levelsUsed := by
    have hle := scanLevels_le c.s.levels v
    by_contra hge
    have he : scanLevels c.s.levels v = c.levelsUsed := by unfold levelsUsed at *; omega
    unfold removeLevel at h
    simp only [if_pos he] at h
    exact Option.noConfusion h
  have hlen : (c.s.levels.eraseIdx (scanLevels c.s.levels v)).length + 1 = c.levelsUsed := by
    unfold levelsUsed at *
    rw [List.length_eraseIdx, if_pos hlt]; omega
  by_cases ht : c.dataType = DataType.TEXT
  · rw [removeLevel_text ht v hlt] at h
    injection h with h
    subst h
    have hf := consolidateRows_frame v (List.range c.rowCount)
      (c.withLevels
        ((c.s.levels.eraseIdx (scanLevels c.s.levels v)).take (scanLevels c.s.levels v) ++
          ((c.s.levels.eraseIdx (scanLevels c.s.levels v)).drop
            (scanLevels c.s.levels v)).map
              (fun l => { l with value := wrapInt (l.value - 1) })))
    refine ⟨?_, ?_⟩
    · show wrapInt (_ + 1) = _
      rw [hf.changes]; rfl
    · show (consolidateRows _ _ _).s.levels.length + 1 = _
      rw [hf.levels]
      show List.length (_ ++ _) + 1 = _
      rw [List.length_append, List.length_map, ← List.length_append, List.take_append_drop]
      exact hlen
  · rw [removeLevel_not_text ht v hlt] at h
    injection h with h
    subst h
    exact ⟨rfl, hlen⟩

theorem removeLevel_total (c : ColumnW) (v : Int) (h : ∃ l ∈ c.s.levels, l.value = v) :
    ∃ c1, c.removeLevel v = some c1 := by
  have hlt : scanLevels c.s.levels v < c.levelsUsed := by
    have hle := scanLevels_le c.s.levels v
    have hne : ¬ scanLevels c.s.levels v = c.s.levels.length := by
      intro e
      obtain ⟨l, hl, hv⟩ := h
      exact (scanLevels_eq_length_iff _ _).1 e l hl hv
    unfold levelsUsed
    omega
  by_cases ht : c.dataType = DataType.TEXT
  · exact ⟨_, removeLevel_text ht v hlt⟩
  · exact ⟨_, removeLevel_not_text ht v hlt⟩

theorem removeLevel_capacity {c c1 : ColumnW} {v : Int} (h : c.removeLevel v = some c1) :
    c1.s.levelsCapacity = c.s.levelsCapacity := by
  have hlt : scanLevels c.s.levels v < c.levelsUsed := by
    have hle := scanLevels_le c.s.levels v
    by_contra hge
    have he : scanLevels c.s.levels v = c.levelsUsed := by unfold levelsUsed at *; omega
    unfold removeLevel at h
    simp only [if_pos he] at h
    exact Option.noConfusion h
  by_cases ht : c.dataType = DataType.TEXT
  · rw [removeLevel_text ht v hlt] at h
    injection h with h
    subst h
    show (consolidateRows _ _ _).s.levelsCapacity = _
    rw [(consolidateRows_frame _ _ _).levelsCapacity]
    rfl
  · rw [removeLevel_not_text ht v hlt] at h
    injection h with h
    subst h
    rfl

/-- The sweep of `setTrimLevels` never runs out of rounds: every round
advances the index or removes an entry that is there. -/
theorem trimSweep_total (fuel : Nat) : ∀ (i : Nat) (c : ColumnW),
    c.levelsUsed - i ≤ fuel → ∃ c1, trimSweep fuel i c = some c1 := by
  induction fuel with
  | zero =>
    intro i c hf
    simp only [trimSweep]
    rw [if_neg (by omega)]
    exact ⟨c, rfl⟩
  | succ fuel ih =>
    intro i c hf
    simp only [trimSweep]
    split
    · rename_i hi
      split
      · have hmem : ∃ l ∈ c.s.levels, l.value = (c.s.levels.getD i default).value :=
          ⟨c.s.levels.getD i default, by
            rw [List.getD_eq_getElem _ _ hi]; exact List.getElem_mem _, rfl⟩
        obtain ⟨c1, h1⟩ := removeLevel_total c _ hmem
        rw [h1, Option.some_bind]
        have := (removeLevel_changes h1).2
        exact ih i c1 (by omega)
      · exact ih (i + 1) c (by omega)
    · exact ⟨c, rfl⟩

/-- `setTrimLevels` returns on every column. -/
theorem setTrimLevels_total (c : ColumnW) (trim : Bool) :
    ∃ c1, c.setTrimLevels trim = some c1 := by
  unfold setTrimLevels
  split
  · exact ⟨c, rfl⟩
  · cases trim with
    | true =>
      obtain ⟨c0, h0⟩ := trimSweep_total c.levelsUsed 0 c (by omega)
      simp only [if_true, h0, Option.map_some']
      exact ⟨_, rfl⟩
    | false =>
      simp only [Bool.false_eq_true, if_false, Option.map_some']
      exact ⟨_, rfl⟩

theorem retireOld_total (c : ColumnW) (r : Nat) (old : Int)
    (hcap : c.levelsUsed ≤ c.s.levelsCapacity)
    (hold : old = INT_MIN ∨ ∃ l ∈ c.s.levels, l.value = old) :
    ∃ c1, c.retireOld r old = some c1 ∧ c1.levelsUsed ≤ c1.s.levelsCapacity := by
  unfold retireOld
  by_cases hmiss : old = INT_MIN
  · rw [if_neg (fun h => h hmiss)]
    exact ⟨c, rfl, hcap⟩
  · rw [if_pos hmiss]
    have hex : ∃ l ∈ c.s.levels, l.value = old := hold.resolve_left hmiss
    rw [rawLevel_of_mem c old hex]
    dsimp only
    have hlen : ∀ k, (c.s.levels.modify (fun l => { l with count := wrapInt (l.count - 1) })
        k).length = c.s.levels.length := fun k => List.length_modify _ _ _
    split
    · have hex1 : ∃ l ∈ (c.withLevels (c.s.levels.modify
          (fun l => { l with count := wrapInt (l.count - 1) })
          (scanLevels c.s.levels old))).s.levels, l.value = old := by
        obtain ⟨l, hl, hv⟩ := hex
        have : old ∈ (c.s.levels.modify (fun l => { l with count := wrapInt (l.count - 1) })
            (scanLevels c.s.levels old)).map (·.value) := by
          rw [map_value_modify _ (by intro l; rfl)]
          exact List.mem_map.2 ⟨l, hl, hv⟩
        obtain ⟨l', hl', hv'⟩ := List.mem_map.1 this
        exact ⟨l', hl', hv'⟩
      obtain ⟨c1, h1⟩ := removeLevel_total _ old hex1
      refine ⟨c1, h1, ?_⟩
      have e1 := (removeLevel_changes h1).2
      have e2 := removeLevel_capacity h1
      rw [e2]
      have e3 : (c.withLevels (c.s.levels.modify
          (fun l => { l with count := wrapInt (l.count - 1) })
          (scanLevels c.s.levels old))).levelsUsed = c.levelsUsed := hlen _
      show c1.levelsUsed ≤ c.s.levelsCapacity
      omega
    · split
      · refine ⟨_, rfl, ?_⟩
        show (List.modify _ _ _).length ≤ c.s.levelsCapacity
        exact (List.length_modify _ _ _).le.trans ((hlen _).le.trans hcap)
      · exact ⟨_, rfl, (hlen _).le.trans hcap⟩

theorem countNew_total (c : ColumnW) (r : Nat) (v : Int)
    (hcap : c.levelsUsed ≤ c.s.levelsCapacity) : ∃ c1, c.countNew r v = some c1 := by
  unfold countNew
  by_cases hmiss : v = INT_MIN
  · rw [if_neg (fun h => h hmiss)]
    exact ⟨c, rfl⟩
  · rw [if_pos hmiss]
    have key : ∀ ci : ColumnW, (∃ l ∈ ci.s.levels, l.value = v) →
        ∃ c1, (match ci.rawLevel v with
          | none => none
          | some k =>
            let c2 := ci.withLevels
              (ci.s.levels.modify (fun l => { l with count := wrapInt (l.count + 1) }) k)
            if ¬ c2.parent.isRowFiltered r then
              some (c2.withLevels (c2.s.levels.modify
                (fun l => { l with countExFiltered := wrapInt (l.countExFiltered + 1) }) k))
            else some c2) = some c1 := by
      intro ci hex
      rw [rawLevel_of_mem ci v hex]
      dsimp only
      split <;> exact ⟨_, rfl⟩
    by_cases hfound : scanLevels c.s.levels v = c.levelsUsed
    · have hraw : c.rawLevel v = none := by
        unfold rawLevel; simp only [if_pos hfound]
      have hno : ∀ l ∈ c.s.levels, l.value ≠ v := (scanLevels_eq_length_iff _ _).1 hfound
      obtain ⟨p, slot, ci, hp, hcall, -, hlev, -, -, -, -⟩ :=
        insertLevel_spec c v (toString v) (some (toString v)) hcap hno
      rw [hraw]
      simp only [hcall, Option.some_bind]
      exact key ci ⟨_, by rw [hlev]; exact List.mem_append_right _ (List.mem_cons_self _ _), rfl⟩
    · have hraw : c.rawLevel v = some (scanLevels c.s.levels v) := by
        unfold rawLevel; simp only [if_neg hfound]
      have hex : ∃ l ∈ c.s.levels, l.value = v := by
        by_contra hne
        exact hfound ((scanLevels_eq_length_iff _ _).2 (fun l hl hv => hne ⟨l, hl, hv⟩))
      simp only [hraw, Option.some_bind]
      have := key c hex
      rw [hraw] at this
      exact this

/-- `setIValue` returns whenever its assertions hold: the column is not
decimal and the cell it replaces is missing or has a level. -/
theorem setIValue_total (c : ColumnW) (r : Nat) (v : Int) (initing : Bool)
    (hd : c.dataType ≠ DataType.DECIMAL) (hcap : c.levelsUsed ≤ c.s.levelsCapacity)
    (hold : c.ivalue r = INT_MIN ∨ ∃ l ∈ c.s.levels, l.value = c.ivalue r) :
    ∃ c1, c.setIValue r v initing = some c1 := by
  unfold setIValue
  rw [if_neg hd]
  split
  · exact ⟨_, rfl⟩
  · split
    · dsimp only
      split
      · exact ⟨c, rfl⟩
      · obtain ⟨c1, h1, hcap1⟩ := retireOld_total c r (c.ivalue r) hcap hold
        obtain ⟨c2, h2⟩ := countNew_total c1 r v hcap1
        rw [h1, Option.some_bind, h2]
        exact ⟨_, rfl⟩
    · obtain ⟨c2, h2⟩ := countNew_total c r v hcap
      dsimp only
      rw [h2]
      exact ⟨_, rfl⟩

/-- The two embeddings of `removeLevel` agree: the plain one forgets the state
a failed assertion leaves behind. -/
theorem removeLevelTraced_toOption (c : ColumnW) (value : Int) :
    (c.removeLevelTraced value).toOption = c.removeLevel value := by
  unfold removeLevelTraced removeLevel
  dsimp only
  split <;> rfl

/-- C13: `removeLevel(value)` fails its assertion exactly when no entry of the
dictionary has the coded value, and the column is then as it was before the
call. When an entry has the value and the column is not textual, the call
returns the column whose levels are the old ones with the first entry of that
value deleted (one entry fewer, the others untouched) and whose cells and row
count are the old ones. -/
theorem removeLevel_outcome (c : ColumnW) (value : Int) :
    ((∃ c0, c.removeLevelTraced value = Except.error c0) ↔
      ∀ l ∈ c.s.levels, l.value ≠ value) ∧
    (c.removeLevel value = none ↔ ∀ l ∈ c.s.levels, l.value ≠ value) ∧
    (∀ c0, c.removeLevelTraced value = Except.error c0 → c0 = c) ∧
    ((∃ l ∈ c.s.levels, l.value = value) → c.dataType ≠ DataType.TEXT →
      ∃ c1, c.removeLevelTraced value = Except.ok c1 ∧
        c.removeLevel value = some c1 ∧
        scanLevels c.s.levels value < c.levelsUsed ∧
        (c.s.levels.getD (scanLevels c.s.levels value) default).value = value ∧
        (∀ j, j < scanLevels c.s.levels value → (c.s.levels.getD j default).value ≠ value) ∧
        c1.s.levels = c.s.levels.eraseIdx (scanLevels c.s.levels value) ∧
        c1.levelsUsed + 1 = c.levelsUsed ∧
        c1.rowCount = c.rowCount ∧
        c1.s.ivalues = c.s.ivalues ∧ c1.s.dvalues = c.s.dvalues ∧ c1.s.svalues = c.s.svalues ∧
        ∀ j, c1.ivalue j = c.ivalue j) := by
  have hiff := scanLevels_eq_length_iff c.s.levels value
  have key : ∀ h : scanLevels c.s.levels value = c.levelsUsed,
      c.removeLevelTraced value = Except.error c := by
    intro h
    unfold removeLevelTraced
    dsimp only
    rw [if_pos h]
  have key2 : ∀ h : ¬ scanLevels c.s.levels value = c.levelsUsed,
      ∃ c1, c.removeLevelTraced value = Except.ok c1 := by
    intro h
    unfold removeLevelTraced
    dsimp only
    rw [if_neg h]
    exact ⟨_, rfl⟩
  refine ⟨⟨fun ⟨c0, h0⟩ => ?_, fun h => ⟨c, key (hiff.2 h)⟩⟩, ⟨fun h => ?_, fun h => ?_⟩,
    fun c0 h0 => ?_, fun hex ht => ?_⟩
  · apply hiff.1
    by_contra hne
    obtain ⟨c1, h1⟩ := key2 hne
    rw [h1] at h0
    exact Except.noConfusion h0
  · apply hiff.1
    by_contra hne
    obtain ⟨c1, h1⟩ := key2 hne
    rw [← removeLevelTraced_toOption, h1] at h
    exact Option.noConfusion h
  · rw [← removeLevelTraced_toOption, key (hiff.2 h)]
    rfl
  · by_cases he : scanLevels c.s.levels value = c.levelsUsed
    · rw [key he] at h0
      injection h0 with h0
      exact h0.symm
    · obtain ⟨c1, h1⟩ := key2 he
      rw [h1] at h0
      exact Except.noConfusion h0
  · have hlt : scanLevels c.s.levels value < c.levelsUsed := by
      have hle := scanLevels_le c.s.levels value
      have hne : ¬ scanLevels c.s.levels value = c.s.levels.length := by
        intro h
        obtain ⟨l, hl, hv⟩ := hex
        exact hiff.1 h l hl hv
      unfold levelsUsed
      omega
    have hr := removeLevel_not_text ht value hlt
    obtain ⟨s1, s2⟩ := scanLevels_spec c.s.levels value hlt
    refine ⟨_, ?_, hr, hlt, s1, s2, rfl, ?_, rfl, rfl, rfl, rfl, fun j => rfl⟩
    · obtain ⟨c1, h1⟩ := key2 (by unfold levelsUsed at *; omega)
      have := removeLevelTraced_toOption c value
      rw [h1, hr] at this
      rw [h1]
      injection this with this
      rw [this]
    · show (c.s.levels.eraseIdx _).length + 1 = _
      unfold levelsUsed at *
      rw [List.length_eraseIdx, if_pos hlt]; omega

/-- C13, an instance of `removeLevel_outcome`: removing the absent code `5`
from the dictionary `1, 2, 3` fails and leaves the column untouched; removing
`2` deletes that entry and nothing else. -/
theorem removeLevel_outcome_witness :
    (dictionaryOf [1, 2, 3]).removeLevelTraced 5 = Except.error (dictionaryOf [1, 2, 3]) ∧
    ((dictionaryOf [1, 2, 3]).removeLevel 2).map (fun c => c.s.levels.map (·.value))
      = some [1, 3] ∧
    ∃ c1, (dictionaryOf [1, 2, 3]).removeLevel 2 = some c1 ∧
      c1.s.levels = (dictionaryOf [1, 2, 3]).s.levels.eraseIdx 1 ∧
      c1.levelsUsed + 1 = (dictionaryOf [1, 2, 3]).levelsUsed :=
  ⟨by
    obtain ⟨c0, h0⟩ := (removeLevel_outcome (dictionaryOf [1, 2, 3]) 5).1.2 (by decide)
    rw [h0, (removeLevel_outcome (dictionaryOf [1, 2, 3]) 5).2.2.1 c0 h0],
   by decide,
   by
    obtain ⟨c1, -, h2, -, -, -, h6, h7, -⟩ :=
      (removeLevel_outcome (dictionaryOf [1, 2, 3]) 2).2.2.2 (by decide) (by decide)
    exact ⟨c1, h2, h6, h7⟩⟩

/-! ## Text fields -/

theorem setFormula_fits (c : ColumnW) (value : String)
    (h : value.utf8ByteSize + 1 ≤ c.s.formulaCapacity) :
    c.setFormula value = bumpChanges { c with mm := c.mm.store c.s.formula value } := by
  unfold setFormula
  dsimp only
  rw [if_neg (by omega)]

theorem setFormula_grows (c : ColumnW) (value : String)
    (h : c.s.formulaCapacity < value.utf8ByteSize + 1) :
    c.setFormula value = bumpChanges
      { c with mm := (c.mm.allocate (value.utf8ByteSize + 1)).1.store c.mm.top value,
               s := { c.s with formula := c.mm.top,
                               formulaCapacity := c.mm.granted (value.utf8ByteSize + 1) } } := by
  unfold setFormula
  dsimp only
  rw [if_pos (by omega)]
  rfl

theorem setFormulaMessage_fits (c : ColumnW) (value : String)
    (h : value.utf8ByteSize + 1 ≤ c.s.formulaMessageCapacity) :
    c.setFormulaMessage value
      = bumpChanges { c with mm := c.mm.store c.s.formulaMessage value } := by
  unfold setFormulaMessage
  dsimp only
  rw [if_neg (by omega)]

theorem setFormulaMessage_grows (c : ColumnW) (value : String)
    (h : c.s.formulaMessageCapacity < value.utf8ByteSize + 1) :
    c.setFormulaMessage value = bumpChanges
      { c with mm := (c.mm.allocate (value.utf8ByteSize + 1)).1.store c.mm.top value,
               s := { c.s with formulaMessage := c.mm.top,
                               formulaMessageCapacity :=
                                 c.mm.granted (value.utf8ByteSize + 1) } } := by
  unfold setFormulaMessage
  dsimp only
  rw [if_pos (by omega)]
  rfl

/-- C14 (as amended): with an arena that grants at least what is asked and a
counter below `INT_MAX`. `setFormula` and `setFormulaMessage` write in place
when the content and its terminator fit the recorded capacity (offset,
capacity and arena end unchanged) and otherwise take a new buffer at the end
of the arena and record its offset and the granted capacity, which is at
least the needed length. `setName` has no recorded capacity and takes a new
buffer on every call. After each of the three the field reads back the new
content and `changes()` is one higher. -/
theorem text_field_writes (c : ColumnW) (value : String)
    (hg : ∀ n, n ≤ c.mm.granted n) (h1 : INT_MIN ≤ c.changes) (h2 : c.changes < INT_MAX) :
    ((value.utf8ByteSize + 1 ≤ c.s.formulaCapacity →
        (c.setFormula value).s.formula = c.s.formula ∧
        (c.setFormula value).s.formulaCapacity = c.s.formulaCapacity ∧
        (c.setFormula value).mm.top = c.mm.top) ∧
     (c.s.formulaCapacity < value.utf8ByteSize + 1 →
        (c.setFormula value).s.formula = c.mm.top ∧
        (c.setFormula value).s.formulaCapacity = c.mm.granted (value.utf8ByteSize + 1) ∧
        value.utf8ByteSize + 1 ≤ (c.setFormula value).s.formulaCapacity ∧
        (c.setFormula value).mm.top = c.mm.top + c.mm.granted (value.utf8ByteSize + 1)) ∧
     (c.setFormula value).formula = value ∧
     (c.setFormula value).changes = c.changes + 1) ∧
    ((value.utf8ByteSize + 1 ≤ c.s.formulaMessageCapacity →
        (c.setFormulaMessage value).s.formulaMessage = c.s.formulaMessage ∧
        (c.setFormulaMessage value).s.formulaMessageCapacity = c.s.formulaMessageCapacity ∧
        (c.setFormulaMessage value).mm.top = c.mm.top) ∧
     (c.s.formulaMessageCapacity < value.utf8ByteSize + 1 →
        (c.setFormulaMessage value).s.formulaMessage = c.mm.top ∧
        (c.setFormulaMessage value).s.formulaMessageCapacity
          = c.mm.granted (value.utf8ByteSize + 1) ∧
        value.utf8ByteSize + 1 ≤ (c.setFormulaMessage value).s.formulaMessageCapacity ∧
        (c.setFormulaMessage value).mm.top
          = c.mm.top + c.mm.granted (value.utf8ByteSize + 1)) ∧
     (c.setFormulaMessage value).formulaMessage = value ∧
     (c.setFormulaMessage value).changes = c.changes + 1) ∧
    ((c.setName value).s.name = c.mm.top ∧
     (c.setName value).mm.top = c.mm.top + c.mm.granted (value.utf8ByteSize + 1) ∧
     (c.setName value).name = value ∧
     (c.setName value).changes = c.changes + 1) := by
  have w1 : wrapInt (c.s.changes + 1) = c.changes + 1 := by
    apply wrapInt_of_range <;>
      (have a1 : INT_MIN ≤ c.s.changes := h1
       have a2 : c.s.changes < INT_MAX := h2
       unfold INT_MIN INT_MAX at *; omega)
  have rd : ∀ (mm : MemoryMapW) (o : Nat), (mm.store o value).chars o = value := by
    intro mm o
    show (if o = o then value else mm.chars o) = value
    rw [if_pos rfl]
  refine ⟨⟨fun h => ?_, fun h => ?_, ?_, ?_⟩, ⟨fun h => ?_, fun h => ?_, ?_, ?_⟩,
    rfl, rfl, rd _ _, w1⟩
  · rw [setFormula_fits c value h]; exact ⟨rfl, rfl, rfl⟩
  · rw [setFormula_grows c value h]; exact ⟨rfl, rfl, hg _, rfl⟩
  · by_cases h : value.utf8ByteSize + 1 ≤ c.s.formulaCapacity
    · rw [setFormula_fits c value h]; exact rd _ _
    · rw [setFormula_grows c value (by omega)]; exact rd _ _
  · by_cases h : value.utf8ByteSize + 1 ≤ c.s.formulaCapacity
    · rw [setFormula_fits c value h]; exact w1
    · rw [setFormula_grows c value (by omega)]; exact w1
  · rw [setFormulaMessage_fits c value h]; exact ⟨rfl, rfl, rfl⟩
  · rw [setFormulaMessage_grows c value h]; exact ⟨rfl, rfl, hg _, rfl⟩
  · by_cases h : value.utf8ByteSize + 1 ≤ c.s.formulaMessageCapacity
    · rw [setFormulaMessage_fits c value h]; exact rd _ _
    · rw [setFormulaMessage_grows c value (by omega)]; exact rd _ _
  · by_cases h : value.utf8ByteSize + 1 ≤ c.s.formulaMessageCapacity
    · rw [setFormulaMessage_fits c value h]; exact w1
    · rw [setFormulaMessage_grows c value (by omega)]; exact w1

/-- C14, an instance of `text_field_writes`: the formula `"a + b"` (capacity 6)
overwritten by `"x"` stays where it is; the name is moved. -/
theorem text_field_writes_witness :
    (∀ n, n ≤ formulaColumn.mm.granted n) ∧ INT_MIN ≤ formulaColumn.changes ∧
    formulaColumn.changes < INT_MAX ∧
    "x".utf8ByteSize + 1 ≤ formulaColumn.s.formulaCapacity ∧
    (formulaColumn.setFormula "x").s.formula = formulaColumn.s.formula ∧
    (formulaColumn.setFormula "x").formula = "x" ∧
    (formulaColumn.setName "x").s.name = formulaColumn.mm.top :=
  ⟨fun n => Nat.le_refl n, by decide, by decide, by decide,
   ((text_field_writes formulaColumn "x" (fun n => Nat.le_refl n) (by decide)
      (by decide)).1.1 (by decide)).1,
   (text_field_writes formulaColumn "x" (fun n => Nat.le_refl n) (by decide)
      (by decide)).1.2.2.1,
   (text_field_writes formulaColumn "x" (fun n => Nat.le_refl n) (by decide)
      (by decide)).2.2.1⟩

/-- C14: the name `"abcdef"` sits in a buffer of seven bytes at offset 0; the
shorter name `"abc"`, which fits, is written to a new buffer at offset 7 and
the arena grows, while a formula that fits is overwritten where it is. -/
theorem setName_always_allocates :
    namedColumn.s.name = 0 ∧ namedColumn.mm.top = 7 ∧
    "abc".utf8ByteSize + 1 ≤ 7 ∧
    (namedColumn.setName "abc").s.name = 7 ∧
    (namedColumn.setName "abc").s.name ≠ namedColumn.s.name ∧
    (namedColumn.setName "abc").mm.top = 11 ∧
    (namedColumn.setName "abc").mm.top ≠ namedColumn.mm.top ∧
    (formulaColumn.setFormula "x").mm.top = formulaColumn.mm.top := by
  decide

/-! ## Level dictionary: uniqueness of the coded values -/

theorem nodup_eraseIdx_values (ls : List Level) (k : Nat)
    (hn : (ls.map (·.value)).Nodup) : ((ls.eraseIdx k).map (·.value)).Nodup :=
  hn.sublist ((List.eraseIdx_sublist ls k).map _)

theorem removeLevel_some_not_text {c c1 : ColumnW} {v : Int}
    (ht : c.dataType ≠ DataType.TEXT) (h : c.removeLevel v = some c1) :
    c1 = bumpChanges (c.withLevels (c.s.levels.eraseIdx (scanLevels c.s.levels v))) := by
  have hlt : scanLevels c.s.levels v < c.levelsUsed := by
    have := (removeLevel_changes h).2
    have hle := scanLevels_le c.s.levels v
    by_contra hge
    have he : scanLevels c.s.levels v = c.levelsUsed := by unfold levelsUsed at *; omega
    unfold removeLevel at h
    simp only [if_pos he] at h
    exact Option.noConfusion h
  rw [removeLevel_not_text ht v hlt] at h
  injection h with h
  exact h.symm

theorem trimSweep_unique (fuel : Nat) : ∀ (i : Nat) (c c' : ColumnW),
    c.dataType ≠ DataType.TEXT → c.UniqueLevels → trimSweep fuel i c = some c' →
    c'.UniqueLevels := by
  induction fuel with
  | zero =>
    intro i c c' _ hn h
    simp only [trimSweep] at h
    split at h
    · exact Option.noConfusion h
    · injection h with h; subst h; exact hn
  | succ fuel ih =>
    intro i c c' ht hn h
    simp only [trimSweep] at h
    split at h
    · split at h
      · cases hr : c.removeLevel (c.s.levels.getD i default).value with
        | none => rw [hr] at h; exact Option.noConfusion h
        | some c1 =>
          rw [hr, Option.some_bind] at h
          have e := removeLevel_some_not_text ht hr
          refine ih i c1 c' ?_ ?_ h
          · rw [e]; exact ht
          · rw [e]; exact nodup_eraseIdx_values _ _ hn
      · exact ih (i + 1) c c' ht hn h
    · injection h with h; subst h; exact hn

theorem insertLevel_unique {c c1 : ColumnW} {v : Int} {label : String}
    {imp : Option String} (hcap : c.levelsUsed ≤ c.s.levelsCapacity) (hn : c.UniqueLevels)
    (hv : ∀ l ∈ c.s.levels, l.value ≠ v) (h : c.insertLevel v label imp = some c1) :
    c1.UniqueLevels ∧ c1.levelsUsed ≤ c1.s.levelsCapacity ∧ c1.dataType = c.dataType := by
  obtain ⟨p, slot, ci, hp, hcall, hrows, hlev, -, -, -, -⟩ :=
    insertLevel_spec c v label imp hcap hv
  rw [hcall] at h
  injection h with h
  subst h
  refine ⟨?_, ?_, hrows.dataType⟩
  · unfold UniqueLevels at *
    rw [hlev, List.map_append, List.map_cons]
    have hperm : List.Perm ((c.s.levels.take p).map (·.value) ++
        v :: (c.s.levels.drop p).map (·.value)) (v :: c.s.levels.map (·.value)) := by
      refine List.perm_middle.trans ?_
      rw [← List.map_append, List.take_append_drop]
    have : (v :: c.s.levels.map (·.value)).Nodup :=
      List.nodup_cons.2 ⟨fun h => by
        obtain ⟨l, hl, e⟩ := List.mem_map.1 h
        exact hv l hl e, hn⟩
    exact hperm.nodup_iff.2 this
  · have hcapi : ci.s.levelsCapacity = (c.appendLevel v label imp).s.levelsCapacity := by
      unfold insertLevel at hcall
      simp only [Option.map_eq_some'] at hcall
      obtain ⟨ls, -, e⟩ := hcall
      rw [← e]; rfl
    have hlen : ci.levelsUsed = c.levelsUsed + 1 := by
      unfold levelsUsed
      rw [hlev, List.length_append, List.length_cons, ← Nat.add_assoc, ← List.length_append,
        List.take_append_drop]
    rw [hcapi, appendLevel_capacity, hlen]
    split
    · split <;> omega
    · omega

theorem retireOld_unique {c c1 : ColumnW} {r : Nat} {old : Int}
    (ht : c.dataType ≠ DataType.TEXT) (hcap : c.levelsUsed ≤ c.s.levelsCapacity)
    (hn : c.UniqueLevels) (h : c.retireOld r old = some c1) :
    c1.UniqueLevels ∧ c1.levelsUsed ≤ c1.s.levelsCapacity ∧ c1.dataType ≠ DataType.TEXT := by
  unfold retireOld at h
  split at h
  · split at h
    · exact Option.noConfusion h
    · rename_i k hk
      dsimp only at h
      have hm : ((c.s.levels.modify (fun l => { l with count := wrapInt (l.count - 1) }) k).map
          (·.value)).Nodup := by
        rw [map_value_modify _ (by intro l; rfl)]; exact hn
      have hlen : (c.s.levels.modify (fun l => { l with count := wrapInt (l.count - 1) })
          k).length = c.s.levels.length := List.length_modify _ _ _
      split at h
      · have e := removeLevel_some_not_text (c := c.withLevels
          (c.s.levels.modify (fun l => { l with count := wrapInt (l.count - 1) }) k)) ht h
        rw [e]
        refine ⟨nodup_eraseIdx_values _ _ hm, ?_, ht⟩
        show (List.eraseIdx _ _).length ≤ c.s.levelsCapacity
        have := List.length_eraseIdx_le
          (c.s.levels.modify (fun l => { l with count := wrapInt (l.count - 1) }) k)
          (scanLevels (c.withLevels
            (c.s.levels.modify (fun l => { l with count := wrapInt (l.count - 1) }) k)).s.levels old)
        unfold levelsUsed at hcap
        exact le_trans this (hlen.le.trans hcap)
      · split at h
        · injection h with h; subst h
          refine ⟨?_, ?_, ht⟩
          · show (List.map (fun l : Level => l.value) (List.modify _ _ _)).Nodup
            rw [map_value_modify _ (by intro l; rfl)]; exact hm
          · show (List.modify _ _ _).length ≤ c.s.levelsCapacity
            exact (List.length_modify _ _ _).le.trans (hlen.le.trans hcap)
        · injection h with h; subst h
          refine ⟨hm, ?_, ht⟩
          exact hlen.le.trans hcap
  · injection h with h; subst h; exact ⟨hn, hcap, ht⟩

theorem countNew_unique {c c1 : ColumnW} {r : Nat} {v : Int}
    (hcap : c.levelsUsed ≤ c.s.levelsCapacity)
    (hn : c.UniqueLevels) (h : c.countNew r v = some c1) : c1.UniqueLevels := by
  unfold countNew at h
  split at h
  · simp only [Option.bind_eq_some] at h
    obtain ⟨c0, h0, h⟩ := h
    have e0 : c0.UniqueLevels := by
      split at h0
      · rename_i hraw
        have hfound : scanLevels c.s.levels v = c.levelsUsed := by
          unfold rawLevel at hraw
          dsimp only at hraw
          by_contra hne
          rw [if_neg hne] at hraw
          exact Option.noConfusion hraw
        exact (insertLevel_unique hcap hn ((scanLevels_eq_length_iff _ _).1 hfound) h0).1
      · injection h0 with h0; subst h0; exact hn
    split at h
    · exact Option.noConfusion h
    · have hm : ∀ k, ((c0.s.levels.modify
          (fun l => { l with count := wrapInt (l.count + 1) }) k).map (·.value)).Nodup := by
        intro k
        rw [map_value_modify _ (by intro l; rfl)]; exact e0
      split at h
      · injection h with h; subst h
        show (List.map (fun l : Level => l.value) (List.modify _ _ _)).Nodup
        rw [map_value_modify _ (by intro l; rfl)]; exact hm _
      · injection h with h; subst h
        exact hm _
  · injection h with h; subst h; exact hn

/-- Ascending codes after the consolidation of `removeLevel`: the codes before
position `k` and the decremented codes behind it are ascending again, and no
decrement wraps. -/
theorem consolidated_ascending (vals : List Int) (k : Nat) (hk : k < vals.length)
    (hs : vals.Pairwise (· < ·)) (hr : ∀ x ∈ vals, INT_MIN ≤ x ∧ x ≤ INT_MAX) :
    (vals.take k ++ (vals.drop (k + 1)).map (fun x => wrapInt (x - 1))).Pairwise (· < ·) ∧
    ∀ x ∈ vals.take k ++ (vals.drop (k + 1)).map (fun x => wrapInt (x - 1)),
      INT_MIN ≤ x ∧ x ≤ INT_MAX := by
  have hpk := hr (vals.get ⟨k, hk⟩) (List.get_mem _ _ _)
  have hbefore : ∀ a ∈ vals.take k, a < vals.get ⟨k, hk⟩ := by
    intro a ha
    obtain ⟨i, hi, rfl⟩ := List.mem_iff_getElem.1 ha
    rw [List.length_take] at hi
    rw [List.getElem_take]
    exact List.pairwise_iff_getElem.1 hs i k (by omega) hk (by omega)
  have hafter : ∀ x ∈ vals.drop (k + 1),
      vals.get ⟨k, hk⟩ < x ∧ wrapInt (x - 1) = x - 1 := by
    intro x hx
    have hpv : vals.get ⟨k, hk⟩ < x := by
      obtain ⟨j, hj, rfl⟩ := List.mem_iff_getElem.1 hx
      rw [List.length_drop] at hj
      rw [List.getElem_drop]
      exact List.pairwise_iff_getElem.1 hs k (k + 1 + j) hk (by omega) (by omega)
    have hx2 := hr x (List.mem_of_mem_drop hx)
    refine ⟨hpv, wrapInt_of_range ?_ ?_⟩ <;> unfold INT_MIN INT_MAX at * <;> omega
  refine ⟨List.pairwise_append.2 ⟨hs.sublist (List.take_sublist _ _), ?_, ?_⟩, ?_⟩
  · rw [List.pairwise_map]
    refine List.Pairwise.imp_of_mem ?_ (hs.sublist (List.drop_sublist _ _))
    intro a b ha hb hab
    show wrapInt (a - 1) < wrapInt (b - 1)
    rw [(hafter a ha).2, (hafter b hb).2]
    omega
  · intro a ha b hb
    obtain ⟨x, hx, rfl⟩ := List.mem_map.1 hb
    show a < wrapInt (x - 1)
    rw [(hafter x hx).2]
    have := hbefore a ha
    have := (hafter x hx).1
    omega
  · intro x hx
    rcases List.mem_append.1 hx with h | h
    · exact hr x (List.mem_of_mem_take h)
    · obtain ⟨y, hy, rfl⟩ := List.mem_map.1 h
      show INT_MIN ≤ wrapInt (y - 1) ∧ wrapInt (y - 1) ≤ INT_MAX
      rw [(hafter y hy).2]
      have := (hafter y hy).1
      have := hr y (List.mem_of_mem_drop hy)
      unfold INT_MIN INT_MAX at *
      constructor <;> omega

/-- `removeLevel` on a textual column whose codes are ascending: the call
returns and the codes are ascending again. -/
theorem removeLevel_text_ascending (c : ColumnW) (ht : c.dataType = DataType.TEXT)
    (ha : c.LevelsAscending) (hr : c.LevelsInRange) (v : Int)
    (hex : ∃ l ∈ c.s.levels, l.value = v) :
    ∃ c1, c.removeLevel v = some c1 ∧ c1.dataType = DataType.TEXT ∧
      c1.LevelsAscending ∧ c1.LevelsInRange ∧
      c1.levelsUsed + 1 = c.levelsUsed ∧ c1.s.levelsCapacity = c.s.levelsCapacity := by
  obtain ⟨c1, hcall⟩ := removeLevel_total c v hex
  have hlt : scanLevels c.s.levels v < c.s.levels.length := by
    have hle := scanLevels_le c.s.levels v
    have hne : ¬ scanLevels c.s.levels v = c.s.levels.length := by
      intro e
      obtain ⟨l, hl, hv⟩ := hex
      exact (scanLevels_eq_length_iff _ _).1 e l hl hv
    omega
  have hlev : c1.s.levels = c.s.levels.take (scanLevels c.s.levels v) ++
      (c.s.levels.drop (scanLevels c.s.levels v + 1)).map
        (fun l => { l with value := wrapInt (l.value - 1) }) := by
    have h := hcall
    rw [removeLevel_text ht v hlt] at h
    injection h with h
    subst h
    show (consolidateRows _ _ _).s.levels = _
    rw [(consolidateRows_frame _ _ _).levels]
    show List.take _ (List.eraseIdx _ _) ++ List.map _ (List.drop _ (List.eraseIdx _ _)) = _
    rw [eraseIdx_take _ _ hlt, eraseIdx_drop _ _ hlt]
  have hdt : c1.dataType = DataType.TEXT := by
    have h := hcall
    rw [removeLevel_text ht v hlt] at h
    injection h with h
    subst h
    show (consolidateRows _ _ _).s.dataType = _
    rw [(consolidateRows_frame _ _ _).dataType]
    exact ht
  have hvals : c1.s.levels.map (·.value)
      = (c.s.levels.map (·.value)).take (scanLevels c.s.levels v) ++
        ((c.s.levels.map (·.value)).drop (scanLevels c.s.levels v + 1)).map
          (fun x => wrapInt (x - 1)) := by
    rw [hlev]
    simp only [List.map_append, List.map_take, List.map_drop, List.map_map]
    rfl
  obtain ⟨p1, p2⟩ := consolidated_ascending (c.s.levels.map (fun l : Level => l.value))
    (scanLevels c.s.levels v) (by rw [List.length_map]; exact hlt) ha
    (fun x hx => by
      obtain ⟨l, hl, rfl⟩ := List.mem_map.1 hx
      exact hr l hl)
  refine ⟨c1, hcall, hdt, ?_, ?_, (removeLevel_changes hcall).2, removeLevel_capacity hcall⟩
  · unfold LevelsAscending; rw [hvals]; exact p1
  · intro l hl
    exact p2 l.value (by rw [← hvals]; exact List.mem_map_of_mem _ hl)

theorem unique_of_ascending {c : ColumnW} (ha : c.LevelsAscending) : c.UniqueLevels :=
  List.Pairwise.imp (fun h => ne_of_lt h) ha

/-- `removeLevel` keeps ascending codes ascending, on a textual column and on
any other. -/
theorem removeLevel_ascending {c c1 : ColumnW} {v : Int} (ha : c.LevelsAscending)
    (hr : c.LevelsInRange) (h : c.removeLevel v = some c1) :
    c1.LevelsAscending ∧ c1.LevelsInRange ∧ c1.dataType = c.dataType := by
  by_cases ht : c.dataType = DataType.TEXT
  · have hex : ∃ l ∈ c.s.levels, l.value = v := by
      by_contra hne
      have he : scanLevels c.s.levels v = c.levelsUsed :=
        (scanLevels_eq_length_iff _ _).2 (fun l hl hv => hne ⟨l, hl, hv⟩)
      unfold removeLevel at h
      simp only [if_pos he] at h
      exact Option.noConfusion h
    obtain ⟨c2, h2, a1, a2, a3, -, -⟩ := removeLevel_text_ascending c ht ha hr v hex
    rw [h2] at h
    injection h with h
    subst h
    exact ⟨a2, a3, a1.trans ht.symm⟩
  · rw [removeLevel_some_not_text ht h]
    refine ⟨?_, ?_, rfl⟩
    · exact List.Pairwise.sublist ((List.eraseIdx_sublist _ _).map _) ha
    · intro l hl
      exact hr l ((List.eraseIdx_sublist _ _).subset hl)

theorem trimSweep_ascending (fuel : Nat) : ∀ (i : Nat) (c c1 : ColumnW),
    c.LevelsAscending → c.LevelsInRange → trimSweep fuel i c = some c1 →
    c1.LevelsAscending := by
  induction fuel with
  | zero =>
    intro i c c1 ha _ h
    simp only [trimSweep] at h
    split at h
    · exact Option.noConfusion h
    · injection h with h; subst h; exact ha
  | succ fuel ih =>
    intro i c c1 ha hr h
    simp only [trimSweep] at h
    split at h
    · split at h
      · cases hrem : c.removeLevel (c.s.levels.getD i default).value with
        | none => rw [hrem] at h; exact Option.noConfusion h
        | some c2 =>
          rw [hrem, Option.some_bind] at h
          obtain ⟨a1, a2, -⟩ := removeLevel_ascending ha hr hrem
          exact ih i c2 c1 a1 a2 h
      · exact ih (i + 1) c c1 ha hr h
    · injection h with h; subst h; exact ha

theorem retireOld_ascending {c c1 : ColumnW} {r : Nat} {old : Int}
    (hcap : c.levelsUsed ≤ c.s.levelsCapacity) (ha : c.LevelsAscending)
    (hr : c.LevelsInRange) (h : c.retireOld r old = some c1) :
    c1.LevelsAscending ∧ c1.levelsUsed ≤ c1.s.levelsCapacity := by
  unfold retireOld at h
  split at h
  · split at h
    · exact Option.noConfusion h
    · rename_i k hk
      dsimp only at h
      have hvals : (c.s.levels.modify (fun l => { l with count := wrapInt (l.count - 1) })
          k).map (fun l : Level => l.value) = c.s.levels.map (fun l : Level => l.value) :=
        map_value_modify _ (by intro l; rfl) _ _
      have hlen : (c.s.levels.modify (fun l => { l with count := wrapInt (l.count - 1) })
          k).length = c.s.levels.length := List.length_modify _ _ _
      have ha1 : (c.withLevels (c.s.levels.modify
          (fun l => { l with count := wrapInt (l.count - 1) }) k)).LevelsAscending := by
        unfold LevelsAscending
        show (List.map (fun l : Level => l.value) (List.modify _ _ _)).Pairwise _
        rw [hvals]; exact ha
      have hr1 : (c.withLevels (c.s.levels.modify
          (fun l => { l with count := wrapInt (l.count - 1) }) k)).LevelsInRange := by
        intro l hl
        have : l.value ∈ c.s.levels.map (fun l : Level => l.value) := by
          rw [← hvals]; exact List.mem_map_of_mem _ hl
        obtain ⟨l0, hl0, e⟩ := List.mem_map.1 this
        rw [← e]; exact hr l0 hl0
      split at h
      · obtain ⟨a1, -, -⟩ := removeLevel_ascending ha1 hr1 h
        refine ⟨a1, ?_⟩
        have e1 := (removeLevel_changes h).2
        have e2 := removeLevel_capacity h
        rw [e2]
        have e3 : (c.withLevels (c.s.levels.modify
            (fun l => { l with count := wrapInt (l.count - 1) }) k)).levelsUsed
              = c.levelsUsed := hlen
        show c1.levelsUsed ≤ c.s.levelsCapacity
        omega
      · split at h
        · injection h with h; subst h
          refine ⟨?_, ?_⟩
          · unfold LevelsAscending
            show (List.map (fun l : Level => l.value) (List.modify _ _ _)).Pairwise _
            rw [map_value_modify _ (by intro l; rfl)]; exact ha1
          · show (List.modify _ _ _).length ≤ c.s.levelsCapacity
            exact (List.length_modify _ _ _).le.trans (hlen.le.trans hcap)
        · injection h with h; subst h
          exact ⟨ha1, hlen.le.trans hcap⟩
  · injection h with h; subst h; exact ⟨ha, hcap⟩

/-- `insertLevel` of a value that is not there puts it where ascending codes
stay ascending. -/
theorem insertLevel_ascending {c c1 : ColumnW} {v : Int} {label : String}
    {imp : Option String} (hcap : c.levelsUsed ≤ c.s.levelsCapacity)
    (ha : c.LevelsAscending) (hv : ∀ l ∈ c.s.levels, l.value ≠ v)
    (h : c.insertLevel v label imp = some c1) : c1.LevelsAscending := by
  obtain ⟨p, slot, ci, hp, hcall, -, hlev, -, hasc, -, -⟩ :=
    insertLevel_spec c v label imp hcap hv
  rw [hcall] at h
  injection h with h
  subst h
  obtain ⟨a1, a2⟩ := hasc (ascendingRun_of_pairwise _ ha)
  have hp' : p ≤ c.s.levels.length := hp
  unfold LevelsAscending
  rw [hlev, values_insert]
  refine pairwise_insert _ _ p v ha (fun b hb => ?_) (fun a hain => ?_)
  · obtain ⟨i, hi1, hi2, rfl⟩ := mem_drop_values _ _ _ hb
    rcases a1 i hi1 hi2 with ⟨-, hgt⟩ | ⟨hf, -⟩
    · exact hgt
    · exact absurd hf (by decide)
  · obtain ⟨i, hi1, hi2, rfl⟩ := mem_take_values _ _ _ hain
    have hlast : (c.s.levels.getD (p - 1) default).value < v := by
      have hne := hv (c.s.levels.getD (p - 1) default) (by
        rw [List.getD_eq_getElem _ _ (by omega)]
        exact List.getElem_mem _)
      have hns := a2 (by omega)
      have : ¬ (c.s.levels.getD (p - 1) default).value > v := fun hgt => hns (Or.inl ⟨rfl, hgt⟩)
      omega
    rcases Nat.lt_or_ge i (p - 1) with hlt | hge
    · exact lt_trans (pairwise_values_getD _ ha i (p - 1) hlt (by omega)) hlast
    · have : i = p - 1 := by omega
      rw [this]; exact hlast

theorem countNew_ascending {c c1 : ColumnW} {r : Nat} {v : Int}
    (hcap : c.levelsUsed ≤ c.s.levelsCapacity) (ha : c.LevelsAscending)
    (h : c.countNew r v = some c1) : c1.LevelsAscending := by
  unfold countNew at h
  split at h
  · simp only [Option.bind_eq_some] at h
    obtain ⟨c0, h0, h⟩ := h
    have e0 : c0.LevelsAscending := by
      split at h0
      · rename_i hraw
        have hfound : scanLevels c.s.levels v = c.levelsUsed := by
          unfold rawLevel at hraw
          dsimp only at hraw
          by_contra hne
          rw [if_neg hne] at hraw
          exact Option.noConfusion hraw
        exact insertLevel_ascending hcap ha ((scanLevels_eq_length_iff _ _).1 hfound) h0
      · injection h0 with h0; subst h0; exact ha
    split at h
    · exact Option.noConfusion h
    · have hm : ∀ k, ((c0.s.levels.modify
          (fun l => { l with count := wrapInt (l.count + 1) }) k).map
            (fun l : Level => l.value)).Pairwise (· < ·) := by
        intro k
        rw [map_value_modify _ (by intro l; rfl)]; exact e0
      split at h
      · injection h with h; subst h
        unfold LevelsAscending
        show (List.map (fun l : Level => l.value) (List.modify _ _ _)).Pairwise _
        rw [map_value_modify _ (by intro l; rfl)]; exact hm _
      · injection h with h; subst h
        exact hm _
  · injection h with h; subst h; exact ha

theorem setIValue_ascending {c c1 : ColumnW} {r : Nat} {v : Int} {initing : Bool}
    (hcap : c.levelsUsed ≤ c.s.levelsCapacity) (ha : c.LevelsAscending)
    (hr : c.LevelsInRange) (h : c.setIValue r v initing = some c1) :
    c1.LevelsAscending := by
  unfold setIValue at h
  split at h
  · exact Option.noConfusion h
  · split at h
    · injection h with h; subst h; exact ha
    · split at h
      · dsimp only at h
        split at h
        · injection h with h; subst h; exact ha
        · simp only [Option.bind_eq_some, Option.map_eq_some'] at h
          obtain ⟨c0, hret, c2, hc, rfl⟩ := h
          obtain ⟨u1, u2⟩ := retireOld_ascending hcap ha hr hret
          show c2.LevelsAscending
          exact countNew_ascending u2 u1 hc
      · simp only [Option.map_eq_some'] at h
        obtain ⟨c2, hc, rfl⟩ := h
        show c2.LevelsAscending
        exact countNew_ascending hcap ha hc

/-- C15 (as amended): on a column whose dictionary array has room for its
entries and whose coded values are pairwise distinct. If the column is not
textual, or its codes are stored in ascending order (as the positional codes
of a textual column are) and are values of an `int`, then `removeLevel` of a
value that is there and `setTrimLevels` return with the coded values pairwise
distinct, and so does `setIValue` whenever it returns, which it does on a
column that is not decimal when the cell it replaces is missing or has a
level. `insertLevel` of a value that is not there returns with the coded
values pairwise distinct on every such column, textual or not, ordered or
not. -/
theorem unique_levels_kept (c : ColumnW) (hcap : c.levelsUsed ≤ c.s.levelsCapacity)
    (hn : c.UniqueLevels) :
    ((c.dataType ≠ DataType.TEXT ∨ (c.LevelsAscending ∧ c.LevelsInRange)) →
      (∀ v, (∃ l ∈ c.s.levels, l.value = v) →
        ∃ c1, c.removeLevel v = some c1 ∧ c1.UniqueLevels) ∧
      (∀ trim, ∃ c1, c.setTrimLevels trim = some c1 ∧ c1.UniqueLevels) ∧
      (∀ r v initing c1, c.setIValue r v initing = some c1 → c1.UniqueLevels) ∧
      (∀ r v initing, c.dataType ≠ DataType.DECIMAL →
        (c.ivalue r = INT_MIN ∨ ∃ l ∈ c.s.levels, l.value = c.ivalue r) →
        ∃ c1, c.setIValue r v initing = some c1 ∧ c1.UniqueLevels)) ∧
    (∀ v label imp, (∀ l ∈ c.s.levels, l.value ≠ v) →
      ∃ c1, c.insertLevel v label imp = some c1 ∧ c1.UniqueLevels) := by
  have hins : ∀ v label imp, (∀ l ∈ c.s.levels, l.value ≠ v) →
      ∃ c1, c.insertLevel v label imp = some c1 ∧ c1.UniqueLevels := by
    intro v label imp hv
    obtain ⟨p, slot, c1, -, hcall, -⟩ := insertLevel_spec c v label imp hcap hv
    exact ⟨c1, hcall, (insertLevel_unique hcap hn hv hcall).1⟩
  have hrem : ∀ v c1, c.removeLevel v = some c1 →
      (c.dataType ≠ DataType.TEXT ∨ (c.LevelsAscending ∧ c.LevelsInRange)) →
      c1.UniqueLevels := by
    intro v c1 h hdom
    rcases hdom with ht | ⟨ha, hr⟩
    · rw [removeLevel_some_not_text ht h]
      exact nodup_eraseIdx_values _ _ hn
    · exact unique_of_ascending (removeLevel_ascending ha hr h).1
  have htrim : ∀ trim c1, c.setTrimLevels trim = some c1 →
      (c.dataType ≠ DataType.TEXT ∨ (c.LevelsAscending ∧ c.LevelsInRange)) →
      c1.UniqueLevels := by
    intro trim c1 h hdom
    unfold setTrimLevels at h
    split at h
    · injection h with h; subst h; exact hn
    · simp only [Option.map_eq_some'] at h
      obtain ⟨c0, h0, rfl⟩ := h
      show c0.UniqueLevels
      cases trim with
      | true =>
        simp only [if_true] at h0
        rcases hdom with ht | ⟨ha, hr⟩
        · exact trimSweep_unique _ 0 c c0 ht hn h0
        · exact unique_of_ascending (trimSweep_ascending _ 0 c c0 ha hr h0)
      | false =>
        simp only [Bool.false_eq_true, if_false] at h0
        injection h0 with h0; subst h0; exact hn
  have hset : ∀ r v initing c1, c.setIValue r v initing = some c1 →
      (c.dataType ≠ DataType.TEXT ∨ (c.LevelsAscending ∧ c.LevelsInRange)) →
      c1.UniqueLevels := by
    intro r v initing c1 h hdom
    rcases hdom with ht | ⟨ha, hr⟩
    · unfold setIValue at h
      split at h
      · exact Option.noConfusion h
      · split at h
        · injection h with h; subst h; exact hn
        · split at h
          · dsimp only at h
            split at h
            · injection h with h; subst h; exact hn
            · simp only [Option.bind_eq_some, Option.map_eq_some'] at h
              obtain ⟨c0, hret, c2, hc, rfl⟩ := h
              obtain ⟨u1, u2, -⟩ := retireOld_unique ht hcap hn hret
              show c2.UniqueLevels
              exact countNew_unique u2 u1 hc
          · simp only [Option.map_eq_some'] at h
            obtain ⟨c2, hc, rfl⟩ := h
            show c2.UniqueLevels
            exact countNew_unique hcap hn hc
    · exact unique_of_ascending (setIValue_ascending hcap ha hr h)
  refine ⟨fun hdom => ⟨fun v hex => ?_, fun trim => ?_, fun r v initing c1 h => ?_,
    fun r v initing hd hold => ?_⟩, hins⟩
  · obtain ⟨c1, hcall⟩ := removeLevel_total c v hex
    exact ⟨c1, hcall, hrem v c1 hcall hdom⟩
  · obtain ⟨c1, hcall⟩ := setTrimLevels_total c trim
    exact ⟨c1, hcall, htrim trim c1 hcall hdom⟩
  · exact hset r v initing c1 h hdom
  · obtain ⟨c1, hcall⟩ := setIValue_total c r v initing hd hcap hold
    exact ⟨c1, hcall, hset r v initing c1 hcall hdom⟩

/-- C15, an instance of `unique_levels_kept`: on the textual column
`textAscending`, with the codes `2, 3, 9`, the trim removes the level `3` and
renumbers the level `9` to `8`, and a cell write returns; the codes stay
distinct. On the integer column `trimInteger` they do as well. -/
theorem unique_levels_kept_witness :
    textAscending.levelsUsed ≤ textAscending.s.levelsCapacity ∧ textAscending.UniqueLevels ∧
    textAscending.dataType = DataType.TEXT ∧
    textAscending.LevelsAscending ∧ textAscending.LevelsInRange ∧
    (textAscending.setTrimLevels true).map (fun c => c.s.levels.map (·.value)) = some [2, 8] ∧
    (∃ c1, textAscending.setTrimLevels true = some c1 ∧ c1.UniqueLevels) ∧
    (∃ c1, textAscending.setIValue 0 9 false = some c1 ∧ c1.UniqueLevels) ∧
    (∃ c1, trimInteger.setTrimLevels true = some c1 ∧ c1.UniqueLevels) :=
  ⟨by decide, by unfold UniqueLevels; decide, by decide,
   by unfold LevelsAscending; decide, by unfold LevelsInRange; decide, by decide,
   ((unique_levels_kept textAscending (by decide) (by unfold UniqueLevels; decide)).1
      (Or.inr ⟨by unfold LevelsAscending; decide, by unfold LevelsInRange; decide⟩)).2.1 true,
   ((unique_levels_kept textAscending (by decide) (by unfold UniqueLevels; decide)).1
      (Or.inr ⟨by unfold LevelsAscending; decide, by unfold LevelsInRange; decide⟩)).2.2.2
      0 9 false (by decide) (by decide),
   ((unique_levels_kept trimInteger (by decide) (by unfold UniqueLevels; decide)).1
      (Or.inl (by decide))).2.1 true⟩

/-- C15: a textual dictionary whose distinct codes are not stored in ascending
order, `2, 9, 3`: removing `9` lowers the code of the entry behind it, and two
levels hold the code `2`. -/
theorem removeLevel_text_duplicates :
    textSparse.dataType = DataType.TEXT ∧
    textSparse.s.levels.map (·.value) = [2, 9, 3] ∧
    (textSparse.removeLevel 9).map (fun c => c.s.levels.map (·.value)) = some [2, 2] := by
  decide

/-! ## Row block store: rows and blocks -/

/-- What `insertRows` does outside the cells. -/
theorem insertRows_frame (c : ColumnW) (insStart insEnd : Nat) :
    (c.insertRows insStart insEnd).s.rowCount = c.rowCount + (insEnd + 1 - insStart) ∧
    (c.insertRows insStart insEnd).s.blocksUsed
      = c.s.blocksUsed + ((c.rowCount + (insEnd + 1 - insStart))
          * (if c.dataType = DataType.DECIMAL then 8 else 4) / c.VALUES_SPACE + 1
          - c.s.blocksUsed) ∧
    (c.insertRows insStart insEnd).s.dataType = c.s.dataType ∧
    (c.insertRows insStart insEnd).s.measureType = c.s.measureType ∧
    (c.insertRows insStart insEnd).VALUES_SPACE = c.VALUES_SPACE := by
  unfold insertRows
  dsimp only
  split
  · have f1 := foldl_sameFrame (fun a j => a.setCellDouble j none)
      (fun a j => sameFrame_setCellDouble a j none)
    have f2 := foldl_sameFrame
      (fun a j => a.setCellDouble j (a.cellAtDouble (j - (insEnd + 1 - insStart))))
      (fun a j => sameFrame_setCellDouble a j _)
    obtain ⟨s1, -, s3, -, s5, s6, s7, -⟩ :=
      setRowCount_frame c 8 (c.rowCount + (insEnd + 1 - insStart))
    refine ⟨?_, ?_, ?_, ?_, ?_⟩
    · rw [(f1 _ _).rowCount, (f2 _ _).rowCount]; exact s3
    · rw [(f1 _ _).blocksUsed, (f2 _ _).blocksUsed]; exact s1
    · rw [(f1 _ _).dataType, (f2 _ _).dataType]; exact s5
    · rw [(f1 _ _).measureType, (f2 _ _).measureType]; exact s6
    · rw [(f1 _ _).space, (f2 _ _).space]; exact s7
  · have f1 := foldl_sameFrame (fun a j => a.setCellInt j INT_MIN)
      (fun a j => sameFrame_setCellInt a j INT_MIN)
    have f2 := foldl_sameFrame
      (fun a j => a.setCellInt j (a.cellAtInt (j - (insEnd + 1 - insStart))))
      (fun a j => sameFrame_setCellInt a j _)
    obtain ⟨s1, -, s3, -, s5, s6, s7, -⟩ :=
      setRowCount_frame c 4 (c.rowCount + (insEnd + 1 - insStart))
    refine ⟨?_, ?_, ?_, ?_, ?_⟩
    · rw [(f1 _ _).rowCount, (f2 _ _).rowCount]; exact s3
    · rw [(f1 _ _).blocksUsed, (f2 _ _).blocksUsed]; exact s1
    · rw [(f1 _ _).dataType, (f2 _ _).dataType]; exact s5
    · rw [(f1 _ _).measureType, (f2 _ _).measureType]; exact s6
    · rw [(f1 _ _).space, (f2 _ _).space]; exact s7

theorem block_lt_of_rowCount (vs size rc blocks i : Nat) (hi : i < rc)
    (hb : rc * size / vs + 1 ≤ blocks) : i * size / vs < blocks := by
  have : i * size / vs ≤ rc * size / vs :=
    Nat.div_le_div_right (Nat.mul_le_mul_right size (Nat.le_of_lt hi))
  omega

/-- The rows `setRowCount<T>(count)` leaves lie in allocated blocks when
addressed as cells of type `T`. -/
theorem setRowCount_rows_in_blocks (c : ColumnW) (size count i : Nat) (hi : i < count) :
    (c.setRowCount size count).blockIndex size i < (c.setRowCount size count).s.blocksUsed := by
  obtain ⟨s1, -, -, -, -, -, s7, -⟩ := setRowCount_frame c size count
  unfold blockIndex
  rw [s7, s1]
  exact block_lt_of_rowCount _ _ count _ i hi (by omega)

theorem rowsAddressable_of_smaller (c c1 : ColumnW) (h : c.RowsAddressable)
    (hr : c1.rowCount = c.rowCount) (hv : c1.VALUES_SPACE = c.VALUES_SPACE)
    (hb : c1.s.blocksUsed = c.s.blocksUsed) (hs : c1.elementSize ≤ c.elementSize) :
    c1.RowsAddressable := by
  intro i hi
  have h0 := h i (hr ▸ hi)
  unfold blockIndex at h0 ⊢
  rw [hv, hb]
  exact lt_of_le_of_lt (Nat.div_le_div_right (Nat.mul_le_mul_left i hs)) h0

/-- Every path but one keeps the rows inside the allocated blocks:
`setDataType`, `setMeasureType`, and `insertRows` on a column that is decimal
or not an id column. -/
theorem rowsAddressable_kept (c : ColumnW) (h : c.RowsAddressable) :
    (∀ t, (c.setDataType t).RowsAddressable) ∧
    (∀ t, (c.setMeasureType t).RowsAddressable) ∧
    (∀ insStart insEnd, (c.measureType ≠ MeasureType.ID ∨ c.dataType = DataType.DECIMAL) →
      (c.insertRows insStart insEnd).RowsAddressable) := by
  refine ⟨fun t => ?_, fun t => ?_, fun a b hc => ?_⟩
  · unfold setDataType
    dsimp only
    split
    · rename_i ht
      generalize hc1 : bumpChanges { c with s := { c.s with dataType := t } } = c1
      have hd1 : c1.s.dataType = DataType.DECIMAL := by rw [← hc1]; exact ht
      obtain ⟨-, -, s3, -, s5, -, -, -⟩ := setRowCount_frame c1 8 c1.rowCount
      intro i hi
      have hsz : (c1.setRowCount 8 c1.rowCount).elementSize = 8 := by
        unfold elementSize
        have hd : (c1.setRowCount 8 c1.rowCount).dataType = DataType.DECIMAL := s5.trans hd1
        rw [if_pos hd]; split <;> rfl
      rw [hsz]
      exact setRowCount_rows_in_blocks c1 8 c1.rowCount i (by
        have : (c1.setRowCount 8 c1.rowCount).rowCount = c1.rowCount := s3
        omega)
    · rename_i ht
      refine rowsAddressable_of_smaller c _ h rfl rfl rfl ?_
      unfold elementSize
      show (if c.s.measureType = MeasureType.ID then 8
        else if t = DataType.DECIMAL then 8 else 4) ≤
        (if c.measureType = MeasureType.ID then 8
        else if c.dataType = DataType.DECIMAL then 8 else 4)
      rw [if_neg ht]
      show (if c.measureType = MeasureType.ID then 8 else 4) ≤ _
      split
      · exact le_refl _
      · split <;> omega
  · unfold setMeasureType
    dsimp only
    split
    · rename_i ht
      generalize hc1 : bumpChanges { c with s := { c.s with measureType := t } } = c1
      have hd1 : c1.s.measureType = MeasureType.ID := by rw [← hc1]; exact ht
      obtain ⟨-, -, s3, -, -, s6, -, -⟩ := setRowCount_frame c1 8 c1.rowCount
      intro i hi
      have hsz : (c1.setRowCount 8 c1.rowCount).elementSize = 8 := by
        unfold elementSize
        have hd : (c1.setRowCount 8 c1.rowCount).measureType = MeasureType.ID := s6.trans hd1
        rw [if_pos hd]
      rw [hsz]
      exact setRowCount_rows_in_blocks c1 8 c1.rowCount i (by
        have : (c1.setRowCount 8 c1.rowCount).rowCount = c1.rowCount := s3
        omega)
    · rename_i ht
      refine rowsAddressable_of_smaller c _ h rfl rfl rfl ?_
      unfold elementSize
      show (if t = MeasureType.ID then 8
        else if c.s.dataType = DataType.DECIMAL then 8 else 4) ≤
        (if c.measureType = MeasureType.ID then 8
        else if c.dataType = DataType.DECIMAL then 8 else 4)
      rw [if_neg ht]
      show (if c.dataType = DataType.DECIMAL then 8 else 4) ≤ _
      split
      · split <;> omega
      · split <;> omega
  · obtain ⟨i1, i2, i3, i4, i5⟩ := insertRows_frame c a b
    intro i hi
    have hsz : (c.insertRows a b).elementSize
        = if c.dataType = DataType.DECIMAL then 8 else 4 := by
      unfold elementSize
      show (if (c.insertRows a b).s.measureType = MeasureType.ID then 8
        else if (c.insertRows a b).s.dataType = DataType.DECIMAL then 8 else 4) = _
      rw [i3, i4]
      by_cases hd : c.dataType = DataType.DECIMAL
      · have hd2 : c.s.dataType = DataType.DECIMAL := hd
        rw [if_pos hd, if_pos hd2]; split <;> rfl
      · have hm : ¬ c.s.measureType = MeasureType.ID := by
          rcases hc with hc | hc
          · exact hc
          · exact absurd hc hd
        have hd2 : ¬ c.s.dataType = DataType.DECIMAL := hd
        rw [if_neg hm, if_neg hd2, if_neg hd]
    rw [hsz]
    unfold blockIndex
    rw [i5, i2]
    have hi2 : i < c.rowCount + (b + 1 - a) := by
      have : (c.insertRows a b).rowCount = c.rowCount + (b + 1 - a) := i1
      omega
    exact block_lt_of_rowCount _ _ _ _ i hi2 (by omega)

/-- C16: a new column with blocks of `vs` bytes (a multiple of four, at least
eight) that is made an id column and then given `vs / 4 + 1` rows by
`insertRows`: the rows are text references of eight bytes, `insertRows` has
asked `setRowCount<int>` for the blocks of four-byte cells, so the directory
holds two blocks while the last row lies in block `2`. -/
theorem insertRows_id_blocks (vs : Nat) (h4 : 4 ∣ vs) (h8 : 8 ≤ vs) :
    (((emptyColumn vs).setMeasureType MeasureType.ID).insertRows 0 (vs / 4)).measureType
      = MeasureType.ID ∧
    (((emptyColumn vs).setMeasureType MeasureType.ID).insertRows 0 (vs / 4)).elementSize = 8 ∧
    (((emptyColumn vs).setMeasureType MeasureType.ID).insertRows 0 (vs / 4)).rowCount
      = vs / 4 + 1 ∧
    (((emptyColumn vs).setMeasureType MeasureType.ID).insertRows 0 (vs / 4)).s.blocksUsed = 2 ∧
    (((emptyColumn vs).setMeasureType MeasureType.ID).insertRows 0 (vs / 4)).blockIndex 8
      (vs / 4) = 2 ∧
    ¬ (((emptyColumn vs).setMeasureType MeasureType.ID).insertRows 0 (vs / 4)).RowsAddressable := by
  obtain ⟨k, hk⟩ := h4
  have hdiv : vs / 4 = k := by omega
  set c0 := (emptyColumn vs).setMeasureType MeasureType.ID with hc0
  have e0 : c0 = ((bumpChanges { emptyColumn vs with
      s := { (emptyColumn vs).s with measureType := MeasureType.ID } }).setRowCount 8 0) := by
    rw [hc0]; unfold setMeasureType; rw [if_pos rfl]; rfl
  obtain ⟨a1, -, a3, -, a5, a6, a7, -⟩ := setRowCount_frame
    (bumpChanges { emptyColumn vs with
      s := { (emptyColumn vs).s with measureType := MeasureType.ID } }) 8 0
  rw [← e0] at a1 a3 a5 a6 a7
  have b1 : c0.s.blocksUsed = 1 := by
    rw [a1]
    show 0 + (0 * 8 / vs + 1 - 0) = 1
    simp
  have b3 : c0.rowCount = 0 := a3
  have b5 : c0.dataType = DataType.INTEGER := a5
  have b6 : c0.s.measureType = MeasureType.ID := a6
  have b7 : c0.VALUES_SPACE = vs := a7
  obtain ⟨i1, i2, i3, i4, i5⟩ := insertRows_frame c0 0 (vs / 4)
  have hrow : (c0.insertRows 0 (vs / 4)).rowCount = vs / 4 + 1 := by
    show (c0.insertRows 0 (vs / 4)).s.rowCount = _
    rw [i1, b3]; omega
  have hm : (c0.insertRows 0 (vs / 4)).measureType = MeasureType.ID := by
    show (c0.insertRows 0 (vs / 4)).s.measureType = _
    rw [i4, b6]
  have hsz : (c0.insertRows 0 (vs / 4)).elementSize = 8 := by
    unfold elementSize; rw [if_pos hm]
  have hq : (k + 1) * 4 / vs = 1 :=
    Nat.div_eq_of_lt_le (by omega) (by omega)
  have hbl : (c0.insertRows 0 (vs / 4)).s.blocksUsed = 2 := by
    rw [i2, b1, b3, b5, b7, if_neg (by decide), hdiv]
    have : 0 + (k + 1 - 0) = k + 1 := by omega
    rw [this, hq]
  have hidx : (c0.insertRows 0 (vs / 4)).blockIndex 8 (vs / 4) = 2 := by
    unfold blockIndex
    rw [i5, b7, hdiv]
    have : k * 8 = vs * 2 := by omega
    rw [this, Nat.mul_div_cancel_left _ (by omega)]
  refine ⟨hm, hsz, hrow, hbl, hidx, fun h => ?_⟩
  have := h (vs / 4) (by rw [hrow]; omega)
  rw [hsz, hidx, hbl] at this
  omega

/-- C16, an instance of `insertRows_id_blocks` with blocks of sixteen bytes:
five rows, two blocks, and the fifth row in a third block. -/
theorem insertRows_id_blocks_witness :
    4 ∣ 16 ∧ 8 ≤ 16 ∧ idColumn.rowCount = 5 ∧ idColumn.s.blocksUsed = 2 ∧
    idColumn.blockIndex idColumn.elementSize 4 = 2 ∧ ¬ idColumn.RowsAddressable :=
  ⟨by decide, by decide, (insertRows_id_blocks 16 (by decide) (by decide)).2.2.1,
   (insertRows_id_blocks 16 (by decide) (by decide)).2.2.2.1,
   by decide, (insertRows_id_blocks 16 (by decide) (by decide)).2.2.2.2.2⟩

/-! ## Level dictionary: what the detection loop reads -/

theorem ascendingRun_snoc (init : List Level) (x : Level) :
    AscendingRun (init ++ [x]) ↔
      AscendingRun init ∧
        (0 < init.length → (init.getD (init.length - 1) default).value ≤ x.value) := by
  unfold AscendingRun
  constructor
  · intro h
    refine ⟨fun i hi => ?_, fun hpos => ?_⟩
    · have := h i (by rw [List.length_append, List.length_singleton]; omega)
      rw [List.getD_append _ _ _ _ (by omega), List.getD_append _ _ _ _ (by omega)] at this
      exact this
    · have := h (init.length - 1) (by rw [List.length_append, List.length_singleton]; omega)
      rw [List.getD_append _ _ _ _ (by omega),
        show init.length - 1 + 1 = init.length by omega,
        List.getD_append_right _ _ _ _ (le_refl _), Nat.sub_self] at this
      exact this
  · rintro ⟨h1, h2⟩ i hi
    rw [List.length_append, List.length_singleton] at hi
    by_cases hlt : i + 1 < init.length
    · rw [List.getD_append _ _ _ _ (by omega), List.getD_append _ _ _ _ (by omega)]
      exact h1 i hlt
    · have e : i = init.length - 1 := by omega
      have hpos : 0 < init.length := by omega
      subst e
      rw [List.getD_append _ _ _ _ (by omega),
        show init.length - 1 + 1 = init.length by omega,
        List.getD_append_right _ _ _ _ (le_refl _), Nat.sub_self]
      exact h2 hpos

/-- C17 (as amended): the detection loop of `insertLevel` compares every pair of
neighbours among the pre-existing entries, the last pre-existing entry
included. The flag `ascending` is set exactly when every pre-existing entry is
at most its successor, `descending` when every one is at least its successor;
with `x` the last pre-existing entry and `init` the entries before it,
`ascending` holds exactly when `init` is ascending and its last entry is at
most `x`. When neither flag is set the new level stays at the tail. -/
theorem insertLevel_detection (c : ColumnW) (v : Int) (label : String) (imp : Option String)
    (hcap : c.levelsUsed ≤ c.s.levelsCapacity) :
    ((detectOrder (c.appendLevel v label imp).s.levels
        ((c.appendLevel v label imp).levelsUsed - 1)).1 = true ↔ AscendingRun c.s.levels) ∧
    ((detectOrder (c.appendLevel v label imp).s.levels
        ((c.appendLevel v label imp).levelsUsed - 1)).2 = true ↔ DescendingRun c.s.levels) ∧
    (∀ init x, c.s.levels = init ++ [x] →
      ((detectOrder (c.appendLevel v label imp).s.levels
          ((c.appendLevel v label imp).levelsUsed - 1)).1 = true ↔
        AscendingRun init ∧
          (0 < init.length → (init.getD (init.length - 1) default).value ≤ x.value))) ∧
    ((∀ l ∈ c.s.levels, l.value ≠ v) → ¬ AscendingRun c.s.levels →
      ¬ DescendingRun c.s.levels →
      ∃ c1, c.insertLevel v label imp = some c1 ∧
        c1.s.levels = c.s.levels ++ [appendedLevel c v label imp]) := by
  have hl := appendLevel_levels c v label imp hcap
  have hu : (c.appendLevel v label imp).levelsUsed - 1 = c.s.levels.length := by
    rw [appendLevel_levelsUsed]; unfold levelsUsed; omega
  obtain ⟨d1, d2⟩ := detectOrder_append c.s.levels (appendedLevel c v label imp)
  rw [hl, hu]
  refine ⟨d1, d2, fun init x hx => ?_, fun hv ha hd => ?_⟩
  · rw [d1, hx]; exact ascendingRun_snoc init x
  · obtain ⟨p, slot, c1, -, hcall, -, hlev, hslot, -, -, htail⟩ :=
      insertLevel_spec c v label imp hcap hv
    have hp := htail ha hd
    refine ⟨c1, hcall, ?_⟩
    rcases hslot with ⟨-, hs⟩ | ⟨hlt, -⟩
    · rw [hlev, hp, hs]
      unfold levelsUsed
      rw [List.take_length, List.drop_length]
      rfl
    · omega

/-- C17, an instance of `insertLevel_detection`: the dictionary `1, 2, 0` is
not ascending, and the flag `ascending` is not set. -/
theorem insertLevel_detection_witness :
    (dictionaryOf [1, 2, 0]).levelsUsed ≤ (dictionaryOf [1, 2, 0]).s.levelsCapacity ∧
    ¬ AscendingRun (dictionaryOf [1, 2, 0]).s.levels ∧
    (detectOrder ((dictionaryOf [1, 2, 0]).appendLevel 5 "5" none).s.levels
      (((dictionaryOf [1, 2, 0]).appendLevel 5 "5" none).levelsUsed - 1)).1 ≠ true :=
  ⟨by decide,
   fun h => absurd ((insertLevel_detection (dictionaryOf [1, 2, 0]) 5 "5" none
      (by decide)).1.2 h) (by decide),
   by decide⟩

/-- C17: the dictionaries `1, 2, 9` and `1, 2, 0` differ in the coded value of
their last entry only; the first is classified ascending and the new level `5`
goes before the `9`, the second is classified neither ascending nor descending
and the new level stays at the tail. -/
theorem detection_reads_last_entry :
    detectOrder ((dictionaryOf [1, 2, 9]).appendLevel 5 "5" none).s.levels 3 = (true, false) ∧
    detectOrder ((dictionaryOf [1, 2, 0]).appendLevel 5 "5" none).s.levels 3 = (false, false) ∧
    ((dictionaryOf [1, 2, 9]).insertLevel 5 "5" none).map (fun c => c.s.levels.map (·.value))
      = some [1, 2, 5, 9] ∧
    ((dictionaryOf [1, 2, 0]).insertLevel 5 "5" none).map (fun c => c.s.levels.map (·.value))
      = some [1, 2, 0, 5] := by
  decide

/-! ## Cell accessors: the level a written row refers to -/

/-- C18: two textual columns with `trimLevels` enabled that satisfy the
invariants of the data model, and the write `setIValue(0, 2)` that retires the
only row of level `0`. The code `2` denotes the level `"c"` when the call is
made. The removal of level `0` renumbers the levels before the new value is
looked up: in the first column no level has the code `2` any more and row `0`
ends on a level `"2"` created for it, in the second the code `2` now belongs
to the level `"d"` and row `0` ends on that one. -/
theorem setIValue_text_trim_other_level :
    (textTrimmed.UniqueLevels ∧ textTrimmed.EveryCellHasLevel ∧ textTrimmed.CountsExact) ∧
    textTrimmed.levelTextOf 2 = some ("c", "c") ∧
    (textTrimmed.setIValue 0 2 false).map (fun c => c.rowLevelText 0) = some (some ("2", "2")) ∧
    (textFour.UniqueLevels ∧ textFour.EveryCellHasLevel ∧ textFour.CountsExact) ∧
    textFour.levelTextOf 2 = some ("c", "c") ∧
    (textFour.setIValue 0 2 false).map (fun c => c.rowLevelText 0) = some (some ("d", "d")) ∧
    (textFour.setIValue 0 2 false).map
        (fun c => (c.rows, c.s.levels.map (fun l => (l.value, l.label, l.count))))
      = some ([2, 0, 1, 2], [(0, "b", 1), (1, "c", 1), (2, "d", 2)]) := by
  refine ⟨⟨by unfold UniqueLevels; decide, by unfold EveryCellHasLevel; decide,
    by unfold CountsExact occurrences occurrencesIn; decide⟩, by decide, by decide,
    ⟨by unfold UniqueLevels; decide, by unfold EveryCellHasLevel; decide,
    by unfold CountsExact occurrences occurrencesIn; decide⟩, by decide, by decide, by decide⟩

/-! ## Level dictionary: what insertion leaves of the old entries -/

theorem eraseIdx_insert (pre : List Level) (p : Nat) (hp : p ≤ pre.length) (x : Level) :
    (pre.take p ++ x :: pre.drop p).eraseIdx p = pre ∧
    (pre.take p ++ x :: pre.drop p).getD p default = x ∧
    (pre.take p ++ x :: pre.drop p).length = pre.length + 1 := by
  have hlen : (pre.take p).length = p := by rw [List.length_take]; omega
  refine ⟨?_, ?_, ?_⟩
  · rw [List.eraseIdx_append_of_length_le (by omega), hlen, Nat.sub_self]
    show pre.take p ++ pre.drop p = pre
    exact List.take_append_drop p pre
  · rw [List.getD_append_right _ _ _ _ (by omega), hlen, Nat.sub_self]
    rfl
  · rw [List.length_append, List.length_cons, ← Nat.add_assoc, ← List.length_append,
      List.take_append_drop]

theorem countP_insert (pre : List Level) (p : Nat) (x : Level) (q : Level → Bool)
    (hx : q x = true) (hpre : ∀ l ∈ pre, q l = false) :
    (pre.take p ++ x :: pre.drop p).countP q = 1 := by
  rw [List.countP_append, List.countP_cons_of_pos _ _ hx]
  have h1 : (pre.take p).countP q = 0 :=
    List.countP_eq_zero.2 (fun l hl => by rw [hpre l (List.mem_of_mem_take hl)]; decide)
  have h2 : (pre.drop p).countP q = 0 :=
    List.countP_eq_zero.2 (fun l hl => by rw [hpre l (List.mem_of_mem_drop hl)]; decide)
  omega

/-- C19: for a dictionary whose array has room for its entries and a value no
entry holds, `insertLevel` returns, the result holds the value in exactly one
entry, at some position `p`, with both counters zero; deleting that entry
gives back the sequence of levels as it was before the call, record for
record; and the used count has grown by one. -/
theorem insertLevel_keeps_levels (c : ColumnW) (v : Int) (label : String)
    (imp : Option String) (hcap : c.levelsUsed ≤ c.s.levelsCapacity)
    (hv : ∀ l ∈ c.s.levels, l.value ≠ v) :
    ∃ c1 p, c.insertLevel v label imp = some c1 ∧ p ≤ c.levelsUsed ∧
      (c1.s.levels.getD p default).value = v ∧
      (c1.s.levels.getD p default).label = label ∧
      (c1.s.levels.getD p default).importValue = imp.getD label ∧
      (c1.s.levels.getD p default).count = 0 ∧
      (c1.s.levels.getD p default).countExFiltered = 0 ∧
      c1.s.levels.countP (fun l => decide (l.value = v)) = 1 ∧
      c1.s.levels.eraseIdx p = c.s.levels ∧
      c1.levelsUsed = c.levelsUsed + 1 := by
  obtain ⟨p, slot, c1, hp, hcall, -, hlev, -, -, -, -⟩ := insertLevel_spec c v label imp hcap hv
  obtain ⟨e1, e2, e3⟩ := eraseIdx_insert c.s.levels p hp
    (writeNewLevel v label (imp.getD label) slot)
  refine ⟨c1, p, hcall, hp, ?_, ?_, ?_, ?_, ?_, ?_, ?_, ?_⟩
  · rw [hlev, e2]; rfl
  · rw [hlev, e2]; rfl
  · rw [hlev, e2]; rfl
  · rw [hlev, e2]; rfl
  · rw [hlev, e2]; rfl
  · rw [hlev]
    exact countP_insert _ _ _ _ (by show decide (v = v) = true; exact decide_eq_true rfl)
      (fun l hl => decide_eq_false (hv l hl))
  · rw [hlev]; exact e1
  · unfold levelsUsed; rw [hlev]; exact e3

/-- C19, an instance of `insertLevel_keeps_levels`: inserting `5` into the
dictionary `1, 2, 9` puts it before the `9`; the entries `1, 2, 9` are what is
left around it. -/
theorem insertLevel_keeps_levels_witness :
    (dictionaryOf [1, 2, 9]).levelsUsed ≤ (dictionaryOf [1, 2, 9]).s.levelsCapacity ∧
    (∀ l ∈ (dictionaryOf [1, 2, 9]).s.levels, l.value ≠ 5) ∧
    ((dictionaryOf [1, 2, 9]).insertLevel 5 "5" none).map
        (fun c => (c.s.levels.eraseIdx 2 == (dictionaryOf [1, 2, 9]).s.levels,
          c.s.levels.map (fun l => (l.value, l.count, l.countExFiltered))))
      = some (true, [(1, 0, 0), (2, 0, 0), (5, 0, 0), (9, 0, 0)]) ∧
    ∃ c1 p, (dictionaryOf [1, 2, 9]).insertLevel 5 "5" none = some c1 ∧
      c1.s.levels.eraseIdx p = (dictionaryOf [1, 2, 9]).s.levels ∧
      c1.levelsUsed = (dictionaryOf [1, 2, 9]).levelsUsed + 1 :=
  ⟨by decide, by decide, by decide, by
    obtain ⟨c1, p, h1, -, -, -, -, -, -, -, h9, h10⟩ :=
      insertLevel_keeps_levels (dictionaryOf [1, 2, 9]) 5 "5" none (by decide) (by decide)
    exact ⟨c1, p, h1, h9, h10⟩⟩

/-- C20: for a dictionary whose array has room for its entries and a value no
entry holds, `insertLevel` leaves the capacities of the old entries as they
were. The new entry records the capacities granted for its own two buffers
only when it stays at the tail; when it is placed before the tail, at a
position `p` an old entry occupied, it records the two capacities of that old
entry, which the shifting loop has overwritten in every other field. -/
theorem insertLevel_capacities (c : ColumnW) (v : Int) (label : String)
    (imp : Option String) (hcap : c.levelsUsed ≤ c.s.levelsCapacity)
    (hv : ∀ l ∈ c.s.levels, l.value ≠ v) :
    ∃ c1 p, c.insertLevel v label imp = some c1 ∧ p ≤ c.levelsUsed ∧
      (c1.s.levels.getD p default).value = v ∧
      c1.s.levels.eraseIdx p = c.s.levels ∧
      (p = c.levelsUsed →
        (c1.s.levels.getD p default).capacity = c.mm.granted (label.utf8ByteSize + 1) ∧
        (c1.s.levels.getD p default).importCapacity
          = c.mm.granted ((imp.getD label).utf8ByteSize + 1)) ∧
      (p < c.levelsUsed →
        (c1.s.levels.getD p default).capacity = (c.s.levels.getD p default).capacity ∧
        (c1.s.levels.getD p default).importCapacity
          = (c.s.levels.getD p default).importCapacity) := by
  obtain ⟨p, slot, c1, hp, hcall, -, hlev, hslot, -, -, -⟩ :=
    insertLevel_spec c v label imp hcap hv
  obtain ⟨e1, e2, -⟩ := eraseIdx_insert c.s.levels p hp
    (writeNewLevel v label (imp.getD label) slot)
  refine ⟨c1, p, hcall, hp, ?_, ?_, fun hpe => ?_, fun hpl => ?_⟩
  · rw [hlev, e2]; rfl
  · rw [hlev]; exact e1
  · rcases hslot with ⟨-, hs⟩ | ⟨hlt, -⟩
    · rw [hlev, e2, hs]; exact ⟨rfl, rfl⟩
    · omega
  · rcases hslot with ⟨he, -⟩ | ⟨-, hs⟩
    · omega
    · rw [hlev, e2, hs]; exact ⟨rfl, rfl⟩

/-- C20, an instance of `insertLevel_capacities`: the level `20` with the label
`"20"`, whose buffers are granted three bytes each, goes before the level `30`
and records the twenty bytes granted for the label of `30`. -/
theorem insertLevel_capacities_witness :
    labelledColumn.levelsUsed ≤ labelledColumn.s.levelsCapacity ∧
    (∀ l ∈ labelledColumn.s.levels, l.value ≠ 20) ∧
    labelledColumn.s.levels.map (fun l => (l.value, l.capacity, l.importCapacity))
      = [(10, 4, 4), (30, 20, 20)] ∧
    labelledColumn.mm.granted ("20".utf8ByteSize + 1) = 3 ∧
    (labelledColumn.insertLevel 20 "20" none).map
        (fun c => c.s.levels.map (fun l => (l.value, l.label, l.capacity, l.importCapacity)))
      = some [(10, "ten", 4, 4), (20, "20", 20, 20), (30, "thirty, as imported", 20, 20)] ∧
    ∃ c1 p, labelledColumn.insertLevel 20 "20" none = some c1 ∧
      (c1.s.levels.getD p default).value = 20 ∧
      (p < labelledColumn.levelsUsed →
        (c1.s.levels.getD p default).capacity
          = (labelledColumn.s.levels.getD p default).capacity) :=
  ⟨by decide, by decide, by decide, by decide, by decide, by
    obtain ⟨c1, p, h1, -, h3, -, -, h6⟩ :=
      insertLevel_capacities labelledColumn 20 "20" none (by decide) (by decide)
    exact ⟨c1, p, h1, h3, fun hp => (h6 hp).1⟩⟩

end ColumnW

end Jamovi
